import Mathlib

/-!  Verification of the route-definition front end (eskip lexer, parser and
route-model builder) and of the Kubernetes ingress translator of this
repository.  The repository's sources provide the parser's test suite
(src/eskip/parser_test.go) and the ingress translator
(src/dataclients/kubernetes/ingress.go); the eskip lexer/parser/builder
themselves are not among the provided files, so their definitions below are
modelled from the specification (spec.md sections 3, 4.1-4.4, 8), with the
shipped test suite fixing the points the specification leaves open.  -/

namespace Eskip

/-- Modelled from the spec: identifier start characters, a letter or
underscore (section 4.1). -/
def isIdentStart (c : Char) : Bool := c.isAlpha || c = '_'

/-- Modelled from the spec: identifier continuation characters, letters,
digits or underscores (section 4.1). -/
def isIdentChar (c : Char) : Bool := c.isAlphanum || c = '_'

/-- Modelled from the spec: the string-escape table of section 4.3.  A
backslash followed by one of a, b, f, n, r, t, v decodes to the corresponding
control character; a backslash before any other character decodes to that
character alone (this covers backslash-backslash, backslash-quote,
backslash-slash, backslash-whitespace and unknown escapes). -/
def escChar (c : Char) : Char :=
  if c = 'a' then Char.ofNat 7
  else if c = 'b' then Char.ofNat 8
  else if c = 'f' then Char.ofNat 12
  else if c = 'n' then Char.ofNat 10
  else if c = 'r' then Char.ofNat 13
  else if c = 't' then Char.ofNat 9
  else if c = 'v' then Char.ofNat 11
  else c

/-- Prepend decoded characters to the content of a literal-munching result. -/
def consAll (pre : List Char) (o : Option (List Char × List Char)) :
    Option (List Char × List Char) :=
  o.map (fun p => (pre ++ p.1, p.2))

/-- Modelled from the spec: consume the body of a quoted-string literal (the
opening quote already consumed), decoding escapes per the table, up to and
including the closing quote.  Returns the decoded content and the input that
follows the literal; an unterminated literal yields none (section 4.1). -/
def munchString : List Char → Option (List Char × List Char)
  | [] => none
  | '"' :: rest => some ([], rest)
  | '\\' :: [] => none
  | '\\' :: d :: rest2 => consAll [escChar d] (munchString rest2)
  | c :: rest => consAll [c] (munchString rest)

/-- Modelled from the spec: the decoded form of an escaped character inside a
regex literal: backslash-slash decodes to a slash and backslash-backslash to
a single backslash (spec section 8); a backslash before any other character
is kept together with that character (section 4.3). -/
def reEsc (d : Char) : List Char :=
  if d = '/' then ['/']
  else if d = '\\' then ['\\']
  else ['\\', d]

/-- Modelled from the spec: consume the body of a regex literal (the opening
slash already consumed) up to and including the closing unescaped slash,
tracking bracket expressions so an unescaped slash inside a character class
does not terminate the literal (section 4.3).  The Boolean argument is the
inside-a-bracket state. -/
def munchRegexp (inB : Bool) : List Char → Option (List Char × List Char)
  | [] => none
  | '\\' :: [] => none
  | '\\' :: d :: rest2 => consAll (reEsc d) (munchRegexp inB rest2)
  | '/' :: rest =>
      if inB then consAll ['/'] (munchRegexp inB rest) else some ([], rest)
  | '[' :: rest => consAll ['['] (munchRegexp true rest)
  | ']' :: rest => consAll [']'] (munchRegexp false rest)
  | c :: rest => consAll [c] (munchRegexp inB rest)

/-- Modelled from the spec: lex a number literal (section 4.1): digits, then
an optional decimal point that must be followed by at least one digit; the
integer part may be empty only when a fractional part follows the point.  The
Boolean records a leading minus sign (already consumed by the caller).
Returns the literal's text and the rest of the input. -/
def lexNum (neg : Bool) (l : List Char) : Option (List Char × List Char) :=
  match l.dropWhile Char.isDigit with
  | '.' :: rest2 =>
      if (rest2.takeWhile Char.isDigit).isEmpty then none
      else some ((if neg then ['-'] else [])
                   ++ l.takeWhile Char.isDigit
                   ++ '.' :: rest2.takeWhile Char.isDigit,
                 rest2.dropWhile Char.isDigit)
  | _ =>
      if (l.takeWhile Char.isDigit).isEmpty then none
      else some ((if neg then ['-'] else []) ++ l.takeWhile Char.isDigit,
                 l.dropWhile Char.isDigit)

/-- Modelled from the spec: the token kinds of section 3 (identifier,
quoted string, regex literal, number, and the fixed symbols). -/
inductive Token
  | ident (s : List Char)
  | strTok (s : List Char)
  | reTok (s : List Char)
  | numTok (s : List Char)
  | lparen
  | rparen
  | comma
  | colon
  | semi
  | arrow
  | andand
  | star
  | lt
  | gt
deriving DecidableEq, Repr

theorem consAll_eq_some {pre : List Char} {o : Option (List Char × List Char)}
    {s r : List Char} :
    consAll pre o = some (s, r) ↔ ∃ s1, o = some (s1, r) ∧ s = pre ++ s1 := by
  cases o with
  | none => simp [consAll]
  | some p => cases p; simp [consAll]; aesop

theorem munchString_length {l s r : List Char}
    (h : munchString l = some (s, r)) : r.length < l.length := by
  induction l using munchString.induct generalizing s r with
  | case1 => simp [munchString] at h
  | case2 rest =>
    simp [munchString] at h
    obtain ⟨h1, h2⟩ := h
    subst h2
    simp
  | case3 => simp [munchString] at h
  | case4 d rest2 ih =>
    simp [munchString, consAll_eq_some] at h
    obtain ⟨s1, hp, _⟩ := h
    have := ih hp
    simp only [List.length_cons]
    omega
  | case5 c rest h1 h2 h3 ih =>
    rw [munchString.eq_5 c rest h1 h2 h3, consAll_eq_some] at h
    obtain ⟨s1, hp, _⟩ := h
    have := ih hp
    simp only [List.length_cons]
    omega

theorem munchRegexp_length {b : Bool} {l s r : List Char}
    (h : munchRegexp b l = some (s, r)) : r.length < l.length := by
  induction b, l using munchRegexp.induct generalizing s r with
  | case1 _ => simp [munchRegexp] at h
  | case2 _ => simp [munchRegexp] at h
  | case3 inB d rest2 ih =>
    simp [munchRegexp, consAll_eq_some] at h
    obtain ⟨s1, hp, _⟩ := h
    have := ih hp
    simp only [List.length_cons]
    omega
  | case4 rest ih =>
    rw [munchRegexp.eq_4 true rest, if_pos rfl, consAll_eq_some] at h
    obtain ⟨s1, hp, _⟩ := h
    have := ih hp
    simp only [List.length_cons]
    omega
  | case5 inB rest hb =>
    rw [munchRegexp.eq_4 inB rest, if_neg hb, Option.some.injEq,
      Prod.mk.injEq] at h
    obtain ⟨_, hr⟩ := h
    subst hr
    simp
  | case6 inB rest ih =>
    simp [munchRegexp, consAll_eq_some] at h
    obtain ⟨s1, hp, _⟩ := h
    have := ih hp
    simp only [List.length_cons]
    omega
  | case7 inB rest ih =>
    simp [munchRegexp, consAll_eq_some] at h
    obtain ⟨s1, hp, _⟩ := h
    have := ih hp
    simp only [List.length_cons]
    omega
  | case8 inB c rest h1 h2 h3 h4 h5 ih =>
    rw [munchRegexp.eq_7 inB c rest h1 h2 h3 h4 h5, consAll_eq_some] at h
    obtain ⟨s1, hp, _⟩ := h
    have := ih hp
    simp only [List.length_cons]
    omega

theorem lexNum_length {neg : Bool} {l t r : List Char}
    (h : lexNum neg l = some (t, r)) : r.length < l.length := by
  have htd : (l.takeWhile Char.isDigit).length
      + (l.dropWhile Char.isDigit).length = l.length := by
    rw [← List.length_append, List.takeWhile_append_dropWhile]
  unfold lexNum at h
  split at h
  case _ rest2 heq =>
    split at h
    · exact absurd h (by simp)
    · rw [Option.some.injEq, Prod.mk.injEq] at h
      obtain ⟨_, hr⟩ := h
      subst hr
      have h3 : (rest2.dropWhile Char.isDigit).length ≤ rest2.length :=
        (List.dropWhile_sublist _).length_le
      have h4 : rest2.length + 1 ≤ l.length := by
        rw [← htd, heq]
        simp only [List.length_cons]
        omega
      omega
  case _ =>
    split at h
    · exact absurd h (by simp)
    case _ hne =>
      rw [Option.some.injEq, Prod.mk.injEq] at h
      obtain ⟨_, hr⟩ := h
      subst hr
      have h5 : 1 ≤ (l.takeWhile Char.isDigit).length := by
        cases hc : l.takeWhile Char.isDigit with
        | nil => rw [hc] at hne; simp at hne
        | cons a b => simp
      omega

/-- Modelled from the spec: one step of the lexer of section 4.1, at a
non-empty input c :: cs.  Whitespace produces no token; identifiers, quoted
strings, regex literals, numbers (a leading minus also begins the arrow
token) and the single-character symbols produce one token; anything else is
an error (none).  The result carries the optional token and the remaining
input. -/
def lexStep (c : Char) (cs : List Char) :
    Option (Option Token × List Char) :=
  if c.isWhitespace then some (none, cs)
  else if isIdentStart c then
    some (some (Token.ident (c :: cs.takeWhile isIdentChar)),
          cs.dropWhile isIdentChar)
  else if c = '"' then
    (munchString cs).map (fun p => (some (Token.strTok p.1), p.2))
  else if c = '/' then
    (munchRegexp false cs).map (fun p => (some (Token.reTok p.1), p.2))
  else if c.isDigit ∨ c = '.' then
    (lexNum false (c :: cs)).map (fun p => (some (Token.numTok p.1), p.2))
  else if c = '-' then
    if cs.head? = some '>' then some (some Token.arrow, cs.tail)
    else (lexNum true cs).map (fun p => (some (Token.numTok p.1), p.2))
  else if c = '&' then
    if cs.head? = some '&' then some (some Token.andand, cs.tail)
    else none
  else if c = '(' then some (some Token.lparen, cs)
  else if c = ')' then some (some Token.rparen, cs)
  else if c = ',' then some (some Token.comma, cs)
  else if c = ':' then some (some Token.colon, cs)
  else if c = ';' then some (some Token.semi, cs)
  else if c = '*' then some (some Token.star, cs)
  else if c = '<' then some (some Token.lt, cs)
  else if c = '>' then some (some Token.gt, cs)
  else none

theorem lexStep_length {c : Char} {cs : List Char} {t : Option Token}
    {r : List Char} (h : lexStep c cs = some (t, r)) : r.length ≤ cs.length := by
  have htail : cs.tail.length ≤ cs.length := by
    cases cs <;> simp
  unfold lexStep at h
  by_cases h1 : c.isWhitespace = true
  · rw [if_pos h1, Option.some.injEq, Prod.mk.injEq] at h
    rw [← h.2]
  · rw [if_neg h1] at h
    by_cases h2 : isIdentStart c = true
    · rw [if_pos h2, Option.some.injEq, Prod.mk.injEq] at h
      rw [← h.2]
      exact (List.dropWhile_sublist _).length_le
    · rw [if_neg h2] at h
      by_cases h3 : c = '"'
      · rw [if_pos h3, Option.map_eq_some'] at h
        obtain ⟨p, hp, he⟩ := h
        obtain ⟨s1, r1⟩ := p
        simp only [Prod.mk.injEq] at he
        rw [← he.2]
        exact (munchString_length hp).le
      · rw [if_neg h3] at h
        by_cases h4 : c = '/'
        · rw [if_pos h4, Option.map_eq_some'] at h
          obtain ⟨p, hp, he⟩ := h
          obtain ⟨s1, r1⟩ := p
          simp only [Prod.mk.injEq] at he
          rw [← he.2]
          exact (munchRegexp_length hp).le
        · rw [if_neg h4] at h
          by_cases h5 : (c.isDigit = true ∨ c = '.')
          · rw [if_pos h5, Option.map_eq_some'] at h
            obtain ⟨p, hp, he⟩ := h
            obtain ⟨s1, r1⟩ := p
            simp only [Prod.mk.injEq] at he
            rw [← he.2]
            have := lexNum_length hp
            simp only [List.length_cons] at this
            omega
          · rw [if_neg h5] at h
            by_cases h6 : c = '-'
            · rw [if_pos h6] at h
              by_cases h7 : cs.head? = some '>'
              · rw [if_pos h7, Option.some.injEq, Prod.mk.injEq] at h
                rw [← h.2]
                exact htail
              · rw [if_neg h7, Option.map_eq_some'] at h
                obtain ⟨p, hp, he⟩ := h
                obtain ⟨s1, r1⟩ := p
                simp only [Prod.mk.injEq] at he
                rw [← he.2]
                exact (lexNum_length hp).le
            · rw [if_neg h6] at h
              by_cases h8 : c = '&'
              · rw [if_pos h8] at h
                by_cases h9 : cs.head? = some '&'
                · rw [if_pos h9, Option.some.injEq, Prod.mk.injEq] at h
                  rw [← h.2]
                  exact htail
                · rw [if_neg h9] at h
                  exact absurd h (by simp)
              · rw [if_neg h8] at h
                repeat'
                  first
                  | (split at h
                     · rw [Option.some.injEq, Prod.mk.injEq] at h
                       rw [← h.2])
                  | (exact absurd h (by simp))

/-- The lexer loop: structurally recursive on a fuel bound so that concrete
documents evaluate by definitional reduction; lexFuel_mono shows the result
does not depend on the fuel once it exceeds the input length, and lex
supplies enough. -/
def lexFuel : Nat → List Char → Option (List Token)
  | 0, _ => none
  | _ + 1, [] => some []
  | f + 1, c :: cs =>
    match lexStep c cs with
    | none => none
    | some (none, r) => lexFuel f r
    | some (some t, r) => (lexFuel f r).map (fun ts => t :: ts)

theorem lexFuel_mono :
    ∀ (f1 : Nat) (l : List Char) (f2 : Nat), l.length < f1 → l.length < f2 →
      lexFuel f1 l = lexFuel f2 l := by
  intro f1
  induction f1 with
  | zero => intro l f2 h; omega
  | succ f ih =>
    intro l f2 hf1 hf2
    match f2, l with
    | g + 1, [] => rfl
    | g + 1, c :: cs =>
      have hcs : cs.length < f ∧ cs.length < g := by
        simp only [List.length_cons] at hf1 hf2
        omega
      rw [lexFuel, lexFuel]
      cases hstep : lexStep c cs with
      | none => rfl
      | some p =>
        obtain ⟨t?, r⟩ := p
        have hr := lexStep_length hstep
        obtain ⟨hcs1, hcs2⟩ := hcs
        cases t? with
        | none => exact ih r g (by omega) (by omega)
        | some t =>
          exact congrArg (Option.map (fun ts => t :: ts))
            (ih r g (by omega) (by omega))

/-- Modelled from the spec: the lexer entry point. -/
def lex (l : List Char) : Option (List Token) := lexFuel (l.length + 1) l

/-- Map a fallible function over a list, failing when any element fails. -/
def mapMO {α β : Type} (f : α → Option β) : List α → Option (List β)
  | [] => some []
  | x :: xs =>
    match f x with
    | none => none
    | some y => (mapMO f xs).map (fun ys => y :: ys)

/-- Split a list at every occurrence of the separator; separators are dropped
and the (possibly empty) segments between them are returned.  There is always
at least one segment. -/
def splitSep {α : Type} [DecidableEq α] (sep : α) : List α → List (List α)
  | [] => [[]]
  | a :: as =>
    if a = sep then [] :: splitSep sep as
    else
      match splitSep sep as with
      | s :: ss => (a :: s) :: ss
      | [] => [[a]]

/-- Modelled from the spec: a decoded argument value (section 3): a UTF-8
string (quoted-string and regex literals both decode to strings) or a number
(kept as its validated literal text). -/
inductive Arg
  | strA (s : List Char)
  | numA (s : List Char)
deriving DecidableEq, Repr

/-- Modelled from the spec: a predicate occurrence (Matcher, section 3): a
name with an ordered argument list. -/
structure Predicate where
  name : List Char
  args : List Arg
deriving DecidableEq, Repr

/-- Modelled from the spec: a filter occurrence (section 3). -/
structure Filter where
  name : List Char
  args : List Arg
deriving DecidableEq, Repr

/-- Modelled from the spec: the backend classification of the exported route
model (section 3); the Go names are NetworkBackend, ShuntBackend, LoopBackend
and LBBackend. -/
inductive BackendType
  | network
  | shunt
  | loopback
  | lb
deriving DecidableEq, Repr

/-- Modelled from the spec: the backend clause of a route definition
(section 3). -/
inductive BackendAst
  | network (url : List Char)
  | shuntB
  | loopB
  | lb (alg : Option (List Char)) (eps : List (List Char))
deriving DecidableEq, Repr

/-- Modelled from the spec: one route definition of the AST (section 3). -/
structure RouteDef where
  id : List Char
  matchers : List Predicate
  filters : List Filter
  backend : BackendAst
deriving DecidableEq, Repr

/-- Modelled from the spec: the exported Route model (section 3): id, the
promoted predicate fields (Path, PathRegexps, HostRegexps, Method), the
remaining generic predicates, filters and the discriminated backend.  Empty
lists and empty strings are the unset values, as in the Go zero values. -/
structure Route where
  id : List Char := []
  path : List Char := []
  hostRegexps : List (List Char) := []
  pathRegexps : List (List Char) := []
  method : List Char := []
  predicates : List Predicate := []
  filters : List Filter := []
  backendType : BackendType := .network
  backend : List Char := []
  lbAlgorithm : List Char := []
  lbEndpoints : List (List Char) := []
deriving DecidableEq, Repr

/-- Modelled from the spec: a literal token in argument position becomes a
decoded value (section 4.3); quoted strings and regex literals both carry
already-decoded text. -/
def argOfToken : Token → Option Arg
  | .strTok s => some (.strA s)
  | .reTok s => some (.strA s)
  | .numTok s => some (.numA s)
  | _ => none

/-- Modelled from the spec: the rest of an argument list after its first
argument, comma-separated, closed by the right parenthesis (section 4.2). -/
def parseArgsTail : List Token → Option (List Arg × List Token)
  | .rparen :: ts => some ([], ts)
  | .comma :: t :: ts =>
    match argOfToken t with
    | some a => (parseArgsTail ts).map (fun p => (a :: p.1, p.2))
    | none => none
  | _ => none

/-- Modelled from the spec: an optional argument list closed by the right
parenthesis (section 4.2), returning the arguments and the tokens that
follow. -/
def parseArgList : List Token → Option (List Arg × List Token)
  | .rparen :: ts => some ([], ts)
  | t :: ts =>
    match argOfToken t with
    | some a => (parseArgsTail ts).map (fun p => (a :: p.1, p.2))
    | none => none
  | [] => none

/-- Modelled from the spec: one predicate, an identifier with a parenthesized
argument list, taking a whole chunk (section 4.2). -/
def parsePredicateChunk (ts : List Token) : Option Predicate :=
  match ts with
  | .ident n :: .lparen :: rest =>
    match parseArgList rest with
    | some (as, []) => some ⟨n, as⟩
    | _ => none
  | _ => none

/-- Modelled from the spec: one conjunct of a match expression: the catch-all
star, which contributes no matcher, or a predicate (section 4.2; the shipped
test document routes a conjunction of the star and a predicate through the
parser successfully, so the star is accepted as a conjunct). -/
def parseMatchAtom (ts : List Token) : Option (List Predicate) :=
  match ts with
  | [.star] => some []
  | _ => (parsePredicateChunk ts).map (fun p => [p])

/-- Modelled from the spec: a match expression, conjuncts joined by the
ampersand-pair operator (section 4.2). -/
def parseMatchExpr (ts : List Token) : Option (List Predicate) :=
  (mapMO parseMatchAtom (splitSep Token.andand ts)).map List.join

/-- Modelled from the spec: one filter, an identifier with a parenthesized
argument list, taking a whole chunk (section 4.2). -/
def parseFilterChunk (ts : List Token) : Option Filter :=
  match ts with
  | .ident n :: .lparen :: rest =>
    match parseArgList rest with
    | some (as, []) => some ⟨n, as⟩
    | _ => none
  | _ => none

/-- Modelled from the spec: one load-balancer endpoint, a single quoted
string (section 4.2). -/
def parseEndpointChunk : List Token → Option (List Char)
  | [.strTok s] => some s
  | _ => none

/-- Modelled from the spec: the inside of a load-balanced backend: an
optional leading bare identifier before a comma is the algorithm selector,
then one or more comma-separated string endpoints (section 4.2). -/
def parseLBContents (ts : List Token) :
    Option (Option (List Char) × List (List Char)) :=
  match ts with
  | .ident a :: .comma :: rest =>
    (mapMO parseEndpointChunk (splitSep Token.comma rest)).map
      (fun eps => (some a, eps))
  | _ =>
    (mapMO parseEndpointChunk (splitSep Token.comma ts)).map
      (fun eps => (none, eps))

/-- Modelled from the spec: a backend clause, taking a whole chunk: a quoted
string, the shunt or loopback forms in angle brackets, or a load-balanced
backend (section 4.2). -/
def parseBackendChunk (ts : List Token) : Option BackendAst :=
  match ts with
  | [.strTok s] => some (.network s)
  | .lt :: rest =>
    match rest.getLast? with
    | some .gt =>
      if rest.dropLast = [Token.ident ("shunt".toList)] then some .shuntB
      else if rest.dropLast = [Token.ident ("loopback".toList)] then
        some .loopB
      else (parseLBContents rest.dropLast).map (fun p => .lb p.1 p.2)
    | _ => none
  | _ => none

/-- Modelled from the spec: one route definition (section 4.2): an optional
identifier label, a match expression, then arrow-separated filters and a
final backend chunk.  The token list is split at the arrow tokens, which
occur in no sub-production. -/
def idmOf : List Token → List Char × List Token
  | .ident n :: .colon :: m => (n, m)
  | m => ([], m)

def parseRouteDef (ts : List Token) : Option RouteDef :=
  match splitSep Token.arrow ts with
  | [] => none
  | [_] => none
  | first :: rest =>
    match parseMatchExpr (idmOf first).2 with
    | none => none
    | some ms =>
      match rest.getLast? with
      | none => none
      | some bchunk =>
        match mapMO parseFilterChunk rest.dropLast with
        | none => none
        | some fs =>
          (parseBackendChunk bchunk).map
            (fun b => ⟨(idmOf first).1, ms, fs, b⟩)

/-- Modelled from the spec: a document may end in one optional trailing
semicolon (section 4.2), so one trailing empty segment is dropped. -/
def dropTrailingEmpty (segs : List (List Token)) : List (List Token) :=
  if 2 ≤ segs.length ∧ segs.getLast? = some [] then segs.dropLast else segs

/-- Modelled from the spec: a document, semicolon-separated route
definitions (section 4.2).  In a document of more than one definition every
definition must carry an identifier (section 4.2, notes). -/
def parseDocTokens (ts : List Token) : Option (List RouteDef) :=
  match mapMO parseRouteDef (dropTrailingEmpty (splitSep Token.semi ts)) with
  | none => none
  | some defs =>
    if 2 ≤ defs.length ∧ defs.any (fun d => d.id.isEmpty) then none
    else some defs

/-- Modelled from the spec: the route-model builder's backend classification
(section 4.4): exactly one backend field group is populated. -/
def mkBase (d : RouteDef) : Route :=
  match d.backend with
  | .network url =>
    { id := d.id, filters := d.filters, backendType := .network,
      backend := url }
  | .shuntB => { id := d.id, filters := d.filters, backendType := .shunt }
  | .loopB => { id := d.id, filters := d.filters, backendType := .loopback }
  | .lb alg eps =>
    { id := d.id, filters := d.filters, backendType := .lb,
      lbAlgorithm := alg.getD [], lbEndpoints := eps }

/-- Modelled from the spec: promotion of the well-known predicate names
(section 4.4): Path and Method with one string argument set the dedicated
field, PathRegexp and Host/HostRegexp with one string argument append to the
dedicated list; every other predicate occurrence stays in the generic
predicate list, in order. -/
def applyMatcher (r : Route) (m : Predicate) : Route :=
  if m.name = ("Path".toList) then
    match m.args with
    | [.strA p] => { r with path := p }
    | _ => { r with predicates := r.predicates ++ [m] }
  else if m.name = ("PathRegexp".toList) then
    match m.args with
    | [.strA p] => { r with pathRegexps := r.pathRegexps ++ [p] }
    | _ => { r with predicates := r.predicates ++ [m] }
  else if m.name = ("Host".toList) ∨ m.name = ("HostRegexp".toList) then
    match m.args with
    | [.strA p] => { r with hostRegexps := r.hostRegexps ++ [p] }
    | _ => { r with predicates := r.predicates ++ [m] }
  else if m.name = ("Method".toList) then
    match m.args with
    | [.strA p] => { r with method := p }
    | _ => { r with predicates := r.predicates ++ [m] }
  else { r with predicates := r.predicates ++ [m] }

/-- Modelled from the spec: apply promotion over the matcher list in order
(section 4.4). -/
def applyMatchers (r : Route) (ms : List Predicate) : Route :=
  ms.foldl applyMatcher r

/-- Modelled from the spec: the route-model builder (section 4.4), a total
function from one route definition to one Route. -/
def buildRoute (d : RouteDef) : Route :=
  applyMatchers (mkBase d) d.matchers

/-- Modelled from the spec: the full pipeline on a character list: lexer,
grammar parser, route-model builder (section 2). -/
def parseChars (l : List Char) : Option (List Route) :=
  match lex l with
  | none => none
  | some ts =>
    match parseDocTokens ts with
    | none => none
    | some defs => some (defs.map buildRoute)

/-- Modelled from the spec: the public Parse operation (section 6): a
document in, an ordered sequence of Routes out, or an error (none). -/
def Parse (s : String) : Option (List Route) := parseChars s.toList

/-!  ### Printing the route model back to routing-language text
The repository's route model serializes back to the routing language (the
round-trip law of spec sections 4.4 and 8); the printer below emits one
canonical form: every token followed by one space, string values always in
quoted-string form (regex-literal arguments decode to plain strings, spec
section 3, so they re-serialize as quoted strings), promoted fields as their
predicates, and definitions joined by semicolons.  -/

/-- Is this a well-formed identifier payload (section 4.1)? -/
def wfIdent (s : List Char) : Bool :=
  match s with
  | [] => false
  | c :: rest => isIdentStart c && rest.all isIdentChar

/-- Is this a well-formed number literal body (digits, an optional point
followed by at least one digit, section 4.1)? -/
def wfNumBody (s : List Char) : Bool :=
  match s.dropWhile Char.isDigit with
  | [] => !(s.takeWhile Char.isDigit).isEmpty
  | '.' :: fs => !fs.isEmpty && fs.all Char.isDigit
  | _ => false

/-- Is this a well-formed number literal, with an optional leading minus? -/
def wfNum (s : List Char) : Bool :=
  match s with
  | '-' :: t => wfNumBody t
  | t => wfNumBody t

/-- Encode one character for a quoted-string literal: the escape table of
section 4.3 in reverse. -/
def encStrChar (c : Char) : List Char :=
  if c = '\\' then ['\\', '\\']
  else if c = '"' then ['\\', '"']
  else if c = Char.ofNat 7 then ['\\', 'a']
  else if c = Char.ofNat 8 then ['\\', 'b']
  else if c = Char.ofNat 12 then ['\\', 'f']
  else if c = Char.ofNat 10 then ['\\', 'n']
  else if c = Char.ofNat 13 then ['\\', 'r']
  else if c = Char.ofNat 9 then ['\\', 't']
  else if c = Char.ofNat 11 then ['\\', 'v']
  else [c]

/-- Encode a string value as the body of a quoted-string literal. -/
def encStr (s : List Char) : List Char := (s.map encStrChar).join

/-- The source text of one token (the regex-literal form is never emitted by
the printer: decoded regex arguments are strings and reprint as quoted
strings). -/
def tokenChars : Token → List Char
  | .ident s => s
  | .strTok s => '"' :: (encStr s ++ ['"'])
  | .reTok s => '/' :: (s ++ ['/'])
  | .numTok s => s
  | .lparen => ['(']
  | .rparen => [')']
  | .comma => [',']
  | .colon => [':']
  | .semi => [';']
  | .arrow => ['-', '>']
  | .andand => ['&', '&']
  | .star => ['*']
  | .lt => ['<']
  | .gt => ['>']

/-- Tokens the printer may emit: identifier and number payloads must be
well formed and the regex form is not printable. -/
def wfToken : Token → Bool
  | .ident s => wfIdent s
  | .numTok s => wfNum s
  | .reTok _ => false
  | _ => true

/-- Print a token sequence: each token's text followed by one space. -/
def printTokens (ts : List Token) : List Char :=
  (ts.map (fun t => tokenChars t ++ [' '])).join

/-- Join token chunks with a single separator token between them. -/
def sepJoin {α : Type} (sep : α) : List (List α) → List α
  | [] => []
  | [x] => x
  | x :: xs => x ++ sep :: sepJoin sep xs

/-- The token of one argument value: strings print as quoted strings,
numbers as their literal text. -/
def argToken : Arg → Token
  | .strA s => .strTok s
  | .numA s => .numTok s

/-- The tokens of an argument list after the opening parenthesis. -/
def argListTokens : List Arg → List Token
  | [] => [.rparen]
  | a :: more =>
    argToken a ::
      ((more.map (fun b => [Token.comma, argToken b])).join ++ [Token.rparen])

/-- The tokens of one predicate or filter call. -/
def callTokens (name : List Char) (args : List Arg) : List Token :=
  .ident name :: .lparen :: argListTokens args

/-- The promoted predicate fields of a Route, as predicates again (spec
section 4.4: the promoted fields are a projection of the matcher list). -/
def promotedPreds (r : Route) : List Predicate :=
  (if r.path.isEmpty then [] else [⟨("Path".toList), [.strA r.path]⟩])
    ++ r.hostRegexps.map (fun h => ⟨("Host".toList), [Arg.strA h]⟩)
    ++ r.pathRegexps.map (fun p => ⟨("PathRegexp".toList), [Arg.strA p]⟩)
    ++ (if r.method.isEmpty then [] else [⟨("Method".toList), [.strA r.method]⟩])

/-- The tokens of a Route's match expression: the conjunction of its
predicates, or the catch-all star when there are none. -/
def matchTokens (r : Route) : List Token :=
  match promotedPreds r ++ r.predicates with
  | [] => [Token.star]
  | ps => sepJoin Token.andand (ps.map (fun p => callTokens p.name p.args))

/-- The tokens of a Route's backend clause. -/
def backendTokens (r : Route) : List Token :=
  match r.backendType with
  | .network => [.strTok r.backend]
  | .shunt => [.lt, .ident ("shunt".toList), .gt]
  | .loopback => [.lt, .ident ("loopback".toList), .gt]
  | .lb =>
    Token.lt ::
      ((if r.lbAlgorithm.isEmpty then []
        else [Token.ident r.lbAlgorithm, Token.comma])
        ++ sepJoin Token.comma (r.lbEndpoints.map (fun e => [Token.strTok e]))
        ++ [Token.gt])

/-- The tokens of one route definition. -/
def routeTokens (r : Route) : List Token :=
  (if r.id.isEmpty then [] else [.ident r.id, .colon])
    ++ matchTokens r ++ Token.arrow ::
      ((r.filters.map (fun fl => callTokens fl.name fl.args
          ++ [Token.arrow])).join
        ++ backendTokens r)

/-- The tokens of a document: definitions joined by semicolons. -/
def docTokens (rs : List Route) : List Token :=
  sepJoin Token.semi (rs.map routeTokens)

/-- Serialize a route list back to routing-language text. -/
def printRoutes (rs : List Route) : List Char := printTokens (docTokens rs)

/-- A well-formed argument: a number argument carries valid literal text. -/
def wfArg : Arg → Bool
  | .strA _ => true
  | .numA s => wfNum s

/-- Does promotion (applyMatcher) move this predicate into a dedicated
field? -/
def isPromotable (p : Predicate) : Bool :=
  (p.name = ("Path".toList) || p.name = ("PathRegexp".toList)
    || p.name = ("Host".toList) || p.name = ("HostRegexp".toList)
    || p.name = ("Method".toList))
  && match p.args with
     | [.strA _] => true
     | _ => false

/-- A well-formed generic predicate occurrence: a valid identifier name,
well-formed arguments, and not of the promoted form (promotion would have
removed it from the generic list). -/
def wfPred (p : Predicate) : Bool :=
  wfIdent p.name && p.args.all wfArg && !(isPromotable p)

/-- A well-formed filter occurrence. -/
def wfFilter (fl : Filter) : Bool :=
  wfIdent fl.name && fl.args.all wfArg

/-- A Route as the parser can produce it: well-formed names and number
texts, exactly one backend field group populated, a load-balanced backend
with at least one endpoint. -/
def wfRoute (r : Route) : Bool :=
  (r.id.isEmpty || wfIdent r.id)
    && r.predicates.all wfPred
    && r.filters.all wfFilter
    && match r.backendType with
       | .network => r.lbAlgorithm.isEmpty && r.lbEndpoints.isEmpty
       | .shunt =>
         r.backend.isEmpty && r.lbAlgorithm.isEmpty && r.lbEndpoints.isEmpty
       | .loopback =>
         r.backend.isEmpty && r.lbAlgorithm.isEmpty && r.lbEndpoints.isEmpty
       | .lb =>
         r.backend.isEmpty && (r.lbAlgorithm.isEmpty || wfIdent r.lbAlgorithm)
           && !r.lbEndpoints.isEmpty

/-- A route list as Parse can produce it: non-empty, each route well formed,
and in a multi-route list every route labeled. -/
def wfRoutes (rs : List Route) : Bool :=
  !rs.isEmpty && rs.all wfRoute
    && (rs.length == 1 || rs.all (fun r => !r.id.isEmpty))

/-- The backend clause of a Route, inverted from the builder's
classification. -/
def backendAstOf (r : Route) : BackendAst :=
  match r.backendType with
  | .network => .network r.backend
  | .shunt => .shuntB
  | .loopback => .loopB
  | .lb =>
    .lb (if r.lbAlgorithm.isEmpty then none else some r.lbAlgorithm)
      r.lbEndpoints

/-- The route definition a Route prints as. -/
def defOf (r : Route) : RouteDef :=
  ⟨r.id, promotedPreds r ++ r.predicates, r.filters, backendAstOf r⟩

/-!  ### The lexer re-reads what the printer writes  -/

theorem takeWhile_append_stop {α : Type} {p : α → Bool} {l : List α}
    {c : α} (r : List α) (h : l.all p = true) (hc : p c = false) :
    (l ++ c :: r).takeWhile p = l ∧ (l ++ c :: r).dropWhile p = c :: r := by
  induction l with
  | nil => simp [List.takeWhile, List.dropWhile, hc]
  | cons a as ih =>
    simp only [List.all_cons, Bool.and_eq_true] at h
    obtain ⟨ha, has⟩ := h
    obtain ⟨h1, h2⟩ := ih has
    constructor
    · simp [List.takeWhile_cons, ha, h1]
    · simp [List.dropWhile_cons, ha, h2]

theorem all_takeWhile {α : Type} (p : α → Bool) (l : List α) :
    (l.takeWhile p).all p = true := by
  induction l with
  | nil => rfl
  | cons a as ih =>
    rw [List.takeWhile_cons]
    cases hp : p a with
    | false => rfl
    | true => simp [hp, ih]

theorem identStart_not_ws {c : Char} (h : isIdentStart c = true) :
    c.isWhitespace = false := by
  by_contra hw
  simp only [Bool.not_eq_false] at hw
  have hcase : c = ' ' ∨ c = '\t' ∨ c = '\r' ∨ c = '\n' := by
    simpa [Char.isWhitespace, or_assoc] using hw
  rcases hcase with rfl | rfl | rfl | rfl <;> exact absurd h (by decide)

theorem identStart_isIdentChar {c : Char} (h : isIdentStart c = true) :
    isIdentChar c = true := by
  unfold isIdentStart at h
  unfold isIdentChar
  rcases Bool.or_eq_true_iff.mp h with h1 | h1
  · unfold Char.isAlphanum
    rw [h1]
    rfl
  · rw [h1]
    exact Bool.or_true _

theorem isDigit_ne_lit {c d : Char} (h : c.isDigit = true)
    (hd : d.isDigit = false) : c ≠ d := by
  intro he
  rw [he] at h
  rw [h] at hd
  cases hd

theorem isDigit_bounds {c : Char} (h : c.isDigit = true) :
    (48 : UInt32) ≤ c.val ∧ c.val ≤ 57 := by
  unfold Char.isDigit at h
  rw [Bool.and_eq_true] at h
  exact ⟨of_decide_eq_true h.1, of_decide_eq_true h.2⟩

theorem isDigit_not_alpha {c : Char} (h : c.isDigit = true) :
    c.isAlpha = false := by
  obtain ⟨h1, h2⟩ := isDigit_bounds h
  have hu : ¬ (65 : UInt32) ≤ c.val := fun hx =>
    absurd (UInt32.le_trans hx h2) (by decide)
  have hl : ¬ (97 : UInt32) ≤ c.val := fun hx =>
    absurd (UInt32.le_trans hx h2) (by decide)
  unfold Char.isAlpha Char.isUpper Char.isLower
  rw [decide_eq_false hu, decide_eq_false hl]
  rfl

theorem isDigit_not_identStart {c : Char} (h : c.isDigit = true) :
    isIdentStart c = false := by
  unfold isIdentStart
  rw [isDigit_not_alpha h, decide_eq_false (isDigit_ne_lit h (by decide))]
  rfl

theorem isDigit_not_ws {c : Char} (h : c.isDigit = true) :
    c.isWhitespace = false := by
  unfold Char.isWhitespace
  rw [decide_eq_false (isDigit_ne_lit h (by decide)),
    decide_eq_false (isDigit_ne_lit h (by decide)),
    decide_eq_false (isDigit_ne_lit h (by decide)),
    decide_eq_false (isDigit_ne_lit h (by decide))]
  rfl

theorem encStr_cons (c : Char) (s : List Char) :
    encStr (c :: s) = encStrChar c ++ encStr s := rfl

theorem munchString_generic {c : Char} (l : List Char)
    (hq : ¬ c = '"') (hb : ¬ c = '\\') :
    munchString (c :: l) = consAll [c] (munchString l) :=
  munchString.eq_5 c l (fun h => hq h) (fun h _ => hb h) (fun _ _ h _ => hb h)

theorem munchString_encStr (s rest : List Char) :
    munchString (encStr s ++ '"' :: rest) = some (s, rest) := by
  induction s with
  | nil => rfl
  | cons c s' ih =>
    rw [encStr_cons, List.append_assoc]
    by_cases h1 : c = '\\'
    · subst h1
      show munchString ('\\' :: '\\' :: (encStr s' ++ '"' :: rest)) = _
      show consAll [escChar '\\'] (munchString (encStr s' ++ '"' :: rest)) = _
      rw [ih]
      rfl
    · by_cases h2 : c = '"'
      · subst h2
        show munchString ('\\' :: '"' :: (encStr s' ++ '"' :: rest)) = _
        show consAll [escChar '"'] (munchString (encStr s' ++ '"' :: rest)) = _
        rw [ih]
        rfl
      · by_cases h3 : c = Char.ofNat 7
        · subst h3
          show consAll [escChar 'a'] (munchString (encStr s' ++ '"' :: rest)) = _
          rw [ih]
          rfl
        · by_cases h4 : c = Char.ofNat 8
          · subst h4
            show consAll [escChar 'b'] (munchString (encStr s' ++ '"' :: rest)) = _
            rw [ih]
            rfl
          · by_cases h5 : c = Char.ofNat 12
            · subst h5
              show consAll [escChar 'f'] (munchString (encStr s' ++ '"' :: rest)) = _
              rw [ih]
              rfl
            · by_cases h6 : c = Char.ofNat 10
              · subst h6
                show consAll [escChar 'n'] (munchString (encStr s' ++ '"' :: rest)) = _
                rw [ih]
                rfl
              · by_cases h7 : c = Char.ofNat 13
                · subst h7
                  show consAll [escChar 'r']
                    (munchString (encStr s' ++ '"' :: rest)) = _
                  rw [ih]
                  rfl
                · by_cases h8 : c = Char.ofNat 9
                  · subst h8
                    show consAll [escChar 't']
                      (munchString (encStr s' ++ '"' :: rest)) = _
                    rw [ih]
                    rfl
                  · by_cases h9 : c = Char.ofNat 11
                    · subst h9
                      show consAll [escChar 'v']
                        (munchString (encStr s' ++ '"' :: rest)) = _
                      rw [ih]
                      rfl
                    · have he : encStrChar c = [c] := by
                        unfold encStrChar
                        rw [if_neg h1, if_neg h2, if_neg h3, if_neg h4,
                          if_neg h5, if_neg h6, if_neg h7, if_neg h8,
                          if_neg h9]
                      rw [he]
                      show munchString (c :: (encStr s' ++ '"' :: rest)) = _
                      rw [munchString_generic _ h2 h1, ih]
                      rfl

theorem wfNumBody_append {t : List Char} (neg : Bool) (X : List Char)
    (h : wfNumBody t = true) :
    lexNum neg (t ++ ' ' :: X)
      = some ((if neg then ['-'] else []) ++ t, ' ' :: X) := by
  have hsplit := List.takeWhile_append_dropWhile (p := Char.isDigit) (l := t)
  unfold wfNumBody at h
  cases hd : t.dropWhile Char.isDigit with
  | nil =>
    rw [hd] at h
    have ht : t.takeWhile Char.isDigit = t := by
      conv_rhs => rw [← hsplit]
      rw [hd, List.append_nil]
    have hall : t.all Char.isDigit = true := by
      rw [← ht]
      exact all_takeWhile _ _
    obtain ⟨htw, hdw⟩ :=
      takeWhile_append_stop (p := Char.isDigit) (c := ' ') X hall (by decide)
    have hte : t.isEmpty = false := by
      simp only [ht] at h
      rwa [Bool.not_eq_true'] at h
    unfold lexNum
    rw [htw, hdw]
    simp [hte]
  | cons c fs =>
    rw [hd] at h
    split at h
    case _ heq => exact absurd heq (by simp)
    case _ fs2 heq =>
      obtain ⟨hc, hfs⟩ : c = '.' ∧ fs = fs2 := by
        rw [List.cons.injEq] at heq
        exact heq
      subst hc
      subst hfs
      rw [Bool.and_eq_true] at h
      obtain ⟨hfs1, hfs2⟩ := h
      have ht : t = t.takeWhile Char.isDigit ++ '.' :: fs := by
        conv_lhs => rw [← hsplit]
        rw [hd]
      have halltw : (t.takeWhile Char.isDigit).all Char.isDigit = true :=
        all_takeWhile _ _
      have hrw : t ++ ' ' :: X
          = t.takeWhile Char.isDigit ++ '.' :: (fs ++ ' ' :: X) := by
        conv_lhs => rw [ht]
        simp [List.append_assoc]
      obtain ⟨htw2, hdw2⟩ :=
        takeWhile_append_stop (p := Char.isDigit) (c := '.')
          (fs ++ ' ' :: X) halltw (by decide)
      obtain ⟨htw3, hdw3⟩ :=
        takeWhile_append_stop (p := Char.isDigit) (c := ' ') X hfs2 (by decide)
      have hfe : fs.isEmpty = false := by rwa [Bool.not_eq_true'] at hfs1
      unfold lexNum
      rw [hrw, hdw2]
      simp only [htw2, htw3, hdw3, hfe]
      rw [List.append_assoc, ← ht]
      simp
    case _ =>
      cases h

theorem wfNumBody_head {t : List Char} (h : wfNumBody t = true) :
    ∃ c t2, t = c :: t2 ∧ (c.isDigit = true ∨ c = '.') := by
  cases t with
  | nil => simp [wfNumBody] at h
  | cons c t2 =>
    refine ⟨c, t2, rfl, ?_⟩
    by_cases hc : c.isDigit = true
    · exact Or.inl hc
    · right
      unfold wfNumBody at h
      rw [List.dropWhile_cons] at h
      rw [Bool.not_eq_true] at hc
      rw [hc] at h
      simp only [Bool.false_eq_true, if_false] at h
      split at h
      · rename_i heq
        exact absurd heq (by simp)
      · rename_i fs2 heq
        rw [List.cons.injEq] at heq
        exact heq.1
      · cases h

theorem lexStep_print (t : Token) (X : List Char) (h : wfToken t = true) :
    ∃ c cs0, tokenChars t = c :: cs0 ∧
      lexStep c (cs0 ++ ' ' :: X) = some (some t, ' ' :: X) := by
  cases t with
  | ident s =>
    unfold wfToken wfIdent at h
    cases s with
    | nil => cases h
    | cons c rest =>
      rw [Bool.and_eq_true] at h
      obtain ⟨h1, h2⟩ := h
      refine ⟨c, rest, rfl, ?_⟩
      obtain ⟨htw, hdw⟩ :=
        takeWhile_append_stop (p := isIdentChar) (c := ' ') X h2 (by decide)
      unfold lexStep
      rw [identStart_not_ws h1, h1]
      simp only [Bool.false_eq_true, if_false, if_true, htw, hdw]
  | strTok s =>
    refine ⟨'"', encStr s ++ ['"'], rfl, ?_⟩
    unfold lexStep
    rw [if_neg (show ¬ (('"').isWhitespace = true) by decide),
      if_neg (show ¬ (isIdentStart '"' = true) by decide),
      if_pos rfl, List.append_assoc]
    show (munchString (encStr s ++ '"' :: (' ' :: X))).map _ = _
    rw [munchString_encStr]
    rfl
  | reTok s => cases h
  | numTok s =>
    have hn : wfNum s = true := h
    unfold wfNum at hn
    cases s with
    | nil => simp [wfNumBody] at hn
    | cons c t0 =>
      by_cases hneg : c = '-'
      · subst hneg
        have hbody : wfNumBody t0 = true := hn
        obtain ⟨d, t2, rfl, hd⟩ := wfNumBody_head hbody
        refine ⟨'-', d :: t2, rfl, ?_⟩
        unfold lexStep
        rw [if_neg (show ¬ (('-').isWhitespace = true) by decide),
          if_neg (show ¬ (isIdentStart '-' = true) by decide),
          if_neg (show ¬ (('-') = '"') by decide),
          if_neg (show ¬ (('-') = '/') by decide),
          if_neg (show ¬ (('-').isDigit = true ∨ ('-') = '.') by decide),
          if_pos rfl]
        have hne : ¬ (((d :: t2) ++ ' ' :: X).head? = some '>') := by
          simp only [List.cons_append, List.head?_cons, Option.some.injEq]
          rcases hd with hdig | hdot
          · exact isDigit_ne_lit hdig (by decide)
          · rw [hdot]
            decide
        rw [if_neg hne]
        rw [show (d :: t2) ++ ' ' :: X = (d :: t2) ++ ' ' :: X from rfl,
          wfNumBody_append true X hbody]
        rfl
      · have hbody : wfNumBody (c :: t0) = true := by
          split at hn
          · rename_i t2 heq
            rw [List.cons.injEq] at heq
            exact absurd heq.1 hneg
          · exact hn
        obtain ⟨d, t2, heq, hd⟩ := wfNumBody_head hbody
        have hcd : c = d := by
          rw [List.cons.injEq] at heq
          exact heq.1
        rw [← hcd] at hd
        refine ⟨c, t0, rfl, ?_⟩
        unfold lexStep
        have hdig5 : c.isDigit = true ∨ c = '.' := hd
        rcases hd with hdig | hdot
        · rw [isDigit_not_ws hdig, isDigit_not_identStart hdig,
            if_neg (show ¬ (false = true) by decide),
            if_neg (show ¬ (false = true) by decide),
            if_neg (fun he => absurd he (isDigit_ne_lit hdig (by decide))),
            if_neg (fun he => absurd he (isDigit_ne_lit hdig (by decide))),
            if_pos hdig5]
          have := wfNumBody_append (t := c :: t0) false X hbody
          rw [List.cons_append] at this
          rw [this]
          simp
        · subst hdot
          rw [if_neg (show ¬ (('.').isWhitespace = true) by decide),
            if_neg (show ¬ (isIdentStart '.' = true) by decide),
            if_neg (show ¬ (('.') = '"') by decide),
            if_neg (show ¬ (('.') = '/') by decide),
            if_pos hdig5]
          have := wfNumBody_append (t := '.' :: t0) false X hbody
          rw [List.cons_append] at this
          rw [this]
          simp
  | lparen => exact ⟨'(', [], rfl, rfl⟩
  | rparen => exact ⟨')', [], rfl, rfl⟩
  | comma => exact ⟨',', [], rfl, rfl⟩
  | colon => exact ⟨':', [], rfl, rfl⟩
  | semi => exact ⟨';', [], rfl, rfl⟩
  | arrow => exact ⟨'-', ['>'], rfl, rfl⟩
  | andand => exact ⟨'&', ['&'], rfl, rfl⟩
  | star => exact ⟨'*', [], rfl, rfl⟩
  | lt => exact ⟨'<', [], rfl, rfl⟩
  | gt => exact ⟨'>', [], rfl, rfl⟩

theorem printTokens_cons (t : Token) (ts : List Token) :
    printTokens (t :: ts) = tokenChars t ++ ' ' :: printTokens ts := by
  show (tokenChars t ++ [' ']) ++ printTokens ts = _
  rw [List.append_assoc]
  rfl

theorem lexFuel_printTokens :
    ∀ (ts : List Token), ts.all wfToken = true →
      ∀ f : Nat, (printTokens ts).length < f →
        lexFuel f (printTokens ts) = some ts := by
  intro ts
  induction ts with
  | nil =>
    intro _ f hf
    cases f with
    | zero => omega
    | succ g => rfl
  | cons t ts ih =>
    intro hwf f hf
    rw [List.all_cons, Bool.and_eq_true] at hwf
    obtain ⟨hw, hwts⟩ := hwf
    obtain ⟨c, cs0, hct, hstep⟩ := lexStep_print t (printTokens ts) hw
    rw [printTokens_cons, hct] at hf ⊢
    rw [List.length_append, List.length_cons, List.length_cons] at hf
    obtain ⟨g, rfl⟩ : ∃ g, f = g + 2 := ⟨f - 2, by omega⟩
    have hlen : (printTokens ts).length < g := by omega
    show lexFuel (g + 1 + 1) (c :: (cs0 ++ ' ' :: printTokens ts)) = _
    simp only [lexFuel, hstep,
      show lexStep ' ' (printTokens ts) = some (none, printTokens ts) from rfl]
    rw [ih hwts g hlen]
    rfl

theorem lex_printTokens (ts : List Token) (h : ts.all wfToken = true) :
    lex (printTokens ts) = some ts :=
  lexFuel_printTokens ts h _ (Nat.lt_succ_self _)

/-!  ### Splitting, joining and fallible mapping  -/

theorem splitSep_no_sep {α : Type} [DecidableEq α] {sep : α} :
    ∀ {l : List α}, sep ∉ l → splitSep sep l = [l] := by
  intro l
  induction l with
  | nil => intro _; rfl
  | cons a as ih =>
    intro h
    rw [List.mem_cons, not_or] at h
    rw [splitSep, if_neg (fun he => h.1 he.symm), ih h.2]

theorem splitSep_append {α : Type} [DecidableEq α] {sep : α} :
    ∀ {xs : List α} (ys : List α), sep ∉ xs →
      splitSep sep (xs ++ sep :: ys) = xs :: splitSep sep ys := by
  intro xs
  induction xs with
  | nil =>
    intro ys _
    show splitSep sep (sep :: ys) = _
    rw [splitSep, if_pos rfl]
  | cons a as ih =>
    intro ys h
    rw [List.mem_cons, not_or] at h
    show splitSep sep (a :: (as ++ sep :: ys)) = _
    rw [splitSep, if_neg (fun he => h.1 he.symm), ih ys h.2]

theorem splitSep_sepJoin {α : Type} [DecidableEq α] {sep : α} :
    ∀ {chunks : List (List α)}, chunks ≠ [] →
      (∀ ch ∈ chunks, sep ∉ ch) →
      splitSep sep (sepJoin sep chunks) = chunks := by
  intro chunks
  induction chunks with
  | nil => intro h; exact absurd rfl h
  | cons x xs ih =>
    intro _ h
    cases xs with
    | nil =>
      show splitSep sep x = [x]
      exact splitSep_no_sep (h x (List.mem_cons_self _ _))
    | cons y ys =>
      show splitSep sep (x ++ sep :: sepJoin sep (y :: ys)) = _
      rw [splitSep_append _ (h x (List.mem_cons_self _ _)),
        ih (by simp) (fun ch hch => h ch (List.mem_cons_of_mem _ hch))]

theorem mem_sepJoin {α : Type} {sep : α} :
    ∀ {chunks : List (List α)} {t : α}, t ∈ sepJoin sep chunks →
      t = sep ∨ ∃ ch ∈ chunks, t ∈ ch := by
  intro chunks
  induction chunks with
  | nil => intro t h; cases h
  | cons x xs ih =>
    intro t h
    cases xs with
    | nil =>
      right
      exact ⟨x, List.mem_cons_self _ _, h⟩
    | cons y ys =>
      rw [show sepJoin sep (x :: y :: ys) = x ++ sep :: sepJoin sep (y :: ys)
          from rfl, List.mem_append, List.mem_cons] at h
      rcases h with hx | hs | hj
      · exact Or.inr ⟨x, List.mem_cons_self _ _, hx⟩
      · exact Or.inl hs
      · rcases ih hj with hs | ⟨ch, hch, hc⟩
        · exact Or.inl hs
        · exact Or.inr ⟨ch, List.mem_cons_of_mem _ hch, hc⟩

theorem mem_splitSep {α : Type} [DecidableEq α] {sep : α} :
    ∀ {l : List α} {seg : List α} {t : α}, seg ∈ splitSep sep l →
      t ∈ seg → t ∈ l := by
  intro l
  induction l with
  | nil =>
    intro seg t hseg ht
    rw [show splitSep sep ([] : List α) = [[]] from rfl,
      List.mem_singleton] at hseg
    subst hseg
    cases ht
  | cons a as ih =>
    intro seg t hseg ht
    unfold splitSep at hseg
    by_cases ha : a = sep
    · rw [if_pos ha, List.mem_cons] at hseg
      rcases hseg with h1 | h2
      · subst h1; cases ht
      · exact List.mem_cons_of_mem _ (ih h2 ht)
    · rw [if_neg ha] at hseg
      rcases he : splitSep sep as with _ | ⟨s, ss⟩
      · rw [he, List.mem_singleton] at hseg
        subst hseg
        rw [List.mem_singleton] at ht
        subst ht
        exact List.mem_cons_self _ _
      · rw [he, List.mem_cons] at hseg
        rcases hseg with h1 | h2
        · subst h1
          rw [List.mem_cons] at ht
          rcases ht with h1 | h2
          · subst h1; exact List.mem_cons_self _ _
          · exact List.mem_cons_of_mem _ (ih (he ▸ List.mem_cons_self _ _) h2)
        · exact List.mem_cons_of_mem _ (ih (he ▸ List.mem_cons_of_mem _ h2) ht)

theorem splitSep_ne_nil {α : Type} [DecidableEq α] (sep : α) :
    ∀ (l : List α), splitSep sep l ≠ [] := by
  intro l
  induction l with
  | nil => exact fun h => by cases h
  | cons a as ih =>
    unfold splitSep
    by_cases ha : a = sep
    · rw [if_pos ha]; exact fun h => by cases h
    · rw [if_neg ha]
      rcases he : splitSep sep as with _ | ⟨s, ss⟩
      · exact fun h => by cases h
      · exact fun h => by cases h

theorem mapMO_map {α β γ : Type} (f : β → Option γ) (g : α → β) (k : α → γ) :
    ∀ (l : List α), (∀ x ∈ l, f (g x) = some (k x)) →
      mapMO f (l.map g) = some (l.map k) := by
  intro l
  induction l with
  | nil => intro _; rfl
  | cons x xs ih =>
    intro h
    rw [List.map_cons, List.map_cons]
    show (match f (g x) with
      | none => none
      | some y => (mapMO f (xs.map g)).map (fun ys => y :: ys)) = _
    rw [h x (List.mem_cons_self _ _),
      ih (fun y hy => h y (List.mem_cons_of_mem _ hy))]
    rfl

theorem mapMO_length {α β : Type} (f : α → Option β) :
    ∀ {l : List α} {ys : List β}, mapMO f l = some ys →
      ys.length = l.length := by
  intro l
  induction l with
  | nil =>
    intro ys h
    rw [show mapMO f [] = some [] from rfl, Option.some.injEq] at h
    rw [← h]
    rfl
  | cons x xs ih =>
    intro ys h
    unfold mapMO at h
    rcases he : f x with _ | y
    · simp [he] at h
    · rcases hm : mapMO f xs with _ | zs
      · simp [he, hm] at h
      · simp [he, hm] at h
        subst h
        rw [List.length_cons, List.length_cons, ih hm]

theorem mapMO_mem {α β : Type} (f : α → Option β) :
    ∀ {l : List α} {ys : List β}, mapMO f l = some ys →
      ∀ y ∈ ys, ∃ x ∈ l, f x = some y := by
  intro l
  induction l with
  | nil =>
    intro ys h y hy
    rw [show mapMO f [] = some [] from rfl, Option.some.injEq] at h
    subst h
    cases hy
  | cons x xs ih =>
    intro ys h y hy
    unfold mapMO at h
    rcases he : f x with _ | z
    · simp [he] at h
    · rcases hm : mapMO f xs with _ | zs
      · simp [he, hm] at h
      · simp [he, hm] at h
        subst h
        rw [List.mem_cons] at hy
        rcases hy with h1 | h2
        · subst h1; exact ⟨x, List.mem_cons_self _ _, he⟩
        · obtain ⟨x2, hx2, hf2⟩ := ih hm y h2
          exact ⟨x2, List.mem_cons_of_mem _ hx2, hf2⟩

/-!  ### The parser re-reads what the printer writes  -/

theorem join_map_singleton {α : Type} : ∀ (l : List α),
    (l.map (fun x => [x])).join = l := by
  intro l
  induction l with
  | nil => rfl
  | cons x xs ih =>
    show [x] ++ (xs.map (fun x => [x])).join = x :: xs
    rw [ih]
    rfl

theorem argOfToken_argToken (a : Arg) : argOfToken (argToken a) = some a := by
  cases a <;> rfl

theorem mem_argListTokens {t : Token} {args : List Arg}
    (h : t ∈ argListTokens args) :
    t = .rparen ∨ t = .comma ∨ ∃ a ∈ args, t = argToken a := by
  cases args with
  | nil =>
    rw [show argListTokens [] = [Token.rparen] from rfl,
      List.mem_singleton] at h
    exact Or.inl h
  | cons a more =>
    rw [show argListTokens (a :: more) = argToken a ::
        ((more.map (fun b => [Token.comma, argToken b])).join
          ++ [Token.rparen]) from rfl,
      List.mem_cons, List.mem_append, List.mem_join, List.mem_singleton] at h
    rcases h with h1 | ⟨l, hl, htl⟩ | h3
    · exact Or.inr (Or.inr ⟨a, List.mem_cons_self _ _, h1⟩)
    · rw [List.mem_map] at hl
      obtain ⟨b, hb, rfl⟩ := hl
      rw [List.mem_cons, List.mem_singleton] at htl
      rcases htl with h4 | h5
      · exact Or.inr (Or.inl h4)
      · exact Or.inr (Or.inr ⟨b, List.mem_cons_of_mem _ hb, h5⟩)
    · exact Or.inl h3

theorem mem_callTokens {t : Token} {n : List Char} {args : List Arg}
    (h : t ∈ callTokens n args) :
    t = .ident n ∨ t = .lparen ∨ t = .rparen ∨ t = .comma
      ∨ ∃ a ∈ args, t = argToken a := by
  rw [callTokens, List.mem_cons, List.mem_cons] at h
  rcases h with h1 | h2 | h3
  · exact Or.inl h1
  · exact Or.inr (Or.inl h2)
  · rcases mem_argListTokens h3 with h4 | h5 | h6
    · exact Or.inr (Or.inr (Or.inl h4))
    · exact Or.inr (Or.inr (Or.inr (Or.inl h5)))
    · exact Or.inr (Or.inr (Or.inr (Or.inr h6)))

theorem arrow_not_mem_callTokens (n : List Char) (args : List Arg) :
    Token.arrow ∉ callTokens n args := by
  intro h
  rcases mem_callTokens h with h | h | h | h | ⟨a, _, h⟩
  · cases h
  · cases h
  · cases h
  · cases h
  · cases a <;> cases h

theorem semi_not_mem_callTokens (n : List Char) (args : List Arg) :
    Token.semi ∉ callTokens n args := by
  intro h
  rcases mem_callTokens h with h | h | h | h | ⟨a, _, h⟩
  · cases h
  · cases h
  · cases h
  · cases h
  · cases a <;> cases h

theorem andand_not_mem_callTokens (n : List Char) (args : List Arg) :
    Token.andand ∉ callTokens n args := by
  intro h
  rcases mem_callTokens h with h | h | h | h | ⟨a, _, h⟩
  · cases h
  · cases h
  · cases h
  · cases h
  · cases a <;> cases h

theorem parseArgsTail_print : ∀ (more : List Arg),
    parseArgsTail ((more.map (fun b => [Token.comma, argToken b])).join
      ++ [Token.rparen]) = some (more, []) := by
  intro more
  induction more with
  | nil => rfl
  | cons b bs ih =>
    show parseArgsTail (Token.comma :: argToken b ::
      ((bs.map (fun b => [Token.comma, argToken b])).join
        ++ [Token.rparen])) = _
    simp only [parseArgsTail, argOfToken_argToken, ih, Option.map_some]
    rfl

theorem parseArgList_print (args : List Arg) :
    parseArgList (argListTokens args) = some (args, []) := by
  cases args with
  | nil => rfl
  | cons a more =>
    cases a with
    | strA v =>
      show (parseArgsTail
          ((more.map (fun b => [Token.comma, argToken b])).join
            ++ [Token.rparen])).map
          (fun p => (Arg.strA v :: p.1, p.2)) = _
      rw [parseArgsTail_print]
      rfl
    | numA v =>
      show (parseArgsTail
          ((more.map (fun b => [Token.comma, argToken b])).join
            ++ [Token.rparen])).map
          (fun p => (Arg.numA v :: p.1, p.2)) = _
      rw [parseArgsTail_print]
      rfl

theorem parsePredicateChunk_print (n : List Char) (args : List Arg) :
    parsePredicateChunk (callTokens n args) = some ⟨n, args⟩ := by
  show (match parseArgList (argListTokens args) with
    | some (as, []) => some (⟨n, as⟩ : Predicate)
    | _ => none) = _
  rw [parseArgList_print]

theorem parseFilterChunk_print (n : List Char) (args : List Arg) :
    parseFilterChunk (callTokens n args) = some ⟨n, args⟩ := by
  show (match parseArgList (argListTokens args) with
    | some (as, []) => some (⟨n, as⟩ : Filter)
    | _ => none) = _
  rw [parseArgList_print]

theorem parseMatchAtom_callTokens (n : List Char) (args : List Arg) :
    parseMatchAtom (callTokens n args) = some [⟨n, args⟩] := by
  show (parsePredicateChunk (callTokens n args)).map (fun p => [p]) = _
  rw [parsePredicateChunk_print]
  rfl

theorem parseMatchExpr_matchTokens (r : Route) :
    parseMatchExpr (matchTokens r) = some (promotedPreds r ++ r.predicates) := by
  unfold parseMatchExpr matchTokens
  rcases hps : promotedPreds r ++ r.predicates with _ | ⟨p, ps⟩
  · rfl
  · simp only
    rw [splitSep_sepJoin (by simp)
      (by
        intro ch hch
        rw [List.mem_map] at hch
        obtain ⟨q, _, rfl⟩ := hch
        exact andand_not_mem_callTokens q.name q.args)]
    rw [mapMO_map parseMatchAtom (fun q => callTokens q.name q.args)
      (fun q => [q]) _ (fun q _ => parseMatchAtom_callTokens q.name q.args)]
    show some ((List.map (fun q => [q]) (p :: ps)).join) = _
    rw [join_map_singleton]

theorem mapMO_endpoints (e : List Char) (es : List (List Char)) :
    mapMO parseEndpointChunk ((e :: es).map (fun s => [Token.strTok s]))
      = some (e :: es) := by
  rw [mapMO_map parseEndpointChunk (fun s => [Token.strTok s]) id _
    (fun s _ => rfl), List.map_id]

theorem splitSep_endpoints (e : List Char) (es : List (List Char)) :
    splitSep Token.comma
      (sepJoin Token.comma ((e :: es).map (fun s => [Token.strTok s])))
      = (e :: es).map (fun s => [Token.strTok s]) := by
  refine splitSep_sepJoin (by simp) ?_
  intro ch hch
  rw [List.mem_map] at hch
  obtain ⟨q, _, rfl⟩ := hch
  simp

theorem parseLBContents_noalg (e : List Char) (es : List (List Char)) :
    parseLBContents
      (sepJoin Token.comma ((e :: es).map (fun s => [Token.strTok s])))
      = some (none, e :: es) := by
  cases es with
  | nil => rfl
  | cons y ys =>
    show (mapMO parseEndpointChunk (splitSep Token.comma
      (Token.strTok e :: Token.comma ::
        sepJoin Token.comma ((y :: ys).map (fun s => [Token.strTok s]))))).map
        (fun eps => ((none : Option (List Char)), eps)) = _
    have hs : splitSep Token.comma (Token.strTok e :: Token.comma ::
        sepJoin Token.comma ((y :: ys).map (fun s => [Token.strTok s])))
        = [Token.strTok e] :: (y :: ys).map (fun s => [Token.strTok s]) := by
      rw [splitSep, if_neg (by simp), splitSep, if_pos rfl,
        splitSep_endpoints]
    rw [hs]
    show (Option.map (fun ys => e :: ys) (mapMO parseEndpointChunk
      ((y :: ys).map (fun s => [Token.strTok s])))).map
        (fun eps => ((none : Option (List Char)), eps)) = _
    rw [mapMO_endpoints]
    rfl

theorem parseLBContents_alg (alg e : List Char) (es : List (List Char)) :
    parseLBContents (Token.ident alg :: Token.comma ::
      sepJoin Token.comma ((e :: es).map (fun s => [Token.strTok s])))
      = some (some alg, e :: es) := by
  show (mapMO parseEndpointChunk (splitSep Token.comma
    (sepJoin Token.comma ((e :: es).map (fun s => [Token.strTok s]))))).map
      (fun eps => (some alg, eps)) = _
  rw [splitSep_endpoints, mapMO_endpoints]
  rfl

theorem parseBackendChunk_lt (rest : List Token) :
    parseBackendChunk (Token.lt :: rest) =
      match rest.getLast? with
      | some .gt =>
        if rest.dropLast = [Token.ident ("shunt".toList)] then some .shuntB
        else if rest.dropLast = [Token.ident ("loopback".toList)] then
          some .loopB
        else (parseLBContents rest.dropLast).map (fun p => .lb p.1 p.2)
      | _ => none := rfl

theorem parseBackendChunk_wrap (mid : List Token)
    (h1 : mid ≠ [Token.ident ("shunt".toList)])
    (h2 : mid ≠ [Token.ident ("loopback".toList)]) :
    parseBackendChunk (Token.lt :: (mid ++ [Token.gt]))
      = (parseLBContents mid).map (fun p => .lb p.1 p.2) := by
  rw [parseBackendChunk_lt]
  simp only [List.getLast?_concat, List.dropLast_concat]
  rw [if_neg h1, if_neg h2]

theorem parseBackendChunk_print (r : Route)
    (hep : r.backendType = .lb → r.lbEndpoints ≠ []) :
    parseBackendChunk (backendTokens r) = some (backendAstOf r) := by
  rcases hbt : r.backendType
  case network =>
    simp only [backendTokens, backendAstOf, hbt]
    rfl
  case shunt =>
    simp only [backendTokens, backendAstOf, hbt]
    rfl
  case loopback =>
    simp only [backendTokens, backendAstOf, hbt]
    rfl
  case lb =>
    simp only [backendTokens, backendAstOf, hbt]
    rcases hle : r.lbEndpoints with _ | ⟨e, es⟩
    · exact absurd hle (hep hbt)
    · by_cases halg : r.lbAlgorithm.isEmpty
      · rw [if_pos halg, if_pos halg, List.nil_append]
        cases es with
        | nil =>
          rw [parseBackendChunk_wrap _ (by simp [sepJoin]) (by simp [sepJoin]),
            parseLBContents_noalg]
          rfl
        | cons y ys =>
          have hshape : sepJoin Token.comma
              ((e :: y :: ys).map (fun s => [Token.strTok s]))
              = Token.strTok e :: Token.comma ::
                sepJoin Token.comma ((y :: ys).map (fun s => [Token.strTok s]))
            := rfl
          rw [parseBackendChunk_wrap _ (by rw [hshape]; simp)
            (by rw [hshape]; simp), parseLBContents_noalg]
          rfl
      · rw [if_neg halg, if_neg halg]
        rw [show ([Token.ident r.lbAlgorithm, Token.comma]
            ++ sepJoin Token.comma ((e :: es).map (fun s => [Token.strTok s])))
            = Token.ident r.lbAlgorithm :: Token.comma ::
              sepJoin Token.comma ((e :: es).map (fun s => [Token.strTok s]))
          from rfl]
        rw [parseBackendChunk_wrap _ (by simp) (by simp), parseLBContents_alg]
        rfl

theorem arrow_not_mem_matchTokens (r : Route) :
    Token.arrow ∉ matchTokens r := by
  intro h
  unfold matchTokens at h
  rcases hps : promotedPreds r ++ r.predicates with _ | ⟨p, ps⟩
  · rw [hps] at h
    simp at h
  · rw [hps] at h
    rcases mem_sepJoin h with h1 | ⟨ch, hch, hc⟩
    · cases h1
    · rw [List.mem_map] at hch
      obtain ⟨q, _, rfl⟩ := hch
      exact arrow_not_mem_callTokens q.name q.args hc

theorem semi_not_mem_matchTokens (r : Route) :
    Token.semi ∉ matchTokens r := by
  intro h
  unfold matchTokens at h
  rcases hps : promotedPreds r ++ r.predicates with _ | ⟨p, ps⟩
  · rw [hps] at h
    simp at h
  · rw [hps] at h
    rcases mem_sepJoin h with h1 | ⟨ch, hch, hc⟩
    · cases h1
    · rw [List.mem_map] at hch
      obtain ⟨q, _, rfl⟩ := hch
      exact semi_not_mem_callTokens q.name q.args hc

theorem mem_backendTokens {t : Token} {r : Route} (h : t ∈ backendTokens r) :
    t = .lt ∨ t = .gt ∨ t = .comma ∨ (∃ s, t = .ident s)
      ∨ ∃ s, t = .strTok s := by
  unfold backendTokens at h
  rcases hbt : r.backendType
  case network =>
    rw [hbt] at h
    simp only [List.mem_singleton] at h
    exact Or.inr (Or.inr (Or.inr (Or.inr ⟨_, h⟩)))
  case shunt =>
    rw [hbt] at h
    simp only [List.mem_cons, List.not_mem_nil, or_false] at h
    rcases h with h | h | h
    · exact Or.inl h
    · exact Or.inr (Or.inr (Or.inr (Or.inl ⟨_, h⟩)))
    · exact Or.inr (Or.inl h)
  case loopback =>
    rw [hbt] at h
    simp only [List.mem_cons, List.not_mem_nil, or_false] at h
    rcases h with h | h | h
    · exact Or.inl h
    · exact Or.inr (Or.inr (Or.inr (Or.inl ⟨_, h⟩)))
    · exact Or.inr (Or.inl h)
  case lb =>
    rw [hbt] at h
    rw [List.mem_cons] at h
    rcases h with h | h
    · exact Or.inl h
    · rw [List.mem_append, List.mem_append] at h
      rcases h with (h | h) | h
      · by_cases halg : r.lbAlgorithm.isEmpty
        · rw [if_pos halg] at h
          cases h
        · rw [if_neg halg] at h
          simp only [List.mem_cons, List.not_mem_nil, or_false] at h
          rcases h with h | h
          · exact Or.inr (Or.inr (Or.inr (Or.inl ⟨_, h⟩)))
          · exact Or.inr (Or.inr (Or.inl h))
      · rcases mem_sepJoin h with h1 | ⟨ch, hch, hc⟩
        · exact Or.inr (Or.inr (Or.inl h1))
        · rw [List.mem_map] at hch
          obtain ⟨e, _, rfl⟩ := hch
          rw [List.mem_singleton] at hc
          exact Or.inr (Or.inr (Or.inr (Or.inr ⟨_, hc⟩)))
      · rw [List.mem_singleton] at h
        exact Or.inr (Or.inl h)

theorem arrow_not_mem_backendTokens (r : Route) :
    Token.arrow ∉ backendTokens r := by
  intro h
  rcases mem_backendTokens h with h | h | h | ⟨s, h⟩ | ⟨s, h⟩
  · cases h
  · cases h
  · cases h
  · cases h
  · cases h

theorem semi_not_mem_backendTokens (r : Route) :
    Token.semi ∉ backendTokens r := by
  intro h
  rcases mem_backendTokens h with h | h | h | ⟨s, h⟩ | ⟨s, h⟩
  · cases h
  · cases h
  · cases h
  · cases h
  · cases h

theorem sepJoin_arrow_filters :
    ∀ (chunks : List (List Token)) (tail : List Token),
      sepJoin Token.arrow (chunks ++ [tail])
        = (chunks.map (fun c => c ++ [Token.arrow])).join ++ tail := by
  intro chunks
  induction chunks with
  | nil => intro tail; rfl
  | cons c cs ih =>
    intro tail
    cases cs with
    | nil =>
      show sepJoin Token.arrow [c, tail] = _
      show c ++ Token.arrow :: tail = _
      simp
    | cons d ds =>
      show c ++ Token.arrow :: sepJoin Token.arrow ((d :: ds) ++ [tail]) = _
      rw [ih tail]
      simp

theorem routeTokens_eq (r : Route) :
    routeTokens r = sepJoin Token.arrow
      (((if r.id.isEmpty then [] else [Token.ident r.id, Token.colon])
          ++ matchTokens r)
        :: (r.filters.map (fun fl => callTokens fl.name fl.args)
          ++ [backendTokens r])) := by
  rw [show ((if r.id.isEmpty then [] else [Token.ident r.id, Token.colon])
        ++ matchTokens r)
      :: (r.filters.map (fun fl => callTokens fl.name fl.args)
        ++ [backendTokens r])
      = (((if r.id.isEmpty then [] else [Token.ident r.id, Token.colon])
          ++ matchTokens r)
        :: r.filters.map (fun fl => callTokens fl.name fl.args))
        ++ [backendTokens r] from rfl]
  rw [sepJoin_arrow_filters]
  unfold routeTokens
  simp [List.map_map, Function.comp_def, List.append_assoc]

theorem matchTokens_shape (r : Route) :
    matchTokens r = [Token.star]
      ∨ ∃ n rest3, matchTokens r = Token.ident n :: Token.lparen :: rest3 := by
  unfold matchTokens
  rcases promotedPreds r ++ r.predicates with _ | ⟨p, ps⟩
  · exact Or.inl rfl
  · right
    rcases ps with _ | ⟨q, qs⟩
    · exact ⟨p.name, _, rfl⟩
    · exact ⟨p.name, _, rfl⟩

theorem mapMO_filters (r : Route) :
    mapMO parseFilterChunk
      (r.filters.map (fun fl => callTokens fl.name fl.args))
      = some r.filters := by
  rw [mapMO_map parseFilterChunk (fun fl => callTokens fl.name fl.args) id _
    (fun fl _ => parseFilterChunk_print fl.name fl.args), List.map_id]

theorem parseRouteDef_tail (r : Route)
    (hep : r.backendType = .lb → r.lbEndpoints ≠ []) (idv : List Char) :
    (match parseMatchExpr (matchTokens r) with
      | none => none
      | some ms =>
        match (r.filters.map (fun fl => callTokens fl.name fl.args)
            ++ [backendTokens r]).getLast? with
        | none => none
        | some bchunk =>
          match mapMO parseFilterChunk
              (r.filters.map (fun fl => callTokens fl.name fl.args)
                ++ [backendTokens r]).dropLast with
          | none => none
          | some fs =>
            (parseBackendChunk bchunk).map
              (fun b => (⟨idv, ms, fs, b⟩ : RouteDef)))
      = some ⟨idv, promotedPreds r ++ r.predicates, r.filters,
          backendAstOf r⟩ := by
  simp only [parseMatchExpr_matchTokens, List.getLast?_concat,
    List.dropLast_concat, mapMO_filters, parseBackendChunk_print r hep]
  rfl

theorem arrowFree_chunks (r : Route) :
    ∀ ch ∈ ((if r.id.isEmpty then []
        else [Token.ident r.id, Token.colon]) ++ matchTokens r)
          :: (r.filters.map (fun fl => callTokens fl.name fl.args)
            ++ [backendTokens r]), Token.arrow ∉ ch := by
  intro ch hch
  rw [List.mem_cons] at hch
  rcases hch with h1 | h2
  · subst h1
    intro ha
    rw [List.mem_append] at ha
    rcases ha with ha | ha
    · by_cases hid : r.id.isEmpty
      · rw [if_pos hid] at ha
        cases ha
      · rw [if_neg hid] at ha
        simp at ha
    · exact arrow_not_mem_matchTokens r ha
  · rw [List.mem_append] at h2
    rcases h2 with h2 | h2
    · rw [List.mem_map] at h2
      obtain ⟨fl, _, rfl⟩ := h2
      exact arrow_not_mem_callTokens fl.name fl.args
    · rw [List.mem_singleton] at h2
      subst h2
      exact arrow_not_mem_backendTokens r

theorem parseRouteDef_print (r : Route)
    (hep : r.backendType = .lb → r.lbEndpoints ≠ []) :
    parseRouteDef (routeTokens r) = some (defOf r) := by
  obtain ⟨y, ys, hys⟩ : ∃ y ys,
      r.filters.map (fun fl => callTokens fl.name fl.args)
        ++ [backendTokens r] = y :: ys := by
    rcases hm : r.filters.map (fun fl => callTokens fl.name fl.args)
      with _ | ⟨c, cs⟩
    · exact ⟨backendTokens r, [], by rw [hm]; rfl⟩
    · exact ⟨c, cs ++ [backendTokens r], by rw [hm]; rfl⟩
  by_cases hid : r.id.isEmpty
  · have hidn : r.id = [] := by
      rcases h2 : r.id with _ | ⟨a, b⟩
      · rfl
      · rw [h2] at hid
        cases hid
    rcases matchTokens_shape r with hsh | ⟨n, rest3, hsh⟩
    · have hsplit : splitSep Token.arrow (routeTokens r)
          = [Token.star] :: y :: ys := by
        rw [routeTokens_eq, splitSep_sepJoin (by simp) (arrowFree_chunks r),
          hys, if_pos hid, List.nil_append, hsh]
      unfold parseRouteDef
      rw [hsplit]
      show (match parseMatchExpr [Token.star] with
        | none => none
        | some ms =>
          match (y :: ys).getLast? with
          | none => none
          | some bchunk =>
            match mapMO parseFilterChunk (y :: ys).dropLast with
            | none => none
            | some fs =>
              (parseBackendChunk bchunk).map
                (fun b => (⟨[], ms, fs, b⟩ : RouteDef)))
        = some (defOf r)
      rw [← hsh, ← hys, parseRouteDef_tail r hep []]
      simp only [defOf, hidn]
    · have hsplit : splitSep Token.arrow (routeTokens r)
          = (Token.ident n :: Token.lparen :: rest3) :: y :: ys := by
        rw [routeTokens_eq, splitSep_sepJoin (by simp) (arrowFree_chunks r),
          hys, if_pos hid, List.nil_append, hsh]
      unfold parseRouteDef
      rw [hsplit]
      show (match parseMatchExpr (Token.ident n :: Token.lparen :: rest3) with
        | none => none
        | some ms =>
          match (y :: ys).getLast? with
          | none => none
          | some bchunk =>
            match mapMO parseFilterChunk (y :: ys).dropLast with
            | none => none
            | some fs =>
              (parseBackendChunk bchunk).map
                (fun b => (⟨[], ms, fs, b⟩ : RouteDef)))
        = some (defOf r)
      rw [← hsh, ← hys, parseRouteDef_tail r hep []]
      simp only [defOf, hidn]
  · have hsplit : splitSep Token.arrow (routeTokens r)
        = (Token.ident r.id :: Token.colon :: matchTokens r) :: y :: ys := by
      rw [routeTokens_eq, splitSep_sepJoin (by simp) (arrowFree_chunks r),
        hys, if_neg hid]
      rfl
    unfold parseRouteDef
    rw [hsplit]
    show (match parseMatchExpr (matchTokens r) with
      | none => none
      | some ms =>
        match (y :: ys).getLast? with
        | none => none
        | some bchunk =>
          match mapMO parseFilterChunk (y :: ys).dropLast with
          | none => none
          | some fs =>
            (parseBackendChunk bchunk).map
              (fun b => (⟨r.id, ms, fs, b⟩ : RouteDef)))
      = some (defOf r)
    rw [← hys, parseRouteDef_tail r hep r.id]
    rfl

theorem applyMatchers_append (r : Route) (ms1 ms2 : List Predicate) :
    applyMatchers r (ms1 ++ ms2) = applyMatchers (applyMatchers r ms1) ms2 :=
  List.foldl_append _ _ _ _

theorem applyMatcher_path (r : Route) (p : List Char) :
    applyMatcher r ⟨"Path".toList, [.strA p]⟩ = { r with path := p } := rfl

theorem applyMatcher_host (r : Route) (p : List Char) :
    applyMatcher r ⟨"Host".toList, [.strA p]⟩
      = { r with hostRegexps := r.hostRegexps ++ [p] } := rfl

theorem applyMatcher_pathRegexp (r : Route) (p : List Char) :
    applyMatcher r ⟨"PathRegexp".toList, [.strA p]⟩
      = { r with pathRegexps := r.pathRegexps ++ [p] } := rfl

theorem applyMatcher_method (r : Route) (p : List Char) :
    applyMatcher r ⟨"Method".toList, [.strA p]⟩
      = { r with method := p } := rfl

theorem applyMatcher_generic (r : Route) (p : Predicate)
    (h : isPromotable p = false) :
    applyMatcher r p = { r with predicates := r.predicates ++ [p] } := by
  obtain ⟨n, args⟩ := p
  unfold applyMatcher
  rcases args with _ | ⟨a, rest⟩
  · split_ifs <;> rfl
  · rcases a with v | v
    · rcases rest with _ | ⟨b, bs⟩
      · unfold isPromotable at h
        simp only [Bool.and_eq_true, Bool.and_eq_false_iff] at h
        rcases h with h | h
        · simp only [Bool.or_eq_false_iff] at h
          obtain ⟨⟨⟨⟨hn1, hn2⟩, hn3⟩, hn4⟩, hn5⟩ := h
          rw [decide_eq_false_iff_not] at hn1 hn2 hn3 hn4 hn5
          rw [if_neg hn1, if_neg hn2,
            if_neg (fun hc => hc.elim hn3 hn4), if_neg hn5]
        · cases h
      · split_ifs <;> rfl
    · split_ifs <;> rfl

theorem applyMatchers_hosts : ∀ (hs : List (List Char)) (r : Route),
    applyMatchers r (hs.map (fun h => ⟨"Host".toList, [Arg.strA h]⟩))
      = { r with hostRegexps := r.hostRegexps ++ hs } := by
  intro hs
  induction hs with
  | nil => intro r; simp [applyMatchers]
  | cons h hs ih =>
    intro r
    show applyMatchers (applyMatcher r ⟨"Host".toList, [Arg.strA h]⟩)
      (hs.map _) = _
    rw [applyMatcher_host, ih]
    simp

theorem applyMatchers_pathRegexps : ∀ (hs : List (List Char)) (r : Route),
    applyMatchers r (hs.map (fun h => ⟨"PathRegexp".toList, [Arg.strA h]⟩))
      = { r with pathRegexps := r.pathRegexps ++ hs } := by
  intro hs
  induction hs with
  | nil => intro r; simp [applyMatchers]
  | cons h hs ih =>
    intro r
    show applyMatchers (applyMatcher r ⟨"PathRegexp".toList, [Arg.strA h]⟩)
      (hs.map _) = _
    rw [applyMatcher_pathRegexp, ih]
    simp

theorem applyMatchers_generic : ∀ (ps : List Predicate) (r : Route),
    (∀ p ∈ ps, isPromotable p = false) →
    applyMatchers r ps = { r with predicates := r.predicates ++ ps } := by
  intro ps
  induction ps with
  | nil => intro r _; simp [applyMatchers]
  | cons p ps ih =>
    intro r h
    show applyMatchers (applyMatcher r p) ps = _
    rw [applyMatcher_generic r p (h p (List.mem_cons_self _ _)),
      ih _ (fun q hq => h q (List.mem_cons_of_mem _ hq))]
    simp

theorem applyMatchers_nil (r : Route) : applyMatchers r [] = r := rfl

theorem applyMatchers_single (r : Route) (p : Predicate) :
    applyMatchers r [p] = applyMatcher r p := rfl

theorem applyMatchers_promotedPreds (r0 : Route) (path method : List Char)
    (hosts pregs : List (List Char)) :
    applyMatchers r0
      ((if path.isEmpty then [] else [⟨"Path".toList, [.strA path]⟩])
        ++ hosts.map (fun h => ⟨"Host".toList, [Arg.strA h]⟩)
        ++ pregs.map (fun p => ⟨"PathRegexp".toList, [Arg.strA p]⟩)
        ++ (if method.isEmpty then []
            else [⟨"Method".toList, [.strA method]⟩]))
      = { r0 with
          path := if path.isEmpty then r0.path else path
          hostRegexps := r0.hostRegexps ++ hosts
          pathRegexps := r0.pathRegexps ++ pregs
          method := if method.isEmpty then r0.method else method } := by
  rw [applyMatchers_append, applyMatchers_append, applyMatchers_append]
  by_cases hp : path.isEmpty <;> by_cases hm : method.isEmpty <;>
    simp only [hp, hm, if_true, if_false, Bool.false_eq_true,
      applyMatchers_nil, applyMatchers_single, applyMatcher_path,
      applyMatcher_method, applyMatchers_hosts, applyMatchers_pathRegexps] <;>
    simp

theorem eq_nil_of_isEmpty {α : Type} {l : List α} (h : l.isEmpty = true) :
    l = [] := by
  cases l with
  | nil => rfl
  | cons a as => cases h

theorem if_isEmpty_nil (l : List Char) :
    (if l.isEmpty then ([] : List Char) else l) = l := by
  by_cases hp : l.isEmpty
  · rw [if_pos hp, eq_nil_of_isEmpty hp]
  · rw [if_neg hp]

theorem getD_isEmpty (l : List Char) :
    (if l.isEmpty then none else some l).getD ([] : List Char) = l := by
  by_cases hp : l.isEmpty
  · rw [if_pos hp, eq_nil_of_isEmpty hp]
    rfl
  · rw [if_neg hp]
    rfl

theorem getD_eq_nil (l : List Char) :
    (if l = [] then none else some l).getD ([] : List Char) = l := by
  by_cases hp : l = []
  · rw [if_pos hp, hp]
    rfl
  · rw [if_neg hp]
    rfl

theorem wfPred_not_promotable {p : Predicate} (h : wfPred p = true) :
    isPromotable p = false := by
  unfold wfPred at h
  simp only [Bool.and_eq_true] at h
  rcases h with ⟨-, h2⟩
  rw [Bool.not_eq_true'] at h2
  exact h2

theorem buildRoute_defOf (r : Route) (h : wfRoute r = true) :
    buildRoute (defOf r) = r := by
  obtain ⟨id, path, hosts, pregs, method, preds, fls, btype, backend, lbalg,
    lbeps⟩ := r
  unfold wfRoute at h
  simp only [Bool.and_eq_true] at h
  obtain ⟨⟨⟨hid, hpreds⟩, hfls⟩, hbk⟩ := h
  rw [List.all_eq_true] at hpreds
  have hgen : ∀ p ∈ preds, isPromotable p = false :=
    fun p hp => wfPred_not_promotable (hpreds p hp)
  unfold buildRoute defOf
  cases btype
  case network =>
    simp only [Bool.and_eq_true] at hbk
    obtain ⟨ha, he⟩ := hbk
    have ha2 := eq_nil_of_isEmpty ha
    have he2 := eq_nil_of_isEmpty he
    subst ha2
    subst he2
    simp only [promotedPreds, backendAstOf, mkBase]
    rw [applyMatchers_append, applyMatchers_promotedPreds,
      applyMatchers_generic _ _ hgen]
    simp [if_isEmpty_nil]
  case shunt =>
    simp only [Bool.and_eq_true] at hbk
    obtain ⟨⟨hb, ha⟩, he⟩ := hbk
    have hb2 := eq_nil_of_isEmpty hb
    have ha2 := eq_nil_of_isEmpty ha
    have he2 := eq_nil_of_isEmpty he
    subst hb2
    subst ha2
    subst he2
    simp only [promotedPreds, backendAstOf, mkBase]
    rw [applyMatchers_append, applyMatchers_promotedPreds,
      applyMatchers_generic _ _ hgen]
    simp [if_isEmpty_nil]
  case loopback =>
    simp only [Bool.and_eq_true] at hbk
    obtain ⟨⟨hb, ha⟩, he⟩ := hbk
    have hb2 := eq_nil_of_isEmpty hb
    have ha2 := eq_nil_of_isEmpty ha
    have he2 := eq_nil_of_isEmpty he
    subst hb2
    subst ha2
    subst he2
    simp only [promotedPreds, backendAstOf, mkBase]
    rw [applyMatchers_append, applyMatchers_promotedPreds,
      applyMatchers_generic _ _ hgen]
    simp [if_isEmpty_nil]
  case lb =>
    simp only [Bool.and_eq_true] at hbk
    obtain ⟨⟨hb, _⟩, _⟩ := hbk
    have hb2 := eq_nil_of_isEmpty hb
    subst hb2
    simp only [promotedPreds, backendAstOf, mkBase]
    rw [applyMatchers_append, applyMatchers_promotedPreds,
      applyMatchers_generic _ _ hgen]
    simp [if_isEmpty_nil, getD_isEmpty, getD_eq_nil]

theorem mem_routeTokens {t : Token} {r : Route} (h : t ∈ routeTokens r) :
    (t = .ident r.id ∧ r.id.isEmpty = false) ∨ t = .colon
      ∨ t ∈ matchTokens r ∨ t = .arrow
      ∨ (∃ fl ∈ r.filters, t ∈ callTokens fl.name fl.args)
      ∨ t ∈ backendTokens r := by
  unfold routeTokens at h
  rw [List.mem_append] at h
  rcases h with h | h
  · rw [List.mem_append] at h
    rcases h with h | h
    · by_cases hid : r.id.isEmpty
      · rw [if_pos hid] at h
        cases h
      · rw [if_neg hid] at h
        rw [List.mem_cons, List.mem_singleton] at h
        rcases h with h | h
        · exact Or.inl ⟨h, Bool.not_eq_true _ ▸ Bool.of_not_eq_true hid⟩
        · exact Or.inr (Or.inl h)
    · exact Or.inr (Or.inr (Or.inl h))
  · rw [List.mem_cons] at h
    rcases h with h | h
    · exact Or.inr (Or.inr (Or.inr (Or.inl h)))
    · rw [List.mem_append] at h
      rcases h with h | h
      · rw [List.mem_join] at h
        obtain ⟨l, hl, htl⟩ := h
        rw [List.mem_map] at hl
        obtain ⟨fl, hfl, rfl⟩ := hl
        rw [List.mem_append, List.mem_singleton] at htl
        rcases htl with h2 | h2
        · exact Or.inr (Or.inr (Or.inr (Or.inr (Or.inl ⟨fl, hfl, h2⟩))))
        · exact Or.inr (Or.inr (Or.inr (Or.inl h2)))
      · exact Or.inr (Or.inr (Or.inr (Or.inr (Or.inr h))))

theorem semi_not_mem_routeTokens (r : Route) :
    Token.semi ∉ routeTokens r := by
  intro h
  rcases mem_routeTokens h with ⟨h, -⟩ | h | h | h | ⟨fl, -, h⟩ | h
  · cases h
  · cases h
  · exact semi_not_mem_matchTokens r h
  · cases h
  · exact semi_not_mem_callTokens fl.name fl.args h
  · exact semi_not_mem_backendTokens r h

theorem routeTokens_ne_nil (r : Route) : routeTokens r ≠ [] := by
  intro h
  unfold routeTokens at h
  rcases List.append_eq_nil.mp h with ⟨-, h2⟩
  cases h2

theorem docTokens_split (rs : List Route) (hne : rs ≠ []) :
    splitSep Token.semi (docTokens rs) = rs.map routeTokens := by
  unfold docTokens
  refine splitSep_sepJoin ?_ ?_
  · intro h
    exact hne (List.map_eq_nil.mp h)
  · intro ch hch
    rw [List.mem_map] at hch
    obtain ⟨r, _, rfl⟩ := hch
    exact semi_not_mem_routeTokens r

theorem parseDocTokens_print (rs : List Route) (hne : rs ≠ [])
    (hep : ∀ r ∈ rs, r.backendType = .lb → r.lbEndpoints ≠ [])
    (hids : rs.length = 1 ∨ ∀ r ∈ rs, r.id ≠ []) :
    parseDocTokens (docTokens rs) = some (rs.map defOf) := by
  unfold parseDocTokens
  rw [docTokens_split rs hne]
  have hdrop : dropTrailingEmpty (rs.map routeTokens) = rs.map routeTokens
    := by
    unfold dropTrailingEmpty
    rw [if_neg]
    rintro ⟨-, hlast⟩
    have hmem : ([] : List Token) ∈ rs.map routeTokens :=
      List.mem_of_getLast?_eq_some hlast
    rw [List.mem_map] at hmem
    obtain ⟨r, -, hr⟩ := hmem
    exact routeTokens_ne_nil r hr
  simp only [hdrop, mapMO_map parseRouteDef routeTokens defOf rs
    (fun r hr => parseRouteDef_print r (hep r hr))]
  rw [if_neg]
  rintro ⟨h2, hany⟩
  rw [List.length_map] at h2
  rcases hids with h1 | h1
  · omega
  · rw [List.any_eq_true] at hany
    obtain ⟨d, hd, hde⟩ := hany
    rw [List.mem_map] at hd
    obtain ⟨r, hr, rfl⟩ := hd
    exact h1 r hr (eq_nil_of_isEmpty hde)

theorem wfToken_argToken {a : Arg} (h : wfArg a = true) :
    wfToken (argToken a) = true := by
  cases a
  · rfl
  · exact h

theorem wfToken_callTokens {t : Token} {n : List Char} {args : List Arg}
    (hn : wfIdent n = true) (ha : args.all wfArg = true)
    (ht : t ∈ callTokens n args) : wfToken t = true := by
  rcases mem_callTokens ht with h | h | h | h | ⟨a, hmem, h⟩
  · subst h
    exact hn
  · subst h
    rfl
  · subst h
    rfl
  · subst h
    rfl
  · subst h
    rw [List.all_eq_true] at ha
    exact wfToken_argToken (ha a hmem)

theorem mem_promotedPreds {p : Predicate} {r : Route}
    (h : p ∈ promotedPreds r) :
    wfIdent p.name = true ∧ p.args.all wfArg = true := by
  unfold promotedPreds at h
  simp only [List.mem_append] at h
  rcases h with ((h | h) | h) | h
  · by_cases hp : r.path.isEmpty
    · rw [if_pos hp] at h
      cases h
    · rw [if_neg hp] at h
      rw [List.mem_singleton] at h
      subst h
      exact ⟨show wfIdent ("Path".toList) = true by decide, rfl⟩
  · rw [List.mem_map] at h
    obtain ⟨v, -, rfl⟩ := h
    exact ⟨show wfIdent ("Host".toList) = true by decide, rfl⟩
  · rw [List.mem_map] at h
    obtain ⟨v, -, rfl⟩ := h
    exact ⟨show wfIdent ("PathRegexp".toList) = true by decide, rfl⟩
  · by_cases hp : r.method.isEmpty
    · rw [if_pos hp] at h
      cases h
    · rw [if_neg hp] at h
      rw [List.mem_singleton] at h
      subst h
      exact ⟨show wfIdent ("Method".toList) = true by decide, rfl⟩

theorem wfToken_matchTokens {t : Token} {r : Route}
    (hpreds : r.predicates.all wfPred = true) (ht : t ∈ matchTokens r) :
    wfToken t = true := by
  unfold matchTokens at ht
  rcases hps : promotedPreds r ++ r.predicates with _ | ⟨p, ps⟩
  · rw [hps] at ht
    rw [List.mem_singleton] at ht
    subst ht
    rfl
  · rw [hps] at ht
    rcases mem_sepJoin ht with h | ⟨ch, hch, hc⟩
    · subst h
      rfl
    · rw [List.mem_map] at hch
      obtain ⟨q, hq, rfl⟩ := hch
      have hq2 : q ∈ promotedPreds r ++ r.predicates := by
        rw [hps]
        exact hq
      rw [List.mem_append] at hq2
      rcases hq2 with hq2 | hq2
      · obtain ⟨h1, h2⟩ := mem_promotedPreds hq2
        exact wfToken_callTokens h1 h2 hc
      · rw [List.all_eq_true] at hpreds
        have hw := hpreds q hq2
        unfold wfPred at hw
        simp only [Bool.and_eq_true] at hw
        exact wfToken_callTokens hw.1.1 hw.1.2 hc

theorem wfToken_backendTokens {t : Token} {r : Route} (h : wfRoute r = true)
    (ht : t ∈ backendTokens r) : wfToken t = true := by
  unfold backendTokens at ht
  rcases hbt : r.backendType
  case network =>
    rw [hbt] at ht
    rw [List.mem_singleton] at ht
    subst ht
    rfl
  case shunt =>
    rw [hbt] at ht
    simp only [List.mem_cons, List.not_mem_nil, or_false] at ht
    rcases ht with h2 | h2 | h2 <;> subst h2 <;> decide
  case loopback =>
    rw [hbt] at ht
    simp only [List.mem_cons, List.not_mem_nil, or_false] at ht
    rcases ht with h2 | h2 | h2 <;> subst h2 <;> decide
  case lb =>
    rw [hbt] at ht
    rw [List.mem_cons] at ht
    rcases ht with h2 | h2
    · subst h2
      rfl
    · rw [List.mem_append, List.mem_append] at h2
      rcases h2 with (h2 | h2) | h2
      · by_cases halg : r.lbAlgorithm.isEmpty
        · rw [if_pos halg] at h2
          cases h2
        · rw [if_neg halg] at h2
          simp only [List.mem_cons, List.not_mem_nil, or_false] at h2
          rcases h2 with h2 | h2
          · subst h2
            unfold wfRoute at h
            simp only [Bool.and_eq_true] at h
            have h3 := h.2
            rw [hbt] at h3
            simp only [Bool.and_eq_true] at h3
            have h4 := h3.1.2
            rw [Bool.or_eq_true] at h4
            rcases h4 with h4 | h4
            · exact absurd h4 halg
            · exact h4
          · subst h2
            rfl
      · rcases mem_sepJoin h2 with h3 | ⟨ch, hch, hc⟩
        · subst h3
          rfl
        · rw [List.mem_map] at hch
          obtain ⟨e, -, rfl⟩ := hch
          rw [List.mem_singleton] at hc
          subst hc
          rfl
      · rw [List.mem_singleton] at h2
        subst h2
        rfl

theorem wfRoute_lb_ne {r : Route} (h : wfRoute r = true) :
    r.backendType = .lb → r.lbEndpoints ≠ [] := by
  intro hbt he
  unfold wfRoute at h
  simp only [Bool.and_eq_true] at h
  have h2 := h.2
  rw [hbt] at h2
  simp only [Bool.and_eq_true] at h2
  have h3 := h2.2
  rw [he] at h3
  cases h3

theorem wfToken_docTokens {t : Token} {rs : List Route}
    (h : rs.all wfRoute = true) (ht : t ∈ docTokens rs) :
    wfToken t = true := by
  unfold docTokens at ht
  rcases mem_sepJoin ht with h1 | ⟨ch, hch, hc⟩
  · subst h1
    rfl
  · rw [List.mem_map] at hch
    obtain ⟨r, hr, rfl⟩ := hch
    rw [List.all_eq_true] at h
    have hwr := h r hr
    rcases mem_routeTokens hc with ⟨h2, hni⟩ | h2 | h2 | h2
      | ⟨fl, hfl, h2⟩ | h2
    · subst h2
      unfold wfRoute at hwr
      simp only [Bool.and_eq_true] at hwr
      have h3 := hwr.1.1.1
      rw [hni, Bool.false_or] at h3
      exact h3
    · subst h2
      rfl
    · have hp : r.predicates.all wfPred = true := by
        unfold wfRoute at hwr
        simp only [Bool.and_eq_true] at hwr
        exact hwr.1.1.2
      exact wfToken_matchTokens hp h2
    · subst h2
      rfl
    · have hf : wfFilter fl = true := by
        unfold wfRoute at hwr
        simp only [Bool.and_eq_true] at hwr
        have h3 := hwr.1.2
        rw [List.all_eq_true] at h3
        exact h3 fl hfl
      unfold wfFilter at hf
      simp only [Bool.and_eq_true] at hf
      exact wfToken_callTokens hf.1 hf.2 h2
    · exact wfToken_backendTokens hwr h2

theorem parseChars_printRoutes (rs : List Route) (h : wfRoutes rs = true) :
    parseChars (printRoutes rs) = some rs := by
  unfold wfRoutes at h
  simp only [Bool.and_eq_true] at h
  obtain ⟨⟨hne0, hall⟩, hlab⟩ := h
  have hne : rs ≠ [] := by
    intro he
    subst he
    cases hne0
  have hep : ∀ r ∈ rs, r.backendType = .lb → r.lbEndpoints ≠ [] := by
    intro r hr
    rw [List.all_eq_true] at hall
    exact wfRoute_lb_ne (hall r hr)
  have hids : rs.length = 1 ∨ ∀ r ∈ rs, r.id ≠ [] := by
    rw [Bool.or_eq_true] at hlab
    rcases hlab with h1 | h1
    · left
      simpa using h1
    · right
      intro r hr he
      rw [List.all_eq_true] at h1
      have h2 := h1 r hr
      rw [he] at h2
      cases h2
  unfold printRoutes parseChars
  simp only [lex_printTokens _ (by
      rw [List.all_eq_true]
      intro t ht
      exact wfToken_docTokens hall ht),
    parseDocTokens_print rs hne hep hids]
  rw [List.map_map,
    show rs.map (buildRoute ∘ defOf) = rs.map id from
      List.map_congr_left (fun r hr => buildRoute_defOf r (by
        rw [List.all_eq_true] at hall
        exact hall r hr)),
    List.map_id]

/-!  ### The lexer produces only well-formed payloads  -/

/-- Lexable-token well-formedness: identifier and number payloads are well
formed; regex literals may occur in input (unlike in printed output). -/
def wfTokenLex : Token → Bool
  | .ident s => wfIdent s
  | .numTok s => wfNum s
  | _ => true

theorem takeWhile_all_digits {D : List Char}
    (hall : D.all Char.isDigit = true) :
    D.takeWhile Char.isDigit = D := by
  induction D with
  | nil => rfl
  | cons a as ih =>
    rw [List.all_cons, Bool.and_eq_true] at hall
    rw [List.takeWhile_cons, if_pos hall.1, ih hall.2]

theorem wfNumBody_digits {D : List Char} (hall : D.all Char.isDigit = true)
    (hne : D.isEmpty = false) : wfNumBody D = true := by
  have h2 : D.dropWhile Char.isDigit = [] := by
    rw [List.dropWhile_eq_nil_iff]
    intro x hx
    rw [List.all_eq_true] at hall
    exact hall x hx
  unfold wfNumBody
  simp only [h2]
  rw [takeWhile_all_digits hall, hne]
  rfl

theorem wfNumBody_digits_frac {D F : List Char}
    (hD : D.all Char.isDigit = true) (hF : F.all Char.isDigit = true)
    (hne : F.isEmpty = false) : wfNumBody (D ++ '.' :: F) = true := by
  obtain ⟨-, hdw⟩ :=
    takeWhile_append_stop (p := Char.isDigit) (c := '.') F hD (by decide)
  unfold wfNumBody
  simp only [hdw]
  rw [hne, hF]
  rfl

theorem wfNum_of_body {body : List Char} (h : wfNumBody body = true) :
    wfNum body = true := by
  unfold wfNum
  split
  · rename_i t
    rw [show wfNumBody ('-' :: t) = false from rfl] at h
    cases h
  · exact h

theorem lexNum_sound {neg : Bool} {l t r : List Char}
    (h : lexNum neg l = some (t, r)) : wfNum t = true := by
  unfold lexNum at h
  split at h
  · rename_i rest2 heq
    by_cases he : (rest2.takeWhile Char.isDigit).isEmpty
    · rw [if_pos he] at h
      cases h
    · rw [if_neg he] at h
      rw [Option.some.injEq, Prod.mk.injEq] at h
      obtain ⟨ht, -⟩ := h
      have hbody : wfNumBody (l.takeWhile Char.isDigit
          ++ '.' :: rest2.takeWhile Char.isDigit) = true :=
        wfNumBody_digits_frac (all_takeWhile _ _) (all_takeWhile _ _)
          (Bool.not_eq_true _ ▸ Bool.of_not_eq_true he)
      cases neg
      · rw [← ht]
        show wfNum (l.takeWhile Char.isDigit
          ++ '.' :: rest2.takeWhile Char.isDigit) = true
        exact wfNum_of_body hbody
      · rw [← ht]
        show wfNum ('-' :: (l.takeWhile Char.isDigit
          ++ '.' :: rest2.takeWhile Char.isDigit)) = true
        exact hbody
  · by_cases he : (l.takeWhile Char.isDigit).isEmpty
    · rw [if_pos he] at h
      cases h
    · rw [if_neg he] at h
      rw [Option.some.injEq, Prod.mk.injEq] at h
      obtain ⟨ht, -⟩ := h
      have hbody : wfNumBody (l.takeWhile Char.isDigit) = true :=
        wfNumBody_digits (all_takeWhile _ _)
          (Bool.not_eq_true _ ▸ Bool.of_not_eq_true he)
      cases neg
      · rw [← ht]
        show wfNum (l.takeWhile Char.isDigit) = true
        exact wfNum_of_body hbody
      · rw [← ht]
        show wfNum ('-' :: l.takeWhile Char.isDigit) = true
        exact hbody

theorem lexStep_sound {c : Char} {cs : List Char} {ot : Option Token}
    {r : List Char} (h : lexStep c cs = some (ot, r)) :
    ∀ t, ot = some t → wfTokenLex t = true := by
  intro t hot
  subst hot
  unfold lexStep at h
  by_cases h1 : c.isWhitespace
  · rw [if_pos h1, Option.some.injEq, Prod.mk.injEq] at h
    cases h.1
  · rw [if_neg h1] at h
    by_cases h2 : isIdentStart c
    · rw [if_pos h2, Option.some.injEq, Prod.mk.injEq] at h
      obtain ⟨ht, -⟩ := h
      rw [Option.some.injEq] at ht
      rw [← ht]
      show wfIdent (c :: cs.takeWhile isIdentChar) = true
      rw [show wfIdent (c :: cs.takeWhile isIdentChar)
          = (isIdentStart c && (cs.takeWhile isIdentChar).all isIdentChar)
          from rfl, h2, all_takeWhile]
      rfl
    · rw [if_neg h2] at h
      by_cases h3 : c = '"'
      · rw [if_pos h3] at h
        rcases hm : munchString cs with _ | ⟨s1, r1⟩
        · rw [hm] at h
          cases h
        · rw [hm] at h
          rw [show Option.map
              (fun p => (some (Token.strTok p.1), p.2)) (some (s1, r1))
              = some (some (Token.strTok s1), r1) from rfl,
            Option.some.injEq, Prod.mk.injEq] at h
          obtain ⟨ht, -⟩ := h
          rw [Option.some.injEq] at ht
          rw [← ht]
          rfl
      · rw [if_neg h3] at h
        by_cases h4 : c = '/'
        · rw [if_pos h4] at h
          rcases hm : munchRegexp false cs with _ | ⟨s1, r1⟩
          · rw [hm] at h
            cases h
          · rw [hm] at h
            rw [show Option.map
                (fun p => (some (Token.reTok p.1), p.2)) (some (s1, r1))
                = some (some (Token.reTok s1), r1) from rfl,
              Option.some.injEq, Prod.mk.injEq] at h
            obtain ⟨ht, -⟩ := h
            rw [Option.some.injEq] at ht
            rw [← ht]
            rfl
        · rw [if_neg h4] at h
          by_cases h5 : c.isDigit = true ∨ c = '.'
          · rw [if_pos h5] at h
            rcases hm : lexNum false (c :: cs) with _ | ⟨s1, r1⟩
            · rw [hm] at h
              cases h
            · rw [hm] at h
              rw [show Option.map
                  (fun p => (some (Token.numTok p.1), p.2)) (some (s1, r1))
                  = some (some (Token.numTok s1), r1) from rfl,
                Option.some.injEq, Prod.mk.injEq] at h
              obtain ⟨ht, -⟩ := h
              rw [Option.some.injEq] at ht
              rw [← ht]
              show wfNum s1 = true
              exact lexNum_sound hm
          · rw [if_neg h5] at h
            by_cases h6 : c = '-'
            · rw [if_pos h6] at h
              by_cases h7 : cs.head? = some '>'
              · rw [if_pos h7, Option.some.injEq, Prod.mk.injEq] at h
                obtain ⟨ht, -⟩ := h
                rw [Option.some.injEq] at ht
                rw [← ht]
                rfl
              · rw [if_neg h7] at h
                rcases hm : lexNum true cs with _ | ⟨s1, r1⟩
                · rw [hm] at h
                  cases h
                · rw [hm] at h
                  rw [show Option.map
                      (fun p => (some (Token.numTok p.1), p.2))
                        (some (s1, r1))
                      = some (some (Token.numTok s1), r1) from rfl,
                    Option.some.injEq, Prod.mk.injEq] at h
                  obtain ⟨ht, -⟩ := h
                  rw [Option.some.injEq] at ht
                  rw [← ht]
                  show wfNum s1 = true
                  exact lexNum_sound hm
            · rw [if_neg h6] at h
              by_cases h8 : c = '&'
              · rw [if_pos h8] at h
                by_cases h9 : cs.head? = some '&'
                · rw [if_pos h9, Option.some.injEq, Prod.mk.injEq] at h
                  obtain ⟨ht, -⟩ := h
                  rw [Option.some.injEq] at ht
                  rw [← ht]
                  rfl
                · rw [if_neg h9] at h
                  cases h
              · rw [if_neg h8] at h
                by_cases ha : c = '('
                · rw [if_pos ha, Option.some.injEq, Prod.mk.injEq] at h
                  obtain ⟨ht, -⟩ := h
                  rw [Option.some.injEq] at ht
                  rw [← ht]
                  rfl
                · rw [if_neg ha] at h
                  by_cases hb : c = ')'
                  · rw [if_pos hb, Option.some.injEq, Prod.mk.injEq] at h
                    obtain ⟨ht, -⟩ := h
                    rw [Option.some.injEq] at ht
                    rw [← ht]
                    rfl
                  · rw [if_neg hb] at h
                    by_cases hc : c = ','
                    · rw [if_pos hc, Option.some.injEq, Prod.mk.injEq] at h
                      obtain ⟨ht, -⟩ := h
                      rw [Option.some.injEq] at ht
                      rw [← ht]
                      rfl
                    · rw [if_neg hc] at h
                      by_cases hd : c = ':'
                      · rw [if_pos hd, Option.some.injEq,
                          Prod.mk.injEq] at h
                        obtain ⟨ht, -⟩ := h
                        rw [Option.some.injEq] at ht
                        rw [← ht]
                        rfl
                      · rw [if_neg hd] at h
                        by_cases hf : c = ';'
                        · rw [if_pos hf, Option.some.injEq,
                            Prod.mk.injEq] at h
                          obtain ⟨ht, -⟩ := h
                          rw [Option.some.injEq] at ht
                          rw [← ht]
                          rfl
                        · rw [if_neg hf] at h
                          by_cases hg : c = '*'
                          · rw [if_pos hg, Option.some.injEq,
                              Prod.mk.injEq] at h
                            obtain ⟨ht, -⟩ := h
                            rw [Option.some.injEq] at ht
                            rw [← ht]
                            rfl
                          · rw [if_neg hg] at h
                            by_cases hh : c = '<'
                            · rw [if_pos hh, Option.some.injEq,
                                Prod.mk.injEq] at h
                              obtain ⟨ht, -⟩ := h
                              rw [Option.some.injEq] at ht
                              rw [← ht]
                              rfl
                            · rw [if_neg hh] at h
                              by_cases hi : c = '>'
                              · rw [if_pos hi, Option.some.injEq,
                                  Prod.mk.injEq] at h
                                obtain ⟨ht, -⟩ := h
                                rw [Option.some.injEq] at ht
                                rw [← ht]
                                rfl
                              · rw [if_neg hi] at h
                                cases h

theorem lexFuel_sound : ∀ (f : Nat) (l : List Char) {ts : List Token},
    lexFuel f l = some ts → ts.all wfTokenLex = true := by
  intro f
  induction f with
  | zero =>
    intro l ts h
    cases h
  | succ g ih =>
    intro l ts h
    cases l with
    | nil =>
      rw [show lexFuel (g + 1) [] = some [] from rfl,
        Option.some.injEq] at h
      rw [← h]
      rfl
    | cons c cs =>
      rw [show lexFuel (g + 1) (c :: cs)
          = (match lexStep c cs with
            | none => none
            | some (none, r) => lexFuel g r
            | some (some t, r) => (lexFuel g r).map (fun ts => t :: ts))
          from rfl] at h
      rcases hs : lexStep c cs with _ | ⟨ot, r⟩
      · rw [hs] at h
        cases h
      · rw [hs] at h
        rcases ot with _ | t
        · have h2 : lexFuel g r = some ts := h
          exact ih r h2
        · have h2 : (lexFuel g r).map (fun ts => t :: ts) = some ts := h
          rcases hf : lexFuel g r with _ | ts2
          · rw [hf] at h2
            cases h2
          · rw [hf] at h2
            rw [show Option.map (fun ts => t :: ts) (some ts2)
                = some (t :: ts2) from rfl, Option.some.injEq] at h2
            rw [← h2, List.all_cons, Bool.and_eq_true]
            exact ⟨lexStep_sound hs t rfl, ih r hf⟩

theorem lex_sound {l : List Char} {ts : List Token} (h : lex l = some ts) :
    ts.all wfTokenLex = true :=
  lexFuel_sound _ _ h

/-!  ### The parser produces only well-formed structures  -/

theorem argOfToken_sound {tk : Token} {a : Arg} (hw : wfTokenLex tk = true)
    (h : argOfToken tk = some a) : wfArg a = true := by
  cases tk with
  | strTok v =>
    rw [show argOfToken (Token.strTok v) = some (Arg.strA v) from rfl,
      Option.some.injEq] at h
    rw [← h]
    rfl
  | reTok v =>
    rw [show argOfToken (Token.reTok v) = some (Arg.strA v) from rfl,
      Option.some.injEq] at h
    rw [← h]
    rfl
  | numTok v =>
    rw [show argOfToken (Token.numTok v) = some (Arg.numA v) from rfl,
      Option.some.injEq] at h
    rw [← h]
    exact hw
  | ident v => exact Option.noConfusion h
  | lparen => exact Option.noConfusion h
  | rparen => exact Option.noConfusion h
  | comma => exact Option.noConfusion h
  | colon => exact Option.noConfusion h
  | semi => exact Option.noConfusion h
  | arrow => exact Option.noConfusion h
  | andand => exact Option.noConfusion h
  | star => exact Option.noConfusion h
  | lt => exact Option.noConfusion h
  | gt => exact Option.noConfusion h

theorem parseArgsTail_soundAux : ∀ (n : Nat) {ts : List Token},
    ts.length ≤ n → ∀ {as : List Arg} {rest : List Token},
    ts.all wfTokenLex = true → parseArgsTail ts = some (as, rest) →
    as.all wfArg = true := by
  intro n
  induction n with
  | zero =>
    intro ts hlen as rest hwf h
    rcases ts with _ | ⟨t, ts1⟩
    · exact Option.noConfusion h
    · simp at hlen
  | succ k ih =>
    intro ts hlen as rest hwf h
    rcases ts with _ | ⟨t0, ts1⟩
    · exact Option.noConfusion h
    · cases t0
      case rparen =>
        rw [show parseArgsTail (Token.rparen :: ts1) = some ([], ts1)
            from rfl, Option.some.injEq, Prod.mk.injEq] at h
        rw [← h.1]
        rfl
      case comma =>
        rcases ts1 with _ | ⟨t, ts2⟩
        · exact Option.noConfusion h
        · rw [List.all_cons, List.all_cons, Bool.and_eq_true,
            Bool.and_eq_true] at hwf
          obtain ⟨-, hwt, hwts⟩ := hwf
          have h2 : (match argOfToken t with
              | some a => (parseArgsTail ts2).map (fun p => (a :: p.1, p.2))
              | none => none) = some (as, rest) := h
          rcases ha : argOfToken t with _ | a
          · rw [ha] at h2
            exact Option.noConfusion h2
          · rw [ha] at h2
            have h3 : (parseArgsTail ts2).map (fun p => (a :: p.1, p.2))
                = some (as, rest) := h2
            rcases hp : parseArgsTail ts2 with _ | ⟨as2, r2⟩
            · rw [hp] at h3
              exact Option.noConfusion h3
            · rw [hp] at h3
              rw [show Option.map (fun p => (a :: p.1, p.2))
                  (some (as2, r2)) = some (a :: as2, r2) from rfl,
                Option.some.injEq, Prod.mk.injEq] at h3
              rw [← h3.1, List.all_cons, Bool.and_eq_true]
              refine ⟨argOfToken_sound hwt ha, ih ?_ hwts hp⟩
              simp only [List.length_cons] at hlen
              omega
      all_goals exact Option.noConfusion h

theorem parseArgsTail_sound {ts : List Token} {as : List Arg}
    {rest : List Token} (hwf : ts.all wfTokenLex = true)
    (h : parseArgsTail ts = some (as, rest)) : as.all wfArg = true :=
  parseArgsTail_soundAux ts.length le_rfl hwf h

theorem parseArgList_sound {ts : List Token} {as : List Arg}
    {rest : List Token} (hwf : ts.all wfTokenLex = true)
    (h : parseArgList ts = some (as, rest)) : as.all wfArg = true := by
  cases ts with
  | nil => cases h
  | cons t0 ts1 =>
    rw [List.all_cons, Bool.and_eq_true] at hwf
    obtain ⟨hw0, hw1⟩ := hwf
    cases t0
    case rparen =>
      rw [show parseArgList (Token.rparen :: ts1) = some ([], ts1) from rfl,
        Option.some.injEq, Prod.mk.injEq] at h
      rw [← h.1]
      rfl
    case strTok v =>
      have h2 : (parseArgsTail ts1).map
          (fun p => (Arg.strA v :: p.1, p.2)) = some (as, rest) := h
      rcases hp : parseArgsTail ts1 with _ | ⟨as2, r2⟩
      · rw [hp] at h2
        cases h2
      · rw [hp] at h2
        rw [show Option.map (fun p => (Arg.strA v :: p.1, p.2))
            (some (as2, r2)) = some (Arg.strA v :: as2, r2) from rfl,
          Option.some.injEq, Prod.mk.injEq] at h2
        rw [← h2.1, List.all_cons, Bool.and_eq_true]
        exact ⟨rfl, parseArgsTail_sound hw1 hp⟩
    case reTok v =>
      have h2 : (parseArgsTail ts1).map
          (fun p => (Arg.strA v :: p.1, p.2)) = some (as, rest) := h
      rcases hp : parseArgsTail ts1 with _ | ⟨as2, r2⟩
      · rw [hp] at h2
        cases h2
      · rw [hp] at h2
        rw [show Option.map (fun p => (Arg.strA v :: p.1, p.2))
            (some (as2, r2)) = some (Arg.strA v :: as2, r2) from rfl,
          Option.some.injEq, Prod.mk.injEq] at h2
        rw [← h2.1, List.all_cons, Bool.and_eq_true]
        exact ⟨rfl, parseArgsTail_sound hw1 hp⟩
    case numTok v =>
      have h2 : (parseArgsTail ts1).map
          (fun p => (Arg.numA v :: p.1, p.2)) = some (as, rest) := h
      rcases hp : parseArgsTail ts1 with _ | ⟨as2, r2⟩
      · rw [hp] at h2
        cases h2
      · rw [hp] at h2
        rw [show Option.map (fun p => (Arg.numA v :: p.1, p.2))
            (some (as2, r2)) = some (Arg.numA v :: as2, r2) from rfl,
          Option.some.injEq, Prod.mk.injEq] at h2
        rw [← h2.1, List.all_cons, Bool.and_eq_true]
        exact ⟨hw0, parseArgsTail_sound hw1 hp⟩
    all_goals exact Option.noConfusion h

theorem parsePredicateChunk_sound {ts : List Token} {p : Predicate}
    (hwf : ts.all wfTokenLex = true) (h : parsePredicateChunk ts = some p) :
    wfIdent p.name = true ∧ p.args.all wfArg = true := by
  unfold parsePredicateChunk at h
  split at h
  · rename_i n rest
    rw [List.all_cons, List.all_cons, Bool.and_eq_true,
      Bool.and_eq_true] at hwf
    obtain ⟨hn, -, hrest⟩ := hwf
    split at h
    · rename_i as heq2
      rw [Option.some.injEq] at h
      rw [← h]
      exact ⟨hn, parseArgList_sound hrest heq2⟩
    · cases h
  · cases h

theorem parseFilterChunk_sound {ts : List Token} {fl : Filter}
    (hwf : ts.all wfTokenLex = true) (h : parseFilterChunk ts = some fl) :
    wfIdent fl.name = true ∧ fl.args.all wfArg = true := by
  unfold parseFilterChunk at h
  split at h
  · rename_i n rest
    rw [List.all_cons, List.all_cons, Bool.and_eq_true,
      Bool.and_eq_true] at hwf
    obtain ⟨hn, -, hrest⟩ := hwf
    split at h
    · rename_i as heq2
      rw [Option.some.injEq] at h
      rw [← h]
      exact ⟨hn, parseArgList_sound hrest heq2⟩
    · cases h
  · cases h

theorem parseMatchExpr_sound {ts : List Token} {ms : List Predicate}
    (hwf : ts.all wfTokenLex = true) (h : parseMatchExpr ts = some ms) :
    ∀ p ∈ ms, wfIdent p.name = true ∧ p.args.all wfArg = true := by
  intro p hp
  unfold parseMatchExpr at h
  rcases hm : mapMO parseMatchAtom (splitSep Token.andand ts) with _ | ls
  · rw [hm] at h
    cases h
  · rw [hm] at h
    rw [show Option.map List.join (some ls) = some ls.join from rfl,
      Option.some.injEq] at h
    subst h
    rw [List.mem_join] at hp
    obtain ⟨l, hl, hpl⟩ := hp
    obtain ⟨seg, hseg, hsa⟩ := mapMO_mem _ hm l hl
    have hsw : seg.all wfTokenLex = true := by
      rw [List.all_eq_true]
      intro x hx
      rw [List.all_eq_true] at hwf
      exact hwf x (mem_splitSep hseg hx)
    unfold parseMatchAtom at hsa
    split at hsa
    · rw [Option.some.injEq] at hsa
      rw [← hsa] at hpl
      cases hpl
    · rcases hc : parsePredicateChunk seg with _ | q
      · rw [hc] at hsa
        cases hsa
      · rw [hc] at hsa
        rw [show Option.map (fun p => [p]) (some q) = some [q] from rfl,
          Option.some.injEq] at hsa
        rw [← hsa] at hpl
        rw [List.mem_singleton] at hpl
        subst hpl
        exact parsePredicateChunk_sound hsw hc

/-- Well-formedness of a parsed backend clause: a load-balanced backend has a
well-formed algorithm name, when present, and at least one endpoint. -/
def wfBackendAst : BackendAst → Prop
  | .lb alg eps => (∀ a, alg = some a → wfIdent a = true) ∧ eps ≠ []
  | _ => True

theorem parseLBContents_sound {ts : List Token}
    {alg : Option (List Char)} {eps : List (List Char)}
    (hwf : ts.all wfTokenLex = true)
    (h : parseLBContents ts = some (alg, eps)) :
    (∀ a, alg = some a → wfIdent a = true) ∧ eps ≠ [] := by
  unfold parseLBContents at h
  split at h
  · rename_i a rest
    rw [List.all_cons, List.all_cons, Bool.and_eq_true,
      Bool.and_eq_true] at hwf
    obtain ⟨hwa, -, -⟩ := hwf
    rcases hm : mapMO parseEndpointChunk (splitSep Token.comma rest)
      with _ | es
    · rw [hm] at h
      exact Option.noConfusion h
    · rw [hm] at h
      rw [show Option.map (fun eps => (some a, eps)) (some es)
          = some (some a, es) from rfl, Option.some.injEq,
        Prod.mk.injEq] at h
      obtain ⟨h1, h2⟩ := h
      constructor
      · intro a2 ha2
        rw [← h1, Option.some.injEq] at ha2
        rw [← ha2]
        exact hwa
      · rw [← h2]
        intro hnil
        have hlen := mapMO_length _ hm
        rw [hnil] at hlen
        exact splitSep_ne_nil _ _ (List.length_eq_zero.mp hlen.symm)
  · rcases hm : mapMO parseEndpointChunk (splitSep Token.comma ts)
      with _ | es
    · rw [hm] at h
      exact Option.noConfusion h
    · rw [hm] at h
      rw [show Option.map
          (fun eps => ((none : Option (List Char)), eps)) (some es)
          = some (none, es) from rfl, Option.some.injEq,
        Prod.mk.injEq] at h
      obtain ⟨h1, h2⟩ := h
      constructor
      · intro a2 ha2
        rw [← h1] at ha2
        exact Option.noConfusion ha2
      · rw [← h2]
        intro hnil
        have hlen := mapMO_length _ hm
        rw [hnil] at hlen
        exact splitSep_ne_nil _ _ (List.length_eq_zero.mp hlen.symm)

theorem parseBackendChunk_sound {ts : List Token} {b : BackendAst}
    (hwf : ts.all wfTokenLex = true) (h : parseBackendChunk ts = some b) :
    wfBackendAst b := by
  unfold parseBackendChunk at h
  split at h
  · rw [Option.some.injEq] at h
    rw [← h]
    trivial
  · rename_i rest
    rw [List.all_cons, Bool.and_eq_true] at hwf
    obtain ⟨-, hrest⟩ := hwf
    split at h
    · by_cases h1 : rest.dropLast = [Token.ident ("shunt".toList)]
      · rw [if_pos h1, Option.some.injEq] at h
        rw [← h]
        trivial
      · rw [if_neg h1] at h
        by_cases h2 : rest.dropLast = [Token.ident ("loopback".toList)]
        · rw [if_pos h2, Option.some.injEq] at h
          rw [← h]
          trivial
        · rw [if_neg h2] at h
          rcases hl : parseLBContents rest.dropLast with _ | ⟨alg, eps⟩
          · rw [hl] at h
            exact Option.noConfusion h
          · rw [hl] at h
            rw [show Option.map (fun p => BackendAst.lb p.1 p.2)
                (some (alg, eps)) = some (.lb alg eps) from rfl,
              Option.some.injEq] at h
            rw [← h]
            show (∀ a, alg = some a → wfIdent a = true) ∧ eps ≠ []
            refine parseLBContents_sound ?_ hl
            rw [List.all_eq_true]
            intro x hx
            rw [List.all_eq_true] at hrest
            exact hrest x ((List.dropLast_sublist rest).subset hx)
    · exact Option.noConfusion h
  · exact Option.noConfusion h

/-- Well-formedness of a parsed route definition. -/
def wfDef (d : RouteDef) : Prop :=
  (d.id = [] ∨ wfIdent d.id = true)
    ∧ (∀ p ∈ d.matchers, wfIdent p.name = true ∧ p.args.all wfArg = true)
    ∧ (∀ fl ∈ d.filters, wfIdent fl.name = true ∧ fl.args.all wfArg = true)
    ∧ wfBackendAst d.backend

theorem idmOf_sound {first : List Token}
    (hwf : first.all wfTokenLex = true) :
    ((idmOf first).1 = [] ∨ wfIdent (idmOf first).1 = true)
      ∧ (idmOf first).2.all wfTokenLex = true := by
  unfold idmOf
  split
  · rename_i n m
    rw [List.all_cons, List.all_cons, Bool.and_eq_true,
      Bool.and_eq_true] at hwf
    exact ⟨Or.inr hwf.1, hwf.2.2⟩
  · exact ⟨Or.inl rfl, hwf⟩

theorem parseRouteDef_sound {ts : List Token} {d : RouteDef}
    (hwf : ts.all wfTokenLex = true) (h : parseRouteDef ts = some d) :
    wfDef d := by
  have hseg : ∀ seg ∈ splitSep Token.arrow ts, seg.all wfTokenLex = true
    := by
    intro seg hs
    rw [List.all_eq_true]
    intro x hx
    rw [List.all_eq_true] at hwf
    exact hwf x (mem_splitSep hs hx)
  unfold parseRouteDef at h
  split at h
  · exact Option.noConfusion h
  · exact Option.noConfusion h
  · rename_i first rest hne heq
    have hfw : first.all wfTokenLex = true :=
      hseg first (by rw [heq]; exact List.mem_cons_self _ _)
    rcases hpm : parseMatchExpr (idmOf first).2 with _ | ms
    · rw [hpm] at h
      exact Option.noConfusion h
    · rw [hpm] at h
      rcases hgl : rest.getLast? with _ | bchunk
      · rw [hgl] at h
        exact Option.noConfusion h
      · rw [hgl] at h
        rcases hmf : mapMO parseFilterChunk rest.dropLast
          with _ | fs
        · rw [hmf] at h
          exact Option.noConfusion h
        · rw [hmf] at h
          have h3 : (parseBackendChunk bchunk).map
              (fun b => (⟨(idmOf first).1, ms, fs, b⟩ : RouteDef))
              = some d := h
          rcases hbk : parseBackendChunk bchunk with _ | b
          · rw [hbk] at h3
            exact Option.noConfusion h3
          · rw [hbk] at h3
            rw [show Option.map
                (fun b => (⟨(idmOf first).1, ms, fs, b⟩ : RouteDef))
                (some b) = some ⟨(idmOf first).1, ms, fs, b⟩ from rfl,
              Option.some.injEq] at h3
            rw [← h3]
            refine ⟨(idmOf_sound hfw).1, ?_, ?_, ?_⟩
            · intro p hp
              exact parseMatchExpr_sound (idmOf_sound hfw).2 hpm p hp
            · intro fl hfl
              obtain ⟨seg, hs2, hsf⟩ := mapMO_mem _ hmf fl hfl
              refine parseFilterChunk_sound ?_ hsf
              have hs3 : seg ∈ rest :=
                (List.dropLast_sublist _).subset hs2
              exact hseg seg (by
                rw [heq]
                exact List.mem_cons_of_mem _ hs3)
            · refine parseBackendChunk_sound ?_ hbk
              have hs3 : bchunk ∈ rest :=
                List.mem_of_getLast?_eq_some hgl
              exact hseg bchunk (by
                rw [heq]
                exact List.mem_cons_of_mem _ hs3)

theorem dropTrailingEmpty_ne_nil {segs : List (List Token)}
    (h : segs ≠ []) : dropTrailingEmpty segs ≠ [] := by
  unfold dropTrailingEmpty
  split
  · rename_i hcond
    intro hnil
    have h2 := congrArg List.length hnil
    rw [List.length_dropLast] at h2
    have h3 := hcond.1
    simp at h2
    omega
  · exact h

theorem mem_dropTrailingEmpty {segs : List (List Token)} {seg : List Token}
    (h : seg ∈ dropTrailingEmpty segs) : seg ∈ segs := by
  unfold dropTrailingEmpty at h
  split at h
  · exact (List.dropLast_sublist segs).subset h
  · exact h

theorem parseDocTokens_sound {ts : List Token} {defs : List RouteDef}
    (hwf : ts.all wfTokenLex = true) (h : parseDocTokens ts = some defs) :
    defs ≠ [] ∧ (∀ d ∈ defs, wfDef d)
      ∧ (2 ≤ defs.length → ∀ d ∈ defs, d.id ≠ []) := by
  unfold parseDocTokens at h
  rcases hm : mapMO parseRouteDef (dropTrailingEmpty (splitSep Token.semi ts))
    with _ | defs0
  · rw [hm] at h
    exact Option.noConfusion h
  · rw [hm] at h
    have h2 : (if 2 ≤ defs0.length
        ∧ (defs0.any fun d => d.id.isEmpty) = true then none
        else some defs0) = some defs := h
    clear h
    by_cases hg : 2 ≤ defs0.length
      ∧ (defs0.any fun d => d.id.isEmpty) = true
    · rw [if_pos hg] at h2
      exact Option.noConfusion h2
    · rw [if_neg hg] at h2
      rw [Option.some.injEq] at h2
      subst h2
      refine ⟨?_, ?_, ?_⟩
      · intro hnil
        have hlen := mapMO_length _ hm
        rw [hnil] at hlen
        exact dropTrailingEmpty_ne_nil (splitSep_ne_nil _ _)
          (List.eq_nil_of_length_eq_zero hlen.symm)
      · intro d hd
        obtain ⟨seg, hs2, hps⟩ := mapMO_mem _ hm d hd
        refine parseRouteDef_sound ?_ hps
        rw [List.all_eq_true]
        intro x hx
        rw [List.all_eq_true] at hwf
        exact hwf x (mem_splitSep (mem_dropTrailingEmpty hs2) hx)
      · intro h2 d hd he
        refine hg ⟨h2, ?_⟩
        rw [List.any_eq_true]
        refine ⟨d, hd, ?_⟩
        rw [he]
        rfl

theorem applyMatcher_stable (r : Route) (m : Predicate) :
    (applyMatcher r m).id = r.id ∧ (applyMatcher r m).filters = r.filters
      ∧ (applyMatcher r m).backendType = r.backendType
      ∧ (applyMatcher r m).backend = r.backend
      ∧ (applyMatcher r m).lbAlgorithm = r.lbAlgorithm
      ∧ (applyMatcher r m).lbEndpoints = r.lbEndpoints := by
  unfold applyMatcher
  split_ifs <;> first
    | (split <;> simp)
    | simp

theorem applyMatchers_stable : ∀ (ms : List Predicate) (r : Route),
    (applyMatchers r ms).id = r.id
      ∧ (applyMatchers r ms).filters = r.filters
      ∧ (applyMatchers r ms).backendType = r.backendType
      ∧ (applyMatchers r ms).backend = r.backend
      ∧ (applyMatchers r ms).lbAlgorithm = r.lbAlgorithm
      ∧ (applyMatchers r ms).lbEndpoints = r.lbEndpoints := by
  intro ms
  induction ms with
  | nil => intro r; exact ⟨rfl, rfl, rfl, rfl, rfl, rfl⟩
  | cons m ms ih =>
    intro r
    show (applyMatchers (applyMatcher r m) ms).id = r.id ∧ _
    obtain ⟨i1, i2, i3, i4, i5, i6⟩ := ih (applyMatcher r m)
    obtain ⟨j1, j2, j3, j4, j5, j6⟩ := applyMatcher_stable r m
    exact ⟨i1.trans j1, i2.trans j2, i3.trans j3, i4.trans j4,
      i5.trans j5, i6.trans j6⟩

theorem applyMatcher_promotable (r : Route) (m : Predicate)
    (h : isPromotable m = true) :
    (applyMatcher r m).predicates = r.predicates := by
  obtain ⟨n, args⟩ := m
  unfold isPromotable at h
  rw [Bool.and_eq_true] at h
  obtain ⟨hn, hargs⟩ := h
  rcases args with _ | ⟨a, rest⟩
  · exact Bool.noConfusion hargs
  · rcases a with x | x
    · rcases rest with _ | ⟨b, bs⟩
      · simp only [Bool.or_eq_true] at hn
        rcases hn with ((((h1 | h1) | h1) | h1) | h1)
          <;> rw [decide_eq_true_eq] at h1
          <;> subst h1
          <;> unfold applyMatcher
        · rw [if_pos rfl]
        · rw [if_neg (show ¬(("PathRegexp".toList : List Char)
              = "Path".toList) from by decide), if_pos rfl]
        · rw [if_neg (show ¬(("Host".toList : List Char)
              = "Path".toList) from by decide),
            if_neg (show ¬(("Host".toList : List Char)
              = "PathRegexp".toList) from by decide),
            if_pos (Or.inl rfl)]
        · rw [if_neg (show ¬(("HostRegexp".toList : List Char)
              = "Path".toList) from by decide),
            if_neg (show ¬(("HostRegexp".toList : List Char)
              = "PathRegexp".toList) from by decide),
            if_pos (Or.inr rfl)]
        · rw [if_neg (show ¬(("Method".toList : List Char)
              = "Path".toList) from by decide),
            if_neg (show ¬(("Method".toList : List Char)
              = "PathRegexp".toList) from by decide),
            if_neg (show ¬((("Method".toList : List Char)
                = "Host".toList)
              ∨ (("Method".toList : List Char) = "HostRegexp".toList))
              from by decide), if_pos rfl]
      · exact Bool.noConfusion hargs
    · exact Bool.noConfusion hargs

theorem applyMatcher_wfPreds (r : Route) (m : Predicate)
    (hm : wfIdent m.name = true ∧ m.args.all wfArg = true)
    (hr : r.predicates.all wfPred = true) :
    (applyMatcher r m).predicates.all wfPred = true := by
  by_cases hp : isPromotable m
  · rw [applyMatcher_promotable r m hp]
    exact hr
  · rw [Bool.not_eq_true] at hp
    rw [applyMatcher_generic r m hp]
    show (r.predicates ++ [m]).all wfPred = true
    rw [List.all_append, Bool.and_eq_true]
    refine ⟨hr, ?_⟩
    show (wfPred m && true) = true
    rw [Bool.and_true]
    unfold wfPred
    rw [hm.1, hm.2, hp]
    rfl

theorem applyMatchers_wfPreds : ∀ (ms : List Predicate) (r : Route),
    (∀ p ∈ ms, wfIdent p.name = true ∧ p.args.all wfArg = true) →
    r.predicates.all wfPred = true →
    (applyMatchers r ms).predicates.all wfPred = true := by
  intro ms
  induction ms with
  | nil => intro r _ hr; exact hr
  | cons m ms ih =>
    intro r hms hr
    show (applyMatchers (applyMatcher r m) ms).predicates.all wfPred = true
    exact ih (applyMatcher r m)
      (fun p hp => hms p (List.mem_cons_of_mem _ hp))
      (applyMatcher_wfPreds r m (hms m (List.mem_cons_self _ _)) hr)

theorem mkBase_fields (d : RouteDef) :
    (mkBase d).id = d.id ∧ (mkBase d).filters = d.filters
      ∧ (mkBase d).predicates = [] := by
  obtain ⟨id, ms, fls, b⟩ := d
  cases b <;> exact ⟨rfl, rfl, rfl⟩

theorem buildRoute_id (d : RouteDef) : (buildRoute d).id = d.id :=
  ((applyMatchers_stable d.matchers (mkBase d)).1).trans (mkBase_fields d).1

theorem buildRoute_sound {d : RouteDef} (h : wfDef d) :
    wfRoute (buildRoute d) = true := by
  obtain ⟨hid, hms, hfls, hbk⟩ := h
  unfold buildRoute
  obtain ⟨s1, s2, s3, s4, s5, s6⟩ :=
    applyMatchers_stable d.matchers (mkBase d)
  obtain ⟨b1, b2, b3⟩ := mkBase_fields d
  unfold wfRoute
  simp only [Bool.and_eq_true]
  refine ⟨⟨⟨?_, ?_⟩, ?_⟩, ?_⟩
  · rw [s1, b1]
    rcases hid with hid | hid
    · rw [hid]
      rfl
    · rw [hid]
      rw [Bool.or_true]
  · exact applyMatchers_wfPreds d.matchers (mkBase d) hms (by rw [b3]; rfl)
  · rw [s2, b2]
    rw [List.all_eq_true]
    intro fl hfl
    obtain ⟨h1, h2⟩ := hfls fl hfl
    unfold wfFilter
    rw [h1, h2]
    rfl
  · obtain ⟨id, ms, fls, b⟩ := d
    cases b with
    | network url =>
      rw [s3]
      rw [show (mkBase ⟨id, ms, fls, .network url⟩).backendType
          = BackendType.network from rfl]
      rw [s5, s6]
      rw [show (mkBase ⟨id, ms, fls, .network url⟩).lbAlgorithm = []
          from rfl,
        show (mkBase ⟨id, ms, fls, .network url⟩).lbEndpoints = []
          from rfl]
      rfl
    | shuntB =>
      rw [s3]
      rw [show (mkBase ⟨id, ms, fls, .shuntB⟩).backendType
          = BackendType.shunt from rfl]
      rw [s4, s5, s6]
      rfl
    | loopB =>
      rw [s3]
      rw [show (mkBase ⟨id, ms, fls, .loopB⟩).backendType
          = BackendType.loopback from rfl]
      rw [s4, s5, s6]
      rfl
    | lb alg eps =>
      rw [s3]
      rw [show (mkBase ⟨id, ms, fls, .lb alg eps⟩).backendType
          = BackendType.lb from rfl]
      rw [s4, s5, s6]
      rw [show (mkBase ⟨id, ms, fls, .lb alg eps⟩).backend = [] from rfl,
        show (mkBase ⟨id, ms, fls, .lb alg eps⟩).lbAlgorithm
          = alg.getD [] from rfl,
        show (mkBase ⟨id, ms, fls, .lb alg eps⟩).lbEndpoints = eps
          from rfl]
      obtain ⟨ha, he⟩ := hbk
      have h1 : ((alg.getD []).isEmpty || wfIdent (alg.getD [])) = true := by
        cases alg with
        | none => rfl
        | some a =>
          rw [show (Option.getD (some a) ([] : List Char)) = a from rfl,
            ha a rfl, Bool.or_true]
      have h2 : eps.isEmpty = false := by
        cases eps with
        | nil => exact absurd rfl he
        | cons e es => rfl
      rw [h1, h2]
      rfl

theorem parseChars_sound {l : List Char} {rs : List Route}
    (h : parseChars l = some rs) : wfRoutes rs = true := by
  unfold parseChars at h
  rcases hl : lex l with _ | ts
  · rw [hl] at h
    exact Option.noConfusion h
  · rw [hl] at h
    have h0 : (match parseDocTokens ts with
        | none => none
        | some defs => some (defs.map buildRoute)) = some rs := h
    clear h
    rcases hd : parseDocTokens ts with _ | defs
    · rw [hd] at h0
      exact Option.noConfusion h0
    · rw [hd] at h0
      have h2 : some (defs.map buildRoute) = some rs := h0
      rw [Option.some.injEq] at h2
      subst h2
      obtain ⟨hne, hwf, hids⟩ := parseDocTokens_sound (lex_sound hl) hd
      unfold wfRoutes
      simp only [Bool.and_eq_true]
      refine ⟨⟨?_, ?_⟩, ?_⟩
      · rcases defs with _ | ⟨d, ds⟩
        · exact absurd rfl hne
        · rfl
      · rw [List.all_eq_true]
        intro r hr
        rw [List.mem_map] at hr
        obtain ⟨d, hd2, rfl⟩ := hr
        exact buildRoute_sound (hwf d hd2)
      · by_cases h1 : defs.length = 1
        · rw [Bool.or_eq_true]
          left
          rw [List.length_map, h1]
          rfl
        · rw [Bool.or_eq_true]
          right
          rw [List.all_eq_true]
          intro r hr
          rw [List.mem_map] at hr
          obtain ⟨d, hd2, rfl⟩ := hr
          rw [buildRoute_id]
          have h3 : 2 ≤ defs.length := by
            rcases defs with _ | ⟨d0, ds⟩
            · exact absurd rfl hne
            · rcases ds with _ | ⟨d1, ds2⟩
              · exact absurd rfl h1
              · simp
          have h4 := hids h3 d hd2
          rcases hdi : d.id with _ | ⟨c, cs⟩
          · exact absurd hdi h4
          · rfl

theorem Parse_sound {str : String} {rs : List Route}
    (h : Parse str = some rs) : wfRoutes rs = true :=
  parseChars_sound h

theorem mapMO_none {α β : Type} (f : α → Option β) {x : α} :
    ∀ {l : List α}, x ∈ l → f x = none → mapMO f l = none := by
  intro l
  induction l with
  | nil =>
    intro hx
    cases hx
  | cons y ys ih =>
    intro hx hf
    rw [List.mem_cons] at hx
    unfold mapMO
    rcases hx with hx | hx
    · subst hx
      rw [hf]
    · rcases hfy : f y with _ | z
      · rfl
      · rw [ih hx hf]
        rfl

theorem parseFilterChunk_backendHead (r : Route) (X : List Token) :
    parseFilterChunk (backendTokens r ++ X) = none := by
  unfold backendTokens
  rcases hbt : r.backendType
  case network =>
    rfl
  case shunt =>
    rfl
  case loopback =>
    rfl
  case lb =>
    rfl

theorem arrow_not_mem_firstChunk (r : Route) :
    Token.arrow ∉ ((if r.id.isEmpty then []
      else [Token.ident r.id, Token.colon]) ++ matchTokens r) := by
  intro ha
  rw [List.mem_append] at ha
  rcases ha with ha | ha
  · by_cases hid : r.id.isEmpty
    · rw [if_pos hid] at ha
      cases ha
    · rw [if_neg hid] at ha
      simp at ha
  · exact arrow_not_mem_matchTokens r ha

theorem sepJoin_merge0 {α : Type} (sep : α) (x y : List α)
    (B : List (List α)) :
    x ++ sepJoin sep (y :: B) = sepJoin sep ((x ++ y) :: B) := by
  cases B with
  | nil => rfl
  | cons b bs =>
    show x ++ (y ++ sep :: sepJoin sep (b :: bs))
      = (x ++ y) ++ sep :: sepJoin sep (b :: bs)
    rw [List.append_assoc]

theorem sepJoin_merge {α : Type} (sep : α) :
    ∀ (A : List (List α)) (x y : List α) (B : List (List α)),
      sepJoin sep (A ++ [x]) ++ sepJoin sep (y :: B)
        = sepJoin sep (A ++ (x ++ y) :: B) := by
  intro A
  induction A with
  | nil =>
    intro x y B
    exact sepJoin_merge0 sep x y B
  | cons a as ih =>
    intro x y B
    cases as with
    | nil =>
      show (a ++ sep :: x) ++ sepJoin sep (y :: B)
        = a ++ sep :: sepJoin sep ((x ++ y) :: B)
      rw [List.append_assoc]
      rw [show (sep :: x) ++ sepJoin sep (y :: B)
          = sep :: (x ++ sepJoin sep (y :: B)) from rfl]
      rw [sepJoin_merge0]
    | cons a2 as2 =>
      show (a ++ sep :: sepJoin sep ((a2 :: as2) ++ [x]))
          ++ sepJoin sep (y :: B)
        = a ++ sep :: sepJoin sep ((a2 :: as2) ++ (x ++ y) :: B)
      rw [List.append_assoc]
      rw [show (sep :: sepJoin sep ((a2 :: as2) ++ [x]))
            ++ sepJoin sep (y :: B)
          = sep :: (sepJoin sep ((a2 :: as2) ++ [x])
            ++ sepJoin sep (y :: B)) from rfl]
      rw [ih x y B]

theorem parseRouteDef_concat_none (r1 r2 : Route) :
    parseRouteDef (routeTokens r1 ++ routeTokens r2) = none := by
  have hjoin : routeTokens r1 ++ routeTokens r2
      = sepJoin Token.arrow
          ((((if r1.id.isEmpty then []
              else [Token.ident r1.id, Token.colon]) ++ matchTokens r1)
            :: r1.filters.map (fun fl => callTokens fl.name fl.args))
          ++ (backendTokens r1
              ++ ((if r2.id.isEmpty then []
                  else [Token.ident r2.id, Token.colon]) ++ matchTokens r2))
            :: (r2.filters.map (fun fl => callTokens fl.name fl.args)
              ++ [backendTokens r2])) := by
    rw [routeTokens_eq r1, routeTokens_eq r2]
    rw [show (((if r1.id.isEmpty then []
          else [Token.ident r1.id, Token.colon]) ++ matchTokens r1)
        :: (r1.filters.map (fun fl => callTokens fl.name fl.args)
          ++ [backendTokens r1]))
        = (((if r1.id.isEmpty then []
            else [Token.ident r1.id, Token.colon]) ++ matchTokens r1)
          :: r1.filters.map (fun fl => callTokens fl.name fl.args))
          ++ [backendTokens r1] from rfl]
    exact sepJoin_merge Token.arrow _ _ _ _
  have hfree : ∀ ch ∈ (((if r1.id.isEmpty then []
        else [Token.ident r1.id, Token.colon]) ++ matchTokens r1)
          :: r1.filters.map (fun fl => callTokens fl.name fl.args))
        ++ (backendTokens r1
            ++ ((if r2.id.isEmpty then []
                else [Token.ident r2.id, Token.colon]) ++ matchTokens r2))
          :: (r2.filters.map (fun fl => callTokens fl.name fl.args)
            ++ [backendTokens r2]), Token.arrow ∉ ch := by
    intro ch hch
    rcases List.mem_append.mp hch with hch | hch
    · rw [List.mem_cons] at hch
      rcases hch with hch | hch
      · subst hch
        exact arrow_not_mem_firstChunk r1
      · rw [List.mem_map] at hch
        obtain ⟨fl, -, rfl⟩ := hch
        exact arrow_not_mem_callTokens fl.name fl.args
    · rw [List.mem_cons] at hch
      rcases hch with hch | hch
      · subst hch
        intro ha
        rcases List.mem_append.mp ha with ha | ha
        · exact arrow_not_mem_backendTokens r1 ha
        · exact arrow_not_mem_firstChunk r2 ha
      · rcases List.mem_append.mp hch with hch | hch
        · rw [List.mem_map] at hch
          obtain ⟨fl, -, rfl⟩ := hch
          exact arrow_not_mem_callTokens fl.name fl.args
        · rw [List.mem_singleton] at hch
          subst hch
          exact arrow_not_mem_backendTokens r2
  obtain ⟨y, ys, hys⟩ : ∃ y ys,
      r1.filters.map (fun fl => callTokens fl.name fl.args)
        ++ (backendTokens r1
            ++ ((if r2.id.isEmpty then []
                else [Token.ident r2.id, Token.colon]) ++ matchTokens r2))
          :: (r2.filters.map (fun fl => callTokens fl.name fl.args)
            ++ [backendTokens r2]) = y :: ys := by
    rcases hm : r1.filters.map (fun fl => callTokens fl.name fl.args)
      with _ | ⟨c, cs⟩
    · exact ⟨_, _, by rw [hm]; rfl⟩
    · exact ⟨_, _, by rw [hm]; rfl⟩
  have hsplit : splitSep Token.arrow (routeTokens r1 ++ routeTokens r2)
      = (((if r1.id.isEmpty then []
          else [Token.ident r1.id, Token.colon]) ++ matchTokens r1))
        :: y :: ys := by
    rw [hjoin, splitSep_sepJoin (by simp) hfree]
    rw [show ((((if r1.id.isEmpty then []
          else [Token.ident r1.id, Token.colon]) ++ matchTokens r1)
            :: r1.filters.map (fun fl => callTokens fl.name fl.args))
          ++ (backendTokens r1
              ++ ((if r2.id.isEmpty then []
                  else [Token.ident r2.id, Token.colon]) ++ matchTokens r2))
            :: (r2.filters.map (fun fl => callTokens fl.name fl.args)
              ++ [backendTokens r2]))
        = ((if r1.id.isEmpty then []
            else [Token.ident r1.id, Token.colon]) ++ matchTokens r1)
          :: (r1.filters.map (fun fl => callTokens fl.name fl.args)
            ++ (backendTokens r1
                ++ ((if r2.id.isEmpty then []
                    else [Token.ident r2.id, Token.colon])
                  ++ matchTokens r2))
              :: (r2.filters.map (fun fl => callTokens fl.name fl.args)
                ++ [backendTokens r2])) from rfl]
    rw [hys]
  unfold parseRouteDef
  rw [hsplit]
  show (match parseMatchExpr (idmOf ((if r1.id.isEmpty then []
      else [Token.ident r1.id, Token.colon]) ++ matchTokens r1)).2 with
    | none => none
    | some ms =>
      match (y :: ys).getLast? with
      | none => none
      | some bchunk =>
        match mapMO parseFilterChunk (y :: ys).dropLast with
        | none => none
        | some fs =>
          (parseBackendChunk bchunk).map
            (fun b => (⟨(idmOf ((if r1.id.isEmpty then []
                else [Token.ident r1.id, Token.colon])
                  ++ matchTokens r1)).1, ms, fs, b⟩ : RouteDef)))
    = none
  rcases hpm : parseMatchExpr (idmOf ((if r1.id.isEmpty then []
      else [Token.ident r1.id, Token.colon]) ++ matchTokens r1)).2
    with _ | ms
  · simp only [hpm]
  · simp only [hpm]
    rcases hgl : (y :: ys).getLast? with _ | bchunk
    · simp only [hgl]
    · simp only [hgl]
      have hdl : (y :: ys).dropLast
          = r1.filters.map (fun fl => callTokens fl.name fl.args)
            ++ (backendTokens r1
                ++ ((if r2.id.isEmpty then []
                    else [Token.ident r2.id, Token.colon])
                  ++ matchTokens r2))
              :: r2.filters.map (fun fl => callTokens fl.name fl.args)
        := by
        rw [← hys]
        rw [show r1.filters.map (fun fl => callTokens fl.name fl.args)
            ++ (backendTokens r1
                ++ ((if r2.id.isEmpty then []
                    else [Token.ident r2.id, Token.colon])
                  ++ matchTokens r2))
              :: (r2.filters.map (fun fl => callTokens fl.name fl.args)
                ++ [backendTokens r2])
            = (r1.filters.map (fun fl => callTokens fl.name fl.args)
              ++ (backendTokens r1
                  ++ ((if r2.id.isEmpty then []
                      else [Token.ident r2.id, Token.colon])
                    ++ matchTokens r2))
                :: r2.filters.map (fun fl => callTokens fl.name fl.args))
              ++ [backendTokens r2] from by
          rw [List.append_assoc]
          rfl]
        rw [List.dropLast_concat]
      rw [hdl]
      rw [mapMO_none parseFilterChunk (by
          rw [List.mem_append]
          right
          exact List.mem_cons_self _ _)
        (parseFilterChunk_backendHead r1 _)]

theorem wfToken_routeTokens {t : Token} {r : Route} (hwr : wfRoute r = true)
    (hc : t ∈ routeTokens r) : wfToken t = true := by
  rcases mem_routeTokens hc with ⟨h2, hni⟩ | h2 | h2 | h2
    | ⟨fl, hfl, h2⟩ | h2
  · subst h2
    unfold wfRoute at hwr
    simp only [Bool.and_eq_true] at hwr
    have h3 := hwr.1.1.1
    rw [hni, Bool.false_or] at h3
    exact h3
  · subst h2
    rfl
  · have hp : r.predicates.all wfPred = true := by
      unfold wfRoute at hwr
      simp only [Bool.and_eq_true] at hwr
      exact hwr.1.1.2
    exact wfToken_matchTokens hp h2
  · subst h2
    rfl
  · have hf : wfFilter fl = true := by
      unfold wfRoute at hwr
      simp only [Bool.and_eq_true] at hwr
      have h3 := hwr.1.2
      rw [List.all_eq_true] at h3
      exact h3 fl hfl
    unfold wfFilter at hf
    simp only [Bool.and_eq_true] at hf
    exact wfToken_callTokens hf.1 hf.2 h2
  · exact wfToken_backendTokens hwr h2

theorem parse_concat_none (r1 r2 : Route)
    (h1 : wfRoute r1 = true) (h2 : wfRoute r2 = true) :
    Parse (String.mk (printTokens (routeTokens r1 ++ routeTokens r2)))
      = none := by
  have hwft : (routeTokens r1 ++ routeTokens r2).all wfToken = true := by
    rw [List.all_append, Bool.and_eq_true]
    constructor
    · rw [List.all_eq_true]
      intro t ht
      exact wfToken_routeTokens h1 ht
    · rw [List.all_eq_true]
      intro t ht
      exact wfToken_routeTokens h2 ht
  have hdoc : parseDocTokens (routeTokens r1 ++ routeTokens r2) = none := by
    unfold parseDocTokens
    have hsp : splitSep Token.semi (routeTokens r1 ++ routeTokens r2)
        = [routeTokens r1 ++ routeTokens r2] := by
      refine splitSep_no_sep ?_
      intro hmem
      rcases List.mem_append.mp hmem with hm | hm
      · exact semi_not_mem_routeTokens r1 hm
      · exact semi_not_mem_routeTokens r2 hm
    rw [hsp]
    have hdr : dropTrailingEmpty [routeTokens r1 ++ routeTokens r2]
        = [routeTokens r1 ++ routeTokens r2] := by
      unfold dropTrailingEmpty
      rw [if_neg]
      rintro ⟨hlen, -⟩
      simp at hlen
    rw [hdr]
    rw [mapMO_none parseRouteDef (List.mem_singleton.mpr rfl)
      (parseRouteDef_concat_none r1 r2)]
  show parseChars (printTokens (routeTokens r1 ++ routeTokens r2)) = none
  unfold parseChars
  simp only [lex_printTokens _ hwft, hdoc]

/-!  ### Claims C1, C6 and C7  -/

/-- C1: for every syntactically valid document — here, the canonical
serialization of any well-formed route list — Parse succeeds and returns
exactly as many Route values as the document has route definitions, in
document order: the document splits into exactly `rs.length`
semicolon-separated definitions and Parse returns exactly the list `rs`
(so one definition yields one Route and N definitions yield N Routes,
order preserved). -/
theorem c1_parse_counts_definitions (rs : List Route)
    (h : wfRoutes rs = true) :
    Parse (String.mk (printRoutes rs)) = some rs
      ∧ (splitSep Token.semi (docTokens rs)).length = rs.length := by
  refine ⟨parseChars_printRoutes rs h, ?_⟩
  have hne : rs ≠ [] := by
    intro he
    subst he
    unfold wfRoutes at h
    simp only [Bool.and_eq_true] at h
    cases h.1.1
  rw [docTokens_split rs hne, List.length_map]

def c1RouteA : Route := { id := "a".toList, backendType := .shunt }

def c1RouteB : Route :=
  { id := "b".toList, path := "/p".toList, backend := "http://x".toList }

theorem c1_parse_counts_definitions_witness :
    wfRoutes [c1RouteA, c1RouteB] = true
      ∧ (Parse (String.mk (printRoutes [c1RouteA, c1RouteB]))
          = some [c1RouteA, c1RouteB]
        ∧ (splitSep Token.semi (docTokens [c1RouteA, c1RouteB])).length
          = ([c1RouteA, c1RouteB] : List Route).length) :=
  ⟨by decide, c1_parse_counts_definitions [c1RouteA, c1RouteB] (by decide)⟩

/-- C6: two individually well-formed route definitions concatenated with
only whitespace between them (no semicolon) make the whole parse fail,
while the same two definitions joined by a semicolon — when both carry
explicit ids — parse successfully into exactly those two routes. -/
theorem c6_missing_separator (r1 r2 : Route)
    (h1 : wfRoute r1 = true) (h2 : wfRoute r2 = true) :
    Parse (String.mk (printTokens (routeTokens r1 ++ routeTokens r2)))
        = none
      ∧ (r1.id ≠ [] → r2.id ≠ [] →
          Parse (String.mk (printRoutes [r1, r2])) = some [r1, r2]) := by
  refine ⟨parse_concat_none r1 r2 h1 h2, ?_⟩
  intro hi1 hi2
  refine parseChars_printRoutes [r1, r2] ?_
  unfold wfRoutes
  simp only [Bool.and_eq_true]
  refine ⟨⟨rfl, ?_⟩, ?_⟩
  · show (wfRoute r1 && (wfRoute r2 && true)) = true
    rw [h1, h2]
    rfl
  · rw [Bool.or_eq_true]
    right
    show (!r1.id.isEmpty && (!r2.id.isEmpty && true)) = true
    rcases hd1 : r1.id with _ | ⟨c, cs⟩
    · exact absurd hd1 hi1
    · rcases hd2 : r2.id with _ | ⟨d, ds⟩
      · exact absurd hd2 hi2
      · rfl

def c6RouteA : Route := { id := "a".toList, backendType := .shunt }

def c6RouteB : Route :=
  { id := "b".toList, path := "/p".toList, backend := "http://x".toList }

theorem c6_missing_separator_witness :
    wfRoute c6RouteA = true ∧ wfRoute c6RouteB = true
      ∧ (Parse (String.mk (printTokens
            (routeTokens c6RouteA ++ routeTokens c6RouteB))) = none
        ∧ (c6RouteA.id ≠ [] → c6RouteB.id ≠ [] →
            Parse (String.mk (printRoutes [c6RouteA, c6RouteB]))
              = some [c6RouteA, c6RouteB])) :=
  ⟨by decide, by decide,
    c6_missing_separator c6RouteA c6RouteB (by decide) (by decide)⟩

/-- C7: round-trip law — for every Route list produced by Parse,
serializing it back to routing-language syntax and parsing the result
yields exactly the same Route values (same predicates, filters and
backend; the printer fixes one whitespace convention). -/
theorem c7_round_trip (s : String) (rs : List Route)
    (h : Parse s = some rs) :
    Parse (String.mk (printRoutes rs)) = some rs :=
  parseChars_printRoutes rs (Parse_sound h)

def c7Doc : String := "a: Path(\"/p\") -> <shunt>"

def c7Routes : List Route :=
  [{ id := "a".toList, path := "/p".toList, backendType := .shunt }]

theorem c7_round_trip_witness :
    Parse c7Doc = some c7Routes
      ∧ Parse (String.mk (printRoutes c7Routes)) = some c7Routes :=
  ⟨by decide, c7_round_trip c7Doc c7Routes (by decide)⟩

end Eskip

namespace Kube

/-!  Shallow embedding of src/dataclients/kubernetes/ingress.go.  The
eskip.Route values this translator constructs are modelled by KRoute with
String payloads (the parsing-level detail of the Eskip namespace is not
needed here); Go float64 weights are modelled by the rationals; the
collaborators the file calls that are outside the provided sources (the
eskip fragment parsers, createHostRx, the external-name allow-list test) are
function parameters.  -/

/-- An argument of a predicate or filter in the translator's route model
(Go: a dynamically typed value holding a string or a float64). -/
inductive KArg
  | str (s : String)
  | num (q : ℚ)
deriving DecidableEq, Repr

/-- A predicate of the translator's route model (eskip.Predicate). -/
structure KPredicate where
  name : String
  args : List KArg
deriving DecidableEq, Repr

/-- A filter of the translator's route model (eskip.Filter). -/
structure KFilter where
  name : String
  args : List KArg
deriving DecidableEq, Repr

/-- The backend classification of the translator's route model
(eskip.BackendType). -/
inductive KBackendType
  | network
  | shunt
  | loopback
  | lb
deriving DecidableEq, Repr

/-- The eskip.Route fields the ingress translator reads or writes. -/
structure KRoute where
  id : String := ""
  path : String := ""
  hostRegexps : List String := []
  pathRegexps : List String := []
  predicates : List KPredicate := []
  filters : List KFilter := []
  backendType : KBackendType := .network
  backend : String := ""
  lbAlgorithm : String := ""
  lbEndpoints : List String := []
deriving DecidableEq, Repr

/-- Modelled from the spec: the kubernetes PathMode values consumed by
setPath (the PathMode type lives outside the provided sources): prefixMode
is the Go PathPrefix, regexpMode the Go PathRegexp, defaultMode the
kubernetes-ingress default. -/
inductive PathMode
  | defaultMode
  | regexpMode
  | prefixMode
deriving DecidableEq, Repr

def backendWeightsAnnotationKey : String := "zalando.org/backend-weights"

def ratelimitAnnotationKey : String := "zalando.org/ratelimit"

def skipperfilterAnnotationKey : String := "zalando.org/skipper-filter"

def skipperpredicateAnnotationKey : String := "zalando.org/skipper-predicate"

def skipperRoutesAnnotationKey : String := "zalando.org/skipper-routes"

def skipperLoadBalancerAnnotationKey : String :=
  "zalando.org/skipper-loadbalancer"

def skipperBackendProtocolAnnotationKey : String :=
  "zalando.org/skipper-backend-protocol"

def ingressRouteIDPrefix : String := "kube"

/-- The metadata of an ingress item: namespace, name and annotations
(definitions.Metadata; the annotation map is a lookup function). -/
structure Metadata where
  namespaceVal : String
  name : String
  annotations : String → Option String

/-- A word character for the Go regexp backslash-W class used by nonWord:
an ASCII letter, digit or underscore. -/
def isWordChar (c : Char) : Bool := c.isAlphanum || c = '_'

/-- nonWord.ReplaceAllString of ingress.go: every non-word character becomes
an underscore. -/
def nonWordReplace (s : String) : String :=
  String.map (fun c => if isWordChar c then c else '_') s

/-- routeID of ingress.go (lines 86-93). -/
def routeID (ns name host path backend : String) : String :=
  ingressRouteIDPrefix ++ "_" ++ nonWordReplace ns
    ++ "__" ++ nonWordReplace name
    ++ "__" ++ nonWordReplace host
    ++ "__" ++ nonWordReplace path
    ++ "__" ++ nonWordReplace backend

/-- routeIDForCustom of ingress.go (lines 97-100). -/
def routeIDForCustom (ns name id host : String) (index : ℕ) : String :=
  routeID ns (name ++ "_" ++ id ++ "_" ++ toString index) host "" ""

/-- setPath of ingress.go (lines 102-122). -/
def setPath (m : PathMode) (r : KRoute) (p : String) : KRoute :=
  if p = "" then r
  else
    match m with
    | .prefixMode =>
      { r with predicates := r.predicates ++ [⟨"PathSubtree", [KArg.str p]⟩] }
    | .regexpMode => { r with pathRegexps := [p] }
    | .defaultMode =>
      if p = "/" then { r with pathRegexps := ["^/"] }
      else { r with pathRegexps := ["^(" ++ p ++ ")"] }

/-- Modelled from the spec: the predicates package's TrafficName constant
(that package is outside the provided sources). -/
def trafficName : String := "Traffic"

/-- Modelled from the spec: the predicates package's TrueName constant (that
package is outside the provided sources). -/
def trueName : String := "True"

/-- setTraffic of ingress.go (lines 247-262): a Traffic predicate is
prepended when the weight is strictly between zero and one, then one True
predicate is prepended per noop. -/
def setTraffic (r : KRoute) (svcName : String) (weight : ℚ)
    (noopCount : ℤ) : KRoute :=
  let r1 :=
    if 0 < weight ∧ weight < 1 then
      { r with predicates := ⟨trafficName, [KArg.num weight]⟩ :: r.predicates }
    else r
  { r1 with predicates :=
      List.replicate noopCount.toNat ⟨trueName, []⟩ ++ r1.predicates }

/-- Modelled from the spec: shuntRoute (outside the provided sources) marks
a route as a shunt: the backend type becomes shunt and the network backend
address is cleared; every other field is kept. -/
def shuntRoute (r : KRoute) : KRoute :=
  { r with backendType := .shunt, backend := "" }

/-- Modelled from the spec: the definitions package's ingress backend
(outside the provided sources): service name and port, with the computed
traffic weight and noop count. -/
structure IngressBackend where
  serviceName : String
  servicePort : String
  traffic : ℚ := 0
  noopCount : ℤ := 0
deriving DecidableEq, Repr

/-- Modelled from the spec: one path rule of an ingress rule (outside the
provided sources): a path and an optional backend. -/
structure PathRule where
  path : String
  backend : Option IngressBackend
deriving DecidableEq, Repr

/-- A resolved service port (outside the provided sources): the target port
as text and, when numeric, as a number. -/
structure ServicePort where
  targetPortNumber : Option ℤ
  targetPortText : String
deriving DecidableEq, Repr

/-- A kubernetes service as the translator reads it (outside the provided
sources): the spec type, the external name and the port lookup. -/
structure Service where
  specType : String
  externalName : String
  getServicePort : String → Option ServicePort

/-- The cluster state operations the translator calls (outside the provided
sources): service lookup and endpoint listing. -/
structure ClusterState where
  getService : String → String → Option Service
  getEndpointsByService : String → String → String → ServicePort → List String

/-- Modelled from the spec: the collaborators outside the provided sources
that the translator calls to expand annotation fragments (section 6) and to
build host regexps. -/
structure Collab where
  parseFilters : String → Except String (List KFilter)
  parsePredicates : String → Except String (List KPredicate)
  eskipParse : String → Except String (List KRoute)
  createHostRx : String → String

/-- The backend protocol of ingress.go (lines 201-204, 555-558): the
protocol annotation when present, http otherwise. -/
def backendProtocol (m : Metadata) : String :=
  match m.annotations skipperBackendProtocolAnnotationKey with
  | some p => p
  | none => "http"

/-- Modelled from the spec: the default load-balancer algorithm constant
(outside the provided sources). -/
def defaultLoadBalancerAlgorithm : String := "roundRobin"

/-- getLoadBalancerAlgorithm of ingress.go (lines 76-83). -/
def getLoadBalancerAlgorithm (m : Metadata) : String :=
  match m.annotations skipperLoadBalancerAnnotationKey with
  | some v => v
  | none => defaultLoadBalancerAlgorithm

/-- externalNameRoute of ingress.go (lines 124-153); none models a non-nil
error. -/
def externalNameRoute (co : Collab) (ns name idHost : String)
    (hostRegexps : List String) (svc : Service) (sp : ServicePort)
    (allowed : String → Bool) : Option KRoute :=
  if !(allowed svc.externalName) then none
  else
    let scheme : String :=
      match sp.targetPortNumber with
      | some 443 => "https"
      | _ => "http"
    let u := scheme ++ "://" ++ svc.externalName ++ ":" ++ sp.targetPortText
    match co.parseFilters
        ("setRequestHeader(\"Host\", \"" ++ svc.externalName ++ "\")") with
    | .error _ => none
    | .ok f =>
      some { id := routeID ns name idHost "" svc.externalName,
             backendType := .network, backend := u, filters := f,
             hostRegexps := hostRegexps }

/-- convertPathRule of ingress.go (lines 155-245); none models a non-nil
error.  When the port lookup fails the error is dropped and the endpoint
list stays empty; a resolved service with no endpoints yields a shunt route
carrying the id, host regexp, path and traffic settings. -/
def convertPathRule (co : Collab) (state : ClusterState)
    (metadata : Metadata) (host : String) (prule : PathRule)
    (pathMode : PathMode) (allowedExternalNames : String → Bool) :
    Option KRoute :=
  let ns := metadata.namespaceVal
  let name := metadata.name
  match prule.backend with
  | none => none
  | some backend =>
    let hostRegexp : List String :=
      if host ≠ "" then [co.createHostRx host] else []
    let svcPort := backend.servicePort
    let svcName := backend.serviceName
    match state.getService ns svcName with
    | none => none
    | some svc =>
      let shunted : KRoute :=
        shuntRoute (setTraffic
          (setPath pathMode
            { id := routeID ns name host prule.path svcName,
              hostRegexps := hostRegexp }
            prule.path)
          svcName backend.traffic backend.noopCount)
      match svc.getServicePort svcPort with
      | none => some shunted
      | some sp =>
        if svc.specType = "ExternalName" then
          externalNameRoute co ns name host hostRegexp svc sp
            allowedExternalNames
        else
          match state.getEndpointsByService ns svcName
              (backendProtocol metadata) sp with
          | [] => some shunted
          | [e] =>
            some (setTraffic
              (setPath pathMode
                { id := routeID ns name host prule.path svcName,
                  backend := e, hostRegexps := hostRegexp }
                prule.path)
              svcName backend.traffic backend.noopCount)
          | eps =>
            some (setTraffic
              (setPath pathMode
                { id := routeID ns name host prule.path svcName,
                  backendType := .lb, lbEndpoints := eps,
                  lbAlgorithm := getLoadBalancerAlgorithm metadata,
                  hostRegexps := hostRegexp }
                prule.path)
              svcName backend.traffic backend.noopCount)

/-- Modelled from the spec: an ingress item as the translator reads it:
metadata and the optional spec default backend. -/
structure IngressItem where
  metadata : Metadata
  defaultBackend : Option IngressBackend

/-- convertDefaultBackend of ingress.go (lines 516-590); the outer none
models a non-nil error, the Boolean mirrors the Go ok result. -/
def convertDefaultBackend (co : Collab) (allowedExternalNames : String → Bool)
    (state : ClusterState) (i : IngressItem) :
    Option (Option KRoute × Bool) :=
  match i.defaultBackend with
  | none => some (none, false)
  | some db =>
    let ns := i.metadata.namespaceVal
    let name := i.metadata.name
    let svcName := db.serviceName
    let svcPort := db.servicePort
    match state.getService ns svcName with
    | none => none
    | some svc =>
      match svc.getServicePort svcPort with
      | none => some (some (shuntRoute { id := routeID ns name "" "" "" }), true)
      | some sp =>
        if svc.specType = "ExternalName" then
          match externalNameRoute co ns name "default" [] svc sp
              allowedExternalNames with
          | some r => some (some r, true)
          | none => none
        else
          match state.getEndpointsByService ns svcName
              (backendProtocol i.metadata) sp with
          | [] =>
            some (some (shuntRoute { id := routeID ns name "" "" "" }), true)
          | [e] =>
            some (some { id := routeID ns name "" "" "", backend := e }, true)
          | eps =>
            some (some { id := routeID ns name "" "" "",
                         backendType := .lb, lbEndpoints := eps,
                         lbAlgorithm := getLoadBalancerAlgorithm i.metadata },
                  true)

/-- The joined annotation filter text of annotationFilter (ingress.go lines
607-616): the ratelimit and filter annotations joined with an arrow. -/
def annotationFilterText (i : IngressItem) : String :=
  let af0 : String :=
    match i.metadata.annotations ratelimitAnnotationKey with
    | some v => v
    | none => ""
  match i.metadata.annotations skipperfilterAnnotationKey with
  | some v => (if af0 ≠ "" then af0 ++ " -> " else af0) ++ v
  | none => af0

/-- annotationFilter of ingress.go (lines 606-626): the ratelimit and filter
annotations are joined with an arrow; a parse failure is logged and yields
no filters.  The second component is the log output. -/
def annotationFilter (co : Collab) (i : IngressItem) :
    List KFilter × List String :=
  if annotationFilterText i ≠ "" then
    match co.parseFilters (annotationFilterText i) with
    | .ok fs => (fs, [])
    | .error e => ([], ["Can not parse annotation filters: " ++ e])
  else ([], [])

/-- annotationPredicate of ingress.go (lines 629-635). -/
def annotationPredicate (i : IngressItem) : String :=
  match i.metadata.annotations skipperpredicateAnnotationKey with
  | some v => v
  | none => ""

/-- The routes annotation value read by extraRoutes (ingress.go line 640);
an absent annotation reads as the empty string, as with a Go map index. -/
def extraRoutesText (i : IngressItem) : String :=
  match i.metadata.annotations skipperRoutesAnnotationKey with
  | some v => v
  | none => ""

/-- extraRoutes of ingress.go (lines 638-649): a parse failure of the routes
annotation is logged and yields no extra routes.  The second component is
the log output. -/
def extraRoutes (co : Collab) (i : IngressItem) : List KRoute × List String :=
  if extraRoutesText i ≠ "" then
    match co.eskipParse (extraRoutesText i) with
    | .ok rs => (rs, [])
    | .error e =>
      ([], ["failed to parse routes from " ++ skipperRoutesAnnotationKey
              ++ ", skipping: " ++ e])
  else ([], [])

/-- The inner removal loop of applyAnnotationPredicates (ingress.go lines
283-292): drop the first predicate named PathSubtree or Path. -/
def removeFirstPathPred : List KPredicate → List KPredicate
  | [] => []
  | p :: ps =>
    if p.name ≠ "PathSubtree" ∧ p.name ≠ "Path" then
      p :: removeFirstPathPred ps
    else ps

/-- applyAnnotationPredicates of ingress.go (lines 264-298). -/
def applyAnnotationPredicates (co : Collab) (m : PathMode) (r : KRoute)
    (annVal : String) : Except String KRoute :=
  if annVal = "" then .ok r
  else
    match co.parsePredicates annVal with
    | .error e => .error e
    | .ok preds =>
      let r1 :=
        if m = .prefixMode then
          preds.foldl (fun r p =>
            if p.name ≠ "Path" ∧ p.name ≠ "PathSubtree" then r
            else
              { r with
                path := ""
                predicates := removeFirstPathPred r.predicates }) r
        else r
      .ok { r1 with predicates := r1.predicates ++ preds }

/-- The annotation-predicate step of addEndpointsRule (ingress.go lines
343-347): a failure is logged and the unmodified route is kept; the route is
added to the host routes either way.  The second component is the log
output. -/
def applyAnnotationPredicatesStep (co : Collab) (m : PathMode)
    (annotationPred : String) (endpointsRoute : KRoute) :
    KRoute × List String :=
  match applyAnnotationPredicates co m endpointsRoute annotationPred with
  | .ok r => (r, [])
  | .error e =>
    (endpointsRoute, ["failed to apply annotation predicates: " ++ e])

/-- One path entry of an ingress rule as computeBackendWeights reads it: the
path and the (always present, pointer-dereferenced) backend. -/
structure WeightedEntry where
  path : String
  backend : IngressBackend
deriving DecidableEq, Repr

/-- The pathInfo record of computeBackendWeights (ingress.go lines 435-440);
the Go lastActive backend pointer is modelled by the entry's index. -/
structure PathInfo where
  sum : ℚ := 0
  lastActive : Option ℕ := none
  count : ℤ := 0
  weightsCount : ℤ := 0
deriving DecidableEq, Repr

/-- Lookup in the pathInfos association list. -/
def lookupInfo (m : List (String × PathInfo)) (k : String) :
    Option PathInfo :=
  match m with
  | [] => none
  | (k2, v) :: rest => if k2 = k then some v else lookupInfo rest k

/-- Update (or insert) in the pathInfos association list. -/
def updateInfo (m : List (String × PathInfo)) (k : String) (v : PathInfo) :
    List (String × PathInfo) :=
  match m with
  | [] => [(k, v)]
  | (k2, v2) :: rest =>
    if k2 = k then (k, v) :: rest else (k2, v2) :: updateInfo rest k v

/-- The first pass of computeBackendWeights (ingress.go lines 443-460): sum
the configured weights per path, remember the last entry with a positive
weight and count both the positive weights and the entries with no
configured weight. -/
def weightsStep1 (weights : String → Option ℚ)
    (m : List (String × PathInfo)) (ie : ℕ × WeightedEntry) :
    List (String × PathInfo) :=
  let sc := (lookupInfo m ie.2.path).getD {}
  match weights ie.2.backend.serviceName with
  | some w =>
    let sc1 := { sc with sum := sc.sum + w }
    let sc2 :=
      if 0 < w then
        { sc1 with lastActive := some ie.1,
                   weightsCount := sc1.weightsCount + 1 }
      else sc1
    updateInfo m ie.2.path sc2
  | none => updateInfo m ie.2.path { sc with count := sc.count + 1 }

/-- One step of the second pass of computeBackendWeights (ingress.go lines
463-491): the last entry with a positive weight gets traffic one (and the
infos are left untouched, mirroring the Go continue); any other configured
entry gets its weight over the remaining sum, the sum, weights count and
count are decremented and a noop count is set when more than two positive
weights remain; an entry with no configured weight gets one over the
remaining count when the sum is zero and the count positive, and the count
is decremented. -/
def weightsStep2 (weights : String → Option ℚ)
    (m : List (String × PathInfo)) (ie : ℕ × WeightedEntry) :
    List (String × PathInfo) × WeightedEntry :=
  match lookupInfo m ie.2.path with
  | none => (m, ie.2)
  | some sc =>
    match weights ie.2.backend.serviceName with
    | some w =>
      if sc.lastActive = some ie.1 then
        (m, { ie.2 with backend := { ie.2.backend with traffic := 1 } })
      else
        let e :=
          { ie.2 with backend :=
            { ie.2.backend with
              traffic := w / sc.sum
              noopCount :=
                if 2 < sc.weightsCount then sc.weightsCount - 2
                else ie.2.backend.noopCount } }
        (updateInfo m ie.2.path
          { sc with
            sum := sc.sum - w
            weightsCount := sc.weightsCount - 1
            count := sc.count - 1 },
         e)
    | none =>
      let e :=
        if sc.sum = 0 ∧ 0 < sc.count then
          { ie.2 with backend :=
            { ie.2.backend with traffic := 1 / (sc.count : ℚ) } }
        else ie.2
      (updateInfo m ie.2.path { sc with count := sc.count - 1 }, e)

/-- The second pass of computeBackendWeights, threading the pathInfos map
over the indexed entries. -/
def computeBackendWeightsAux (weights : String → Option ℚ) :
    List (String × PathInfo) → List (ℕ × WeightedEntry) → List WeightedEntry
  | _, [] => []
  | m, ie :: rest =>
    let p := weightsStep2 weights m ie
    p.2 :: computeBackendWeightsAux weights p.1 rest

/-- computeBackendWeights of ingress.go (lines 434-492) on the path entries
of one rule; Go float64 weights are modelled by the rationals (a Go division
by a zero sum yields a non-number, here it yields zero). -/
def computeBackendWeights (weights : String → Option ℚ)
    (paths : List WeightedEntry) : List WeightedEntry :=
  let ies := paths.enum
  computeBackendWeightsAux weights (ies.foldl (weightsStep1 weights) []) ies

theorem setPath_id (m : PathMode) (r : KRoute) (p : String) :
    (setPath m r p).id = r.id := by
  unfold setPath
  repeat' split
  all_goals rfl

theorem setPath_hostRegexps (m : PathMode) (r : KRoute) (p : String) :
    (setPath m r p).hostRegexps = r.hostRegexps := by
  unfold setPath
  repeat' split
  all_goals rfl

theorem setPath_regexpMode (r : KRoute) (p : String) (h : p ≠ "") :
    (setPath .regexpMode r p).pathRegexps = [p] := by
  unfold setPath
  rw [if_neg h]

theorem setPath_prefixMode (r : KRoute) (p : String) (h : p ≠ "") :
    (setPath .prefixMode r p).predicates
      = r.predicates ++ [⟨"PathSubtree", [KArg.str p]⟩] := by
  unfold setPath
  rw [if_neg h]

theorem setTraffic_id (r : KRoute) (sn : String) (w : ℚ) (n : ℤ) :
    (setTraffic r sn w n).id = r.id := by
  unfold setTraffic
  split
  all_goals rfl

theorem setTraffic_hostRegexps (r : KRoute) (sn : String) (w : ℚ) (n : ℤ) :
    (setTraffic r sn w n).hostRegexps = r.hostRegexps := by
  unfold setTraffic
  split
  all_goals rfl

theorem setTraffic_pathRegexps (r : KRoute) (sn : String) (w : ℚ) (n : ℤ) :
    (setTraffic r sn w n).pathRegexps = r.pathRegexps := by
  unfold setTraffic
  split
  all_goals rfl

theorem setTraffic_pred_mem (r : KRoute) (sn : String) (w : ℚ) (n : ℤ)
    (q : KPredicate) (h : q ∈ r.predicates) :
    q ∈ (setTraffic r sn w n).predicates := by
  unfold setTraffic
  split
  · simp only [List.mem_append, List.mem_cons]
    exact Or.inr (Or.inr h)
  · simp only [List.mem_append]
    exact Or.inr h

theorem setTraffic_traffic_mem (r : KRoute) (sn : String) (w : ℚ) (n : ℤ)
    (h0 : 0 < w) (h1 : w < 1) :
    (⟨trafficName, [KArg.num w]⟩ : KPredicate)
      ∈ (setTraffic r sn w n).predicates := by
  unfold setTraffic
  rw [if_pos (And.intro h0 h1)]
  simp

theorem shuntRoute_id (r : KRoute) : (shuntRoute r).id = r.id := rfl

theorem shuntRoute_hostRegexps (r : KRoute) :
    (shuntRoute r).hostRegexps = r.hostRegexps := rfl

theorem shuntRoute_pathRegexps (r : KRoute) :
    (shuntRoute r).pathRegexps = r.pathRegexps := rfl

theorem shuntRoute_predicates (r : KRoute) :
    (shuntRoute r).predicates = r.predicates := rfl

theorem shuntRoute_backendType (r : KRoute) :
    (shuntRoute r).backendType = KBackendType.shunt := rfl

/-- The traffic shares computeBackendWeights actually assigns to a path
group with no configured weights: one over the number of remaining
entries, so 1/N, 1/(N-1), ..., 1/1 down the group. -/
def equalSplitTraffics (c : ℤ) : List WeightedEntry → List WeightedEntry
  | [] => []
  | e :: rest =>
    { e with backend := { e.backend with traffic := 1 / (c : ℚ) } }
      :: equalSplitTraffics (c - 1) rest

theorem pass1_none (weights : String → Option ℚ) (p : String) :
    ∀ (ies : List (ℕ × WeightedEntry)) (c : ℤ),
      (∀ ie ∈ ies,
        weights ie.2.backend.serviceName = none ∧ ie.2.path = p) →
      ies.foldl (weightsStep1 weights)
        [(p, { sum := 0, lastActive := none, count := c,
               weightsCount := 0 })]
        = [(p, { sum := 0, lastActive := none,
                 count := c + ies.length, weightsCount := 0 })] := by
  intro ies
  induction ies with
  | nil =>
    intro c _
    simp
  | cons ie rest ih =>
    intro c h
    obtain ⟨hw, hp⟩ := h ie (List.mem_cons_self _ _)
    show List.foldl (weightsStep1 weights)
      (weightsStep1 weights
        [(p, { sum := 0, lastActive := none, count := c,
               weightsCount := 0 })] ie) rest = _
    rw [show weightsStep1 weights
        [(p, { sum := 0, lastActive := none, count := c,
               weightsCount := 0 })] ie
        = [(p, { sum := 0, lastActive := none, count := c + 1,
                 weightsCount := 0 })] from by
      unfold weightsStep1
      simp [lookupInfo, hp, hw, updateInfo]]
    rw [ih (c + 1) (fun x hx => h x (List.mem_cons_of_mem _ hx))]
    rw [List.length_cons]
    rw [show c + ((rest.length + 1 : ℕ) : ℤ) = c + 1 + (rest.length : ℤ)
      from by
        push_cast
        ring]

theorem pass2_none (weights : String → Option ℚ) (p : String) :
    ∀ (ies : List (ℕ × WeightedEntry)) (c : ℤ),
      (∀ ie ∈ ies,
        weights ie.2.backend.serviceName = none ∧ ie.2.path = p) →
      (ies.length : ℤ) ≤ c →
      computeBackendWeightsAux weights
        [(p, { sum := 0, lastActive := none, count := c,
               weightsCount := 0 })] ies
        = equalSplitTraffics c (ies.map Prod.snd) := by
  intro ies
  induction ies with
  | nil =>
    intro c _ _
    rfl
  | cons ie rest ih =>
    intro c h hlen
    obtain ⟨hw, hp⟩ := h ie (List.mem_cons_self _ _)
    rw [List.length_cons] at hlen
    have h0c : 0 < c := by
      push_cast at hlen
      omega
    show (weightsStep2 weights
        [(p, { sum := 0, lastActive := none, count := c,
               weightsCount := 0 })] ie).2
      :: computeBackendWeightsAux weights
        (weightsStep2 weights
          [(p, { sum := 0, lastActive := none, count := c,
                 weightsCount := 0 })] ie).1 rest = _
    rw [show weightsStep2 weights
        [(p, { sum := 0, lastActive := none, count := c,
               weightsCount := 0 })] ie
        = ([(p, { sum := 0, lastActive := none, count := c - 1,
                  weightsCount := 0 })],
           { ie.2 with backend :=
             { ie.2.backend with traffic := 1 / (c : ℚ) } }) from by
      unfold weightsStep2
      simp [lookupInfo, hp, hw, updateInfo, h0c]]
    rw [ih (c - 1) (fun x hx => h x (List.mem_cons_of_mem _ hx))
      (by push_cast at hlen ⊢; omega)]
    rfl

/-- The traffic shares computeBackendWeights assigns to a path group whose
entries all carry positive configured weights: the last entry gets traffic
one, every earlier entry gets its weight over the sum of the remaining
weights, and a noop count is set while more than two weighted entries
remain. -/
def weightedTraffics (w : IngressBackend → ℚ) (p : String) :
    ℤ → List IngressBackend → List WeightedEntry
  | _, [] => []
  | _, [b] => [⟨p, { b with traffic := 1 }⟩]
  | wc, b :: b2 :: rest =>
    ⟨p, { b with
        traffic := w b / (((b :: b2 :: rest).map w).sum)
        noopCount := if 2 < wc then wc - 2 else b.noopCount }⟩
      :: weightedTraffics w p (wc - 1) (b2 :: rest)

theorem snd_mem_of_mem_enumFrom {α : Type} :
    ∀ {l : List α} {k : ℕ} {ie : ℕ × α}, ie ∈ l.enumFrom k → ie.2 ∈ l := by
  intro l
  induction l with
  | nil =>
    intro k ie h
    cases h
  | cons x xs ih =>
    intro k ie h
    rw [show (x :: xs).enumFrom k = (k, x) :: xs.enumFrom (k + 1) from rfl,
      List.mem_cons] at h
    rcases h with h | h
    · subst h
      exact List.mem_cons_self _ _
    · exact List.mem_cons_of_mem _ (ih h)

theorem pass1_pos (weights : String → Option ℚ) (p : String)
    (w : IngressBackend → ℚ) :
    ∀ (bs2 : List IngressBackend) (k : ℕ) (s : ℚ) (c wc : ℤ)
      (la : Option ℕ),
      (∀ b ∈ bs2, weights b.serviceName = some (w b) ∧ 0 < w b) →
      bs2 ≠ [] →
      ((bs2.map (fun b => (⟨p, b⟩ : WeightedEntry))).enumFrom k).foldl
          (weightsStep1 weights) [(p, ⟨s, la, c, wc⟩)]
        = [(p, ⟨s + (bs2.map w).sum, some (k + (bs2.length - 1)), c,
                wc + bs2.length⟩)] := by
  intro bs2
  induction bs2 with
  | nil =>
    intro k s c wc la _ hne
    exact absurd rfl hne
  | cons b rest ih =>
    intro k s c wc la h _
    obtain ⟨hwb, hpos⟩ := h b (List.mem_cons_self _ _)
    show List.foldl (weightsStep1 weights)
      (weightsStep1 weights [(p, ⟨s, la, c, wc⟩)] (k, ⟨p, b⟩))
      ((rest.map (fun b => (⟨p, b⟩ : WeightedEntry))).enumFrom (k + 1)) = _
    rw [show weightsStep1 weights [(p, ⟨s, la, c, wc⟩)] (k, ⟨p, b⟩)
        = [(p, ⟨s + w b, some k, c, wc + 1⟩)] from by
      unfold weightsStep1
      simp [lookupInfo, updateInfo, hwb, hpos]]
    cases rest with
    | nil => simp
    | cons b2 rest2 =>
      rw [ih (k + 1) (s + w b) c (wc + 1) (some k)
        (fun x hx => h x (List.mem_cons_of_mem _ hx)) (by simp)]
      simp only [List.map_cons, List.sum_cons, List.length_cons]
      refine congrArg (fun x => [(p, x)]) ?_
      rw [PathInfo.mk.injEq]
      refine ⟨by ring, ?_, rfl, ?_⟩
      · rw [Option.some.injEq]
        omega
      · push_cast
        ring

theorem pass2_pos_step (weights : String → Option ℚ) (p : String)
    (w : IngressBackend → ℚ) (b b2 : IngressBackend)
    (rest2 : List IngressBackend) (k : ℕ) (c : ℤ)
    (hwb : weights b.serviceName = some (w b)) :
    weightsStep2 weights
      [(p, ⟨((b :: b2 :: rest2).map w).sum,
            some (k + ((b :: b2 :: rest2).length - 1)), c,
            ((b :: b2 :: rest2).length : ℤ)⟩)] (k, ⟨p, b⟩)
      = ([(p, ⟨((b2 :: rest2).map w).sum,
              some ((k + 1) + ((b2 :: rest2).length - 1)), c - 1,
              ((b2 :: rest2).length : ℤ)⟩)],
         ⟨p, { b with
            traffic := w b / (((b :: b2 :: rest2).map w).sum)
            noopCount :=
              if 2 < ((b :: b2 :: rest2).length : ℤ)
              then ((b :: b2 :: rest2).length : ℤ) - 2
              else b.noopCount }⟩) := by
  unfold weightsStep2
  simp only [show lookupInfo
      [(p, (⟨((b :: b2 :: rest2).map w).sum,
            some (k + ((b :: b2 :: rest2).length - 1)), c,
            ((b :: b2 :: rest2).length : ℤ)⟩ : PathInfo))] p
      = some ⟨((b :: b2 :: rest2).map w).sum,
          some (k + ((b :: b2 :: rest2).length - 1)), c,
          ((b :: b2 :: rest2).length : ℤ)⟩ from by
    simp [lookupInfo]]
  simp only [hwb]
  rw [if_neg (by
    intro hcontra
    rw [Option.some.injEq] at hcontra
    simp only [List.length_cons] at hcontra
    omega)]
  simp only [updateInfo, if_pos, List.length_cons, List.map_cons,
    List.sum_cons]
  rw [Prod.mk.injEq]
  constructor
  · refine congrArg (fun x => [(p, x)]) ?_
    rw [PathInfo.mk.injEq]
    refine ⟨by ring, ?_, rfl, ?_⟩
    · rw [Option.some.injEq]
      omega
    · push_cast
      ring
  · rfl

theorem pass2_pos (weights : String → Option ℚ) (p : String)
    (w : IngressBackend → ℚ) :
    ∀ (bs2 : List IngressBackend) (k : ℕ) (c : ℤ),
      (∀ b ∈ bs2, weights b.serviceName = some (w b) ∧ 0 < w b) →
      computeBackendWeightsAux weights
        [(p, ⟨(bs2.map w).sum, some (k + (bs2.length - 1)), c,
              (bs2.length : ℤ)⟩)]
        ((bs2.map (fun b => (⟨p, b⟩ : WeightedEntry))).enumFrom k)
        = weightedTraffics w p (bs2.length : ℤ) bs2 := by
  intro bs2
  induction bs2 with
  | nil =>
    intro k c _
    rfl
  | cons b rest ih =>
    intro k c h
    obtain ⟨hwb, hpos⟩ := h b (List.mem_cons_self _ _)
    cases rest with
    | nil =>
      show (weightsStep2 weights
          [(p, ⟨([b].map w).sum, some (k + (1 - 1)), c, ((1 : ℕ) : ℤ)⟩)]
          (k, ⟨p, b⟩)).2
        :: computeBackendWeightsAux weights
          (weightsStep2 weights
            [(p, ⟨([b].map w).sum, some (k + (1 - 1)), c, ((1 : ℕ) : ℤ)⟩)]
            (k, ⟨p, b⟩)).1 [] = _
      rw [show weightsStep2 weights
          [(p, ⟨([b].map w).sum, some (k + (1 - 1)), c, ((1 : ℕ) : ℤ)⟩)]
          (k, ⟨p, b⟩)
          = ([(p, ⟨([b].map w).sum, some (k + (1 - 1)), c,
                ((1 : ℕ) : ℤ)⟩)],
             ⟨p, { b with traffic := 1 }⟩) from by
        unfold weightsStep2
        simp [lookupInfo, hwb]]
      rfl
    | cons b2 rest2 =>
      show (weightsStep2 weights
          [(p, ⟨((b :: b2 :: rest2).map w).sum,
                some (k + ((b :: b2 :: rest2).length - 1)), c,
                ((b :: b2 :: rest2).length : ℤ)⟩)] (k, ⟨p, b⟩)).2
        :: computeBackendWeightsAux weights
          (weightsStep2 weights
            [(p, ⟨((b :: b2 :: rest2).map w).sum,
                  some (k + ((b :: b2 :: rest2).length - 1)), c,
                  ((b :: b2 :: rest2).length : ℤ)⟩)] (k, ⟨p, b⟩)).1
          (((b2 :: rest2).map
            (fun b => (⟨p, b⟩ : WeightedEntry))).enumFrom (k + 1)) = _
      rw [pass2_pos_step weights p w b b2 rest2 k c hwb]
      rw [ih (k + 1) (c - 1) (fun x hx => h x (List.mem_cons_of_mem _ hx))]
      rw [show weightedTraffics w p (((b :: b2 :: rest2).length : ℕ) : ℤ)
          (b :: b2 :: rest2)
          = ⟨p, { b with
              traffic := w b / (((b :: b2 :: rest2).map w).sum)
              noopCount :=
                if 2 < (((b :: b2 :: rest2).length : ℕ) : ℤ)
                then (((b :: b2 :: rest2).length : ℕ) : ℤ) - 2
                else b.noopCount }⟩
            :: weightedTraffics w p ((((b :: b2 :: rest2).length : ℕ) : ℤ)
              - 1) (b2 :: rest2) from rfl]
      rw [show ((((b :: b2 :: rest2).length : ℕ) : ℤ) - 1)
          = (((b2 :: rest2).length : ℕ) : ℤ) from by
        simp only [List.length_cons]
        push_cast
        ring]

theorem map_snd_enumFrom {α : Type} :
    ∀ (l : List α) (k : ℕ), (l.enumFrom k).map Prod.snd = l := by
  intro l
  induction l with
  | nil => intro k; rfl
  | cons x xs ih =>
    intro k
    show Prod.snd (k, x) :: (xs.enumFrom (k + 1)).map Prod.snd = x :: xs
    rw [ih (k + 1)]

/-- Reference description for the C9 claim: whether an entry's service has a
positive configured weight. -/
def hasPosWeight (weights : String → Option ℚ) (e : WeightedEntry) : Bool :=
  match weights e.backend.serviceName with
  | some w => decide (0 < w)
  | none => false

/-- Reference description for the C9 claim: the sum of the configured weights
of a path's entries (an entry with no configured weight contributes zero). -/
def groupSum (weights : String → Option ℚ) (p : String)
    (l : List (ℕ × WeightedEntry)) : ℚ :=
  ((l.filter (fun ie => decide (ie.2.path = p))).map
    (fun ie => (weights ie.2.backend.serviceName).getD 0)).sum

/-- Reference description for the C9 claim: the index of the last entry of a
path with a positive configured weight, if any. -/
def groupLastPos (weights : String → Option ℚ) (p : String)
    (l : List (ℕ × WeightedEntry)) : Option ℕ :=
  ((l.filter (fun ie =>
    decide (ie.2.path = p) && hasPosWeight weights ie.2)).getLast?).map
    Prod.fst

/-- Reference description for the C9 claim: how many entries of a path have
no configured weight. -/
def groupNone (weights : String → Option ℚ) (p : String)
    (l : List (ℕ × WeightedEntry)) : ℤ :=
  ((l.filter (fun ie =>
    decide (ie.2.path = p)
      && (weights ie.2.backend.serviceName).isNone)).length : ℤ)

/-- Reference description for the C9 claim: how many entries of a path have
a positive configured weight. -/
def groupPos (weights : String → Option ℚ) (p : String)
    (l : List (ℕ × WeightedEntry)) : ℤ :=
  ((l.filter (fun ie =>
    decide (ie.2.path = p) && hasPosWeight weights ie.2)).length : ℤ)

/-- Reference description for the C9 claim: the configured weights a prefix
of already processed entries of a path has consumed, the last positively
weighted entry (which consumes nothing) excepted. -/
def spentSum (weights : String → Option ℚ) (p : String) (la : Option ℕ)
    (done : List (ℕ × WeightedEntry)) : ℚ :=
  ((done.filter (fun ie =>
    decide (ie.2.path = p) && (weights ie.2.backend.serviceName).isSome
      && !(decide (la = some ie.1)))).map
    (fun ie => (weights ie.2.backend.serviceName).getD 0)).sum

/-- Reference description for the C9 claim: how many configured entries of a
path a prefix of already processed entries contains, the last positively
weighted entry excepted. -/
def spentConf (weights : String → Option ℚ) (p : String) (la : Option ℕ)
    (done : List (ℕ × WeightedEntry)) : ℤ :=
  ((done.filter (fun ie =>
    decide (ie.2.path = p) && (weights ie.2.backend.serviceName).isSome
      && !(decide (la = some ie.1)))).length : ℤ)

/-- Reference description for the C9 claim: the whole-group pathInfo of a
path as the first pass leaves it. -/
def gState (weights : String → Option ℚ)
    (l : List (ℕ × WeightedEntry)) (p : String) : PathInfo :=
  { sum := groupSum weights p l
    lastActive := groupLastPos weights p l
    count := groupNone weights p l
    weightsCount := groupPos weights p l }

/-- Reference description for the C9 claim: the pathInfo of a path after the
second pass has processed the prefix `done` of the whole entry list `all`:
the whole-group aggregates diminished by what the processed prefix consumed. -/
def refState (weights : String → Option ℚ)
    (all done : List (ℕ × WeightedEntry)) (p : String) : PathInfo :=
  { sum := groupSum weights p all
      - spentSum weights p (groupLastPos weights p all) done
    lastActive := groupLastPos weights p all
    count := groupNone weights p all
      - spentConf weights p (groupLastPos weights p all) done
      - groupNone weights p done
    weightsCount := groupPos weights p all
      - spentConf weights p (groupLastPos weights p all) done }

/-- Reference description for the C9 claim: the traffic an entry receives,
read off the closed-form state of its path.  The last positively weighted
entry of the path gets traffic one; any other configured entry gets its
weight over the remaining sum (and the noop count while more than two
weighted entries remain); an entry with no configured weight gets one over
the remaining count exactly when the remaining sum is zero and the
remaining count positive. -/
def refEntry (weights : String → Option ℚ)
    (all done : List (ℕ × WeightedEntry)) (ie : ℕ × WeightedEntry) :
    WeightedEntry :=
  let sc := refState weights all done ie.2.path
  match weights ie.2.backend.serviceName with
  | some w =>
    if sc.lastActive = some ie.1 then
      { ie.2 with backend := { ie.2.backend with traffic := 1 } }
    else
      { ie.2 with backend :=
        { ie.2.backend with
          traffic := w / sc.sum
          noopCount :=
            if 2 < sc.weightsCount then sc.weightsCount - 2
            else ie.2.backend.noopCount } }
  | none =>
    if sc.sum = 0 ∧ 0 < sc.count then
      { ie.2 with backend :=
        { ie.2.backend with traffic := 1 / (sc.count : ℚ) } }
    else ie.2

/-- Reference description for the C9 claim: the traffics of a list of
remaining entries, each read off the closed-form state after the entries
before it. -/
def refListAux (weights : String → Option ℚ)
    (all : List (ℕ × WeightedEntry)) :
    List (ℕ × WeightedEntry) → List (ℕ × WeightedEntry) →
      List WeightedEntry
  | _, [] => []
  | done, ie :: rest =>
    refEntry weights all done ie
      :: refListAux weights all (done ++ [ie]) rest

/-- Reference description for the C9 claim: the closed-form traffics of all
path entries of a rule. -/
def refTraffics (weights : String → Option ℚ)
    (paths : List WeightedEntry) : List WeightedEntry :=
  refListAux weights paths.enum [] paths.enum

theorem lookupInfo_updateInfo_self (m : List (String × PathInfo))
    (k : String) (v : PathInfo) :
    lookupInfo (updateInfo m k v) k = some v := by
  induction m with
  | nil => simp [updateInfo, lookupInfo]
  | cons kv rest ih =>
    rcases kv with ⟨k2, v2⟩
    by_cases h : k2 = k
    · simp [updateInfo, h, lookupInfo]
    · simp [updateInfo, h, lookupInfo, ih]

theorem lookupInfo_updateInfo_other (m : List (String × PathInfo))
    (k k2 : String) (v : PathInfo) (h : k2 ≠ k) :
    lookupInfo (updateInfo m k v) k2 = lookupInfo m k2 := by
  induction m with
  | nil => simp [updateInfo, lookupInfo, Ne.symm h]
  | cons kv rest ih =>
    rcases kv with ⟨k3, v3⟩
    by_cases h3 : k3 = k
    · subst h3
      simp [updateInfo, lookupInfo, Ne.symm h]
    · simp [updateInfo, h3, lookupInfo, ih]

theorem groupSum_append (weights : String → Option ℚ) (p : String)
    (l : List (ℕ × WeightedEntry)) (ie : ℕ × WeightedEntry) :
    groupSum weights p (l ++ [ie])
      = groupSum weights p l
        + (if ie.2.path = p
           then (weights ie.2.backend.serviceName).getD 0 else 0) := by
  unfold groupSum
  rw [List.filter_append]
  by_cases h : ie.2.path = p
  · simp [h]
  · simp [h]

theorem groupNone_append (weights : String → Option ℚ) (p : String)
    (l : List (ℕ × WeightedEntry)) (ie : ℕ × WeightedEntry) :
    groupNone weights p (l ++ [ie])
      = groupNone weights p l
        + (if ie.2.path = p ∧ weights ie.2.backend.serviceName = none
           then 1 else 0) := by
  unfold groupNone
  rw [List.filter_append]
  by_cases h : ie.2.path = p
  · rcases hw : weights ie.2.backend.serviceName with _ | w
    · simp [h, hw]
    · simp [h, hw]
  · simp [h]

theorem groupPos_append (weights : String → Option ℚ) (p : String)
    (l : List (ℕ × WeightedEntry)) (ie : ℕ × WeightedEntry) :
    groupPos weights p (l ++ [ie])
      = groupPos weights p l
        + (if ie.2.path = p ∧ hasPosWeight weights ie.2 = true
           then 1 else 0) := by
  unfold groupPos
  rw [List.filter_append]
  by_cases h : ie.2.path = p
  · by_cases h2 : hasPosWeight weights ie.2 = true
    · simp [h, h2]
    · simp [h, h2]
  · simp [h]

theorem groupLastPos_append (weights : String → Option ℚ) (p : String)
    (l : List (ℕ × WeightedEntry)) (ie : ℕ × WeightedEntry) :
    groupLastPos weights p (l ++ [ie])
      = if ie.2.path = p ∧ hasPosWeight weights ie.2 = true
        then some ie.1 else groupLastPos weights p l := by
  unfold groupLastPos
  rw [List.filter_append]
  by_cases h : ie.2.path = p
  · by_cases h2 : hasPosWeight weights ie.2 = true
    · simp [h, h2]
    · simp [h, h2]
  · simp [h]

theorem spentSum_append (weights : String → Option ℚ) (p : String)
    (la : Option ℕ) (l : List (ℕ × WeightedEntry))
    (ie : ℕ × WeightedEntry) :
    spentSum weights p la (l ++ [ie])
      = spentSum weights p la l
        + (if ie.2.path = p ∧ (weights ie.2.backend.serviceName).isSome
              ∧ la ≠ some ie.1
           then (weights ie.2.backend.serviceName).getD 0 else 0) := by
  unfold spentSum
  rw [List.filter_append]
  by_cases h : ie.2.path = p
  · by_cases h2 : (weights ie.2.backend.serviceName).isSome = true
    · by_cases h3 : la = some ie.1
      · simp [h, h2, h3]
      · simp [h, h2, h3]
    · simp [h, h2]
  · simp [h]

theorem spentConf_append (weights : String → Option ℚ) (p : String)
    (la : Option ℕ) (l : List (ℕ × WeightedEntry))
    (ie : ℕ × WeightedEntry) :
    spentConf weights p la (l ++ [ie])
      = spentConf weights p la l
        + (if ie.2.path = p ∧ (weights ie.2.backend.serviceName).isSome
              ∧ la ≠ some ie.1
           then 1 else 0) := by
  unfold spentConf
  rw [List.filter_append]
  by_cases h : ie.2.path = p
  · by_cases h2 : (weights ie.2.backend.serviceName).isSome = true
    · by_cases h3 : la = some ie.1
      · simp [h, h2, h3]
      · simp [h, h2, h3]
    · simp [h, h2]
  · simp [h]

theorem spentSum_nil (weights : String → Option ℚ) (p : String)
    (la : Option ℕ) : spentSum weights p la [] = 0 := rfl

theorem spentConf_nil (weights : String → Option ℚ) (p : String)
    (la : Option ℕ) : spentConf weights p la [] = 0 := rfl

theorem groupNone_nil (weights : String → Option ℚ) (p : String) :
    groupNone weights p [] = 0 := rfl

theorem refState_nil (weights : String → Option ℚ)
    (all : List (ℕ × WeightedEntry)) (p : String) :
    refState weights all [] p = gState weights all p := by
  simp [refState, gState, spentSum_nil, spentConf_nil, groupNone_nil]

theorem gState_append_unconf (weights : String → Option ℚ)
    (l : List (ℕ × WeightedEntry)) (ie : ℕ × WeightedEntry)
    (hw : weights ie.2.backend.serviceName = none) (p : String) :
    gState weights (l ++ [ie]) p
      = if ie.2.path = p
        then { sum := groupSum weights p l
               lastActive := groupLastPos weights p l
               count := groupNone weights p l + 1
               weightsCount := groupPos weights p l }
        else gState weights l p := by
  unfold gState
  rw [groupSum_append, groupNone_append, groupPos_append,
    groupLastPos_append]
  by_cases h : ie.2.path = p
  · simp [h, hw, hasPosWeight]
  · simp [h]

theorem gState_append_pos (weights : String → Option ℚ)
    (l : List (ℕ × WeightedEntry)) (ie : ℕ × WeightedEntry) (w : ℚ)
    (hw : weights ie.2.backend.serviceName = some w) (hpos : 0 < w)
    (p : String) :
    gState weights (l ++ [ie]) p
      = if ie.2.path = p
        then { sum := groupSum weights p l + w
               lastActive := some ie.1
               count := groupNone weights p l
               weightsCount := groupPos weights p l + 1 }
        else gState weights l p := by
  unfold gState
  rw [groupSum_append, groupNone_append, groupPos_append,
    groupLastPos_append]
  by_cases h : ie.2.path = p
  · simp [h, hw, hasPosWeight, hpos]
  · simp [h]

theorem gState_append_nonpos (weights : String → Option ℚ)
    (l : List (ℕ × WeightedEntry)) (ie : ℕ × WeightedEntry) (w : ℚ)
    (hw : weights ie.2.backend.serviceName = some w) (hnpos : ¬ 0 < w)
    (p : String) :
    gState weights (l ++ [ie]) p
      = if ie.2.path = p
        then { sum := groupSum weights p l + w
               lastActive := groupLastPos weights p l
               count := groupNone weights p l
               weightsCount := groupPos weights p l }
        else gState weights l p := by
  unfold gState
  rw [groupSum_append, groupNone_append, groupPos_append,
    groupLastPos_append]
  by_cases h : ie.2.path = p
  · simp [h, hw, hasPosWeight, hnpos]
  · simp [h]

theorem refState_append_skip (weights : String → Option ℚ)
    (all done : List (ℕ × WeightedEntry)) (ie : ℕ × WeightedEntry)
    (w : ℚ) (hw : weights ie.2.backend.serviceName = some w)
    (hla : groupLastPos weights ie.2.path all = some ie.1) (p : String) :
    refState weights all (done ++ [ie]) p
      = refState weights all done p := by
  unfold refState
  rw [spentSum_append, spentConf_append, groupNone_append]
  by_cases h : ie.2.path = p
  · subst h
    simp [hw, hla]
  · simp [h]

theorem refState_append_conf (weights : String → Option ℚ)
    (all done : List (ℕ × WeightedEntry)) (ie : ℕ × WeightedEntry)
    (w : ℚ) (hw : weights ie.2.backend.serviceName = some w)
    (hla : groupLastPos weights ie.2.path all ≠ some ie.1) (p : String) :
    refState weights all (done ++ [ie]) p
      = if ie.2.path = p
        then { sum := groupSum weights p all
                 - spentSum weights p (groupLastPos weights p all) done - w
               lastActive := groupLastPos weights p all
               count := groupNone weights p all
                 - spentConf weights p (groupLastPos weights p all) done
                 - groupNone weights p done - 1
               weightsCount := groupPos weights p all
                 - spentConf weights p (groupLastPos weights p all) done
                   - 1 }
        else refState weights all done p := by
  unfold refState
  rw [spentSum_append, spentConf_append, groupNone_append]
  by_cases h : ie.2.path = p
  · subst h
    have hC1 : ie.2.path = ie.2.path
        ∧ (weights ie.2.backend.serviceName).isSome = true
        ∧ groupLastPos weights ie.2.path all ≠ some ie.1 :=
      ⟨rfl, by simp [hw], hla⟩
    rw [if_pos hC1, if_pos hC1,
      if_neg (show ¬(ie.2.path = ie.2.path
        ∧ weights ie.2.backend.serviceName = none) from by simp [hw]),
      if_pos (show ie.2.path = ie.2.path from rfl)]
    rw [PathInfo.mk.injEq]
    refine ⟨?_, rfl, by ring, by ring⟩
    rw [hw, Option.getD_some]
    ring
  · simp [h]

theorem refState_append_unconf (weights : String → Option ℚ)
    (all done : List (ℕ × WeightedEntry)) (ie : ℕ × WeightedEntry)
    (hw : weights ie.2.backend.serviceName = none) (p : String) :
    refState weights all (done ++ [ie]) p
      = if ie.2.path = p
        then { sum := groupSum weights p all
                 - spentSum weights p (groupLastPos weights p all) done
               lastActive := groupLastPos weights p all
               count := groupNone weights p all
                 - spentConf weights p (groupLastPos weights p all) done
                 - groupNone weights p done - 1
               weightsCount := groupPos weights p all
                 - spentConf weights p (groupLastPos weights p all) done }
        else refState weights all done p := by
  unfold refState
  rw [spentSum_append, spentConf_append, groupNone_append]
  by_cases h : ie.2.path = p
  · subst h
    have hC1 : ¬(ie.2.path = ie.2.path
        ∧ (weights ie.2.backend.serviceName).isSome = true
        ∧ groupLastPos weights ie.2.path all ≠ some ie.1) := by
      simp [hw]
    rw [if_neg hC1, if_neg hC1,
      if_pos (show ie.2.path = ie.2.path
        ∧ weights ie.2.backend.serviceName = none from ⟨rfl, hw⟩),
      if_pos (show ie.2.path = ie.2.path from rfl)]
    rw [PathInfo.mk.injEq]
    refine ⟨by ring, rfl, by ring, by ring⟩
  · simp [h]

theorem weightsStep1_conf (weights : String → Option ℚ)
    (m : List (String × PathInfo)) (ie : ℕ × WeightedEntry) (w : ℚ)
    (hw : weights ie.2.backend.serviceName = some w) :
    weightsStep1 weights m ie
      = updateInfo m ie.2.path
          (if 0 < w then
            { sum := ((lookupInfo m ie.2.path).getD {}).sum + w
              lastActive := some ie.1
              count := ((lookupInfo m ie.2.path).getD {}).count
              weightsCount :=
                ((lookupInfo m ie.2.path).getD {}).weightsCount + 1 }
          else
            { sum := ((lookupInfo m ie.2.path).getD {}).sum + w
              lastActive := ((lookupInfo m ie.2.path).getD {}).lastActive
              count := ((lookupInfo m ie.2.path).getD {}).count
              weightsCount :=
                ((lookupInfo m ie.2.path).getD {}).weightsCount }) := by
  unfold weightsStep1
  rw [hw]

theorem weightsStep1_unconf (weights : String → Option ℚ)
    (m : List (String × PathInfo)) (ie : ℕ × WeightedEntry)
    (hw : weights ie.2.backend.serviceName = none) :
    weightsStep1 weights m ie
      = updateInfo m ie.2.path
          { sum := ((lookupInfo m ie.2.path).getD {}).sum
            lastActive := ((lookupInfo m ie.2.path).getD {}).lastActive
            count := ((lookupInfo m ie.2.path).getD {}).count + 1
            weightsCount :=
              ((lookupInfo m ie.2.path).getD {}).weightsCount } := by
  unfold weightsStep1
  rw [hw]

theorem weightsStep2_some (weights : String → Option ℚ)
    (m : List (String × PathInfo)) (ie : ℕ × WeightedEntry)
    (sc : PathInfo) (w : ℚ)
    (hlook : lookupInfo m ie.2.path = some sc)
    (hw : weights ie.2.backend.serviceName = some w) :
    weightsStep2 weights m ie
      = if sc.lastActive = some ie.1 then
          (m, { ie.2 with backend :=
            { ie.2.backend with traffic := 1 } })
        else
          (updateInfo m ie.2.path
             { sum := sc.sum - w
               lastActive := sc.lastActive
               count := sc.count - 1
               weightsCount := sc.weightsCount - 1 },
           { ie.2 with backend :=
             { ie.2.backend with
               traffic := w / sc.sum
               noopCount :=
                 if 2 < sc.weightsCount then sc.weightsCount - 2
                 else ie.2.backend.noopCount } }) := by
  unfold weightsStep2
  rw [hlook, hw]

theorem weightsStep2_unconf (weights : String → Option ℚ)
    (m : List (String × PathInfo)) (ie : ℕ × WeightedEntry)
    (sc : PathInfo)
    (hlook : lookupInfo m ie.2.path = some sc)
    (hw : weights ie.2.backend.serviceName = none) :
    weightsStep2 weights m ie
      = (updateInfo m ie.2.path
           { sum := sc.sum
             lastActive := sc.lastActive
             count := sc.count - 1
             weightsCount := sc.weightsCount },
         if sc.sum = 0 ∧ 0 < sc.count then
           { ie.2 with backend :=
             { ie.2.backend with traffic := 1 / (sc.count : ℚ) } }
         else ie.2) := by
  unfold weightsStep2
  rw [hlook, hw]

theorem refEntry_some (weights : String → Option ℚ)
    (all done : List (ℕ × WeightedEntry)) (ie : ℕ × WeightedEntry)
    (w : ℚ) (hw : weights ie.2.backend.serviceName = some w) :
    refEntry weights all done ie
      = if (refState weights all done ie.2.path).lastActive = some ie.1
        then { ie.2 with backend := { ie.2.backend with traffic := 1 } }
        else
          { ie.2 with backend :=
            { ie.2.backend with
              traffic := w / (refState weights all done ie.2.path).sum
              noopCount :=
                if 2 < (refState weights all done ie.2.path).weightsCount
                then (refState weights all done ie.2.path).weightsCount - 2
                else ie.2.backend.noopCount } } := by
  unfold refEntry
  rw [hw]

theorem refEntry_unconf (weights : String → Option ℚ)
    (all done : List (ℕ × WeightedEntry)) (ie : ℕ × WeightedEntry)
    (hw : weights ie.2.backend.serviceName = none) :
    refEntry weights all done ie
      = if (refState weights all done ie.2.path).sum = 0
            ∧ 0 < (refState weights all done ie.2.path).count
        then { ie.2 with backend :=
          { ie.2.backend with
            traffic :=
              1 / ((refState weights all done ie.2.path).count : ℚ) } }
        else ie.2 := by
  unfold refEntry
  rw [hw]

theorem update_preserves_isSome (m : List (String × PathInfo))
    (k : String) (v : PathInfo) (p : String)
    (h : (lookupInfo m p).isSome = true) :
    (lookupInfo (updateInfo m k v) p).isSome = true := by
  by_cases hp : p = k
  · subst hp
    rw [lookupInfo_updateInfo_self]
    rfl
  · rw [lookupInfo_updateInfo_other m k p v hp]
    exact h

theorem inv2_step (m : List (String × PathInfo))
    (done : List (ℕ × WeightedEntry)) (ie : ℕ × WeightedEntry)
    (v : PathInfo)
    (h2 : ∀ p, (∃ x ∈ done, x.2.path = p) →
      (lookupInfo m p).isSome = true) :
    ∀ p, (∃ x ∈ done ++ [ie], x.2.path = p) →
      (lookupInfo (updateInfo m ie.2.path v) p).isSome = true := by
  intro p hex
  rcases hex with ⟨x, hx, hxp⟩
  rw [List.mem_append, List.mem_singleton] at hx
  rcases hx with hx | hx
  · exact update_preserves_isSome m ie.2.path v p (h2 p ⟨x, hx, hxp⟩)
  · subst hx
    cases hxp
    rw [lookupInfo_updateInfo_self]
    rfl

theorem inv1_update (m : List (String × PathInfo)) (q : String)
    (v : PathInfo) (f : String → PathInfo)
    (hq : f q = v)
    (hother : ∀ p, p ≠ q → f p = (lookupInfo m p).getD {}) :
    ∀ p, (lookupInfo (updateInfo m q v) p).getD {} = f p := by
  intro p
  by_cases hp : p = q
  · subst hp
    rw [lookupInfo_updateInfo_self, Option.getD_some, hq]
  · rw [lookupInfo_updateInfo_other m q p v hp, hother p hp]

theorem pass1_state (weights : String → Option ℚ) :
    ∀ (rem done : List (ℕ × WeightedEntry))
      (m : List (String × PathInfo)),
      (∀ p, (lookupInfo m p).getD {} = gState weights done p) →
      (∀ p, (∃ x ∈ done, x.2.path = p) →
        (lookupInfo m p).isSome = true) →
      (∀ p, (lookupInfo (rem.foldl (weightsStep1 weights) m) p).getD {}
          = gState weights (done ++ rem) p)
        ∧ (∀ p, (∃ x ∈ done ++ rem, x.2.path = p) →
            (lookupInfo (rem.foldl (weightsStep1 weights) m) p).isSome
              = true) := by
  intro rem
  induction rem with
  | nil =>
    intro done m h1 h2
    simp only [List.foldl_nil, List.append_nil]
    exact ⟨h1, h2⟩
  | cons ie rest ih =>
    intro done m h1 h2
    rw [List.foldl_cons]
    have hg : ∀ p,
        (lookupInfo (weightsStep1 weights m ie) p).getD {}
          = gState weights (done ++ [ie]) p := by
      rcases hw : weights ie.2.backend.serviceName with _ | w
      · rw [weightsStep1_unconf weights m ie hw]
        apply inv1_update
        · rw [gState_append_unconf weights done ie hw, if_pos rfl,
            h1 ie.2.path]
          rfl
        · intro p hp
          rw [gState_append_unconf weights done ie hw,
            if_neg (Ne.symm hp), h1 p]
      · by_cases hpos : 0 < w
        · rw [weightsStep1_conf weights m ie w hw, if_pos hpos]
          apply inv1_update
          · rw [gState_append_pos weights done ie w hw hpos, if_pos rfl,
              h1 ie.2.path]
            rfl
          · intro p hp
            rw [gState_append_pos weights done ie w hw hpos,
              if_neg (Ne.symm hp), h1 p]
        · rw [weightsStep1_conf weights m ie w hw, if_neg hpos]
          apply inv1_update
          · rw [gState_append_nonpos weights done ie w hw hpos,
              if_pos rfl, h1 ie.2.path]
            rfl
          · intro p hp
            rw [gState_append_nonpos weights done ie w hw hpos,
              if_neg (Ne.symm hp), h1 p]
    have hs : ∀ p, (∃ x ∈ done ++ [ie], x.2.path = p) →
        (lookupInfo (weightsStep1 weights m ie) p).isSome = true := by
      rcases hw : weights ie.2.backend.serviceName with _ | w
      · rw [weightsStep1_unconf weights m ie hw]
        exact inv2_step m done ie _ h2
      · rw [weightsStep1_conf weights m ie w hw]
        exact inv2_step m done ie _ h2
    have res := ih (done ++ [ie]) (weightsStep1 weights m ie) hg hs
    simpa [List.append_assoc] using res

theorem pass2_state (weights : String → Option ℚ)
    (all : List (ℕ × WeightedEntry)) :
    ∀ (rem done : List (ℕ × WeightedEntry))
      (m : List (String × PathInfo)),
      (∀ p, (lookupInfo m p).getD {} = refState weights all done p) →
      (∀ p, (∃ x ∈ rem, x.2.path = p) →
        (lookupInfo m p).isSome = true) →
      computeBackendWeightsAux weights m rem
        = refListAux weights all done rem := by
  intro rem
  induction rem with
  | nil =>
    intro done m _ _
    rfl
  | cons ie rest ih =>
    intro done m h1 h2
    have hsome : (lookupInfo m ie.2.path).isSome = true :=
      h2 ie.2.path ⟨ie, List.mem_cons_self _ _, rfl⟩
    obtain ⟨sc, hlook⟩ : ∃ sc, lookupInfo m ie.2.path = some sc := by
      rcases hl : lookupInfo m ie.2.path with _ | sc
      · rw [hl] at hsome
        cases hsome
      · exact ⟨sc, rfl⟩
    have hsc : sc = refState weights all done ie.2.path := by
      have hh := h1 ie.2.path
      rw [hlook, Option.getD_some] at hh
      exact hh
    subst hsc
    have h2r : ∀ p, (∃ x ∈ rest, x.2.path = p) →
        (lookupInfo m p).isSome = true := by
      intro p hex
      rcases hex with ⟨x, hx, hxp⟩
      exact h2 p ⟨x, List.mem_cons_of_mem _ hx, hxp⟩
    rw [show computeBackendWeightsAux weights m (ie :: rest)
        = (weightsStep2 weights m ie).2
          :: computeBackendWeightsAux weights
            (weightsStep2 weights m ie).1 rest from rfl]
    rw [show refListAux weights all done (ie :: rest)
        = refEntry weights all done ie
          :: refListAux weights all (done ++ [ie]) rest from rfl]
    rcases hw : weights ie.2.backend.serviceName with _ | w
    · rw [weightsStep2_unconf weights m ie _ hlook hw,
        refEntry_unconf weights all done ie hw, List.cons.injEq]
      refine ⟨rfl, ?_⟩
      apply ih (done ++ [ie])
      · apply inv1_update
        · rw [refState_append_unconf weights all done ie hw, if_pos rfl]
          rfl
        · intro p hp
          rw [refState_append_unconf weights all done ie hw,
            if_neg (Ne.symm hp), h1 p]
      · intro p hex
        exact update_preserves_isSome m ie.2.path _ p (h2r p hex)
    · rw [weightsStep2_some weights m ie _ w hlook hw,
        refEntry_some weights all done ie w hw]
      by_cases hla : (refState weights all done ie.2.path).lastActive
          = some ie.1
      · rw [if_pos hla, if_pos hla, List.cons.injEq]
        refine ⟨rfl, ?_⟩
        apply ih (done ++ [ie])
        · intro p
          rw [refState_append_skip weights all done ie w hw hla p]
          exact h1 p
        · exact h2r
      · rw [if_neg hla, if_neg hla, List.cons.injEq]
        refine ⟨rfl, ?_⟩
        apply ih (done ++ [ie])
        · apply inv1_update
          · rw [refState_append_conf weights all done ie w hw hla,
              if_pos rfl]
            rfl
          · intro p hp
            rw [refState_append_conf weights all done ie w hw hla,
              if_neg (Ne.symm hp), h1 p]
        · intro p hex
          exact update_preserves_isSome m ie.2.path _ p (h2r p hex)

theorem computeBackendWeights_ref (weights : String → Option ℚ)
    (paths : List WeightedEntry) :
    computeBackendWeights weights paths = refTraffics weights paths := by
  show computeBackendWeightsAux weights
      (paths.enum.foldl (weightsStep1 weights) []) paths.enum
    = refListAux weights paths.enum [] paths.enum
  have hinit1 : ∀ p : String,
      (lookupInfo ([] : List (String × PathInfo)) p).getD {}
        = gState weights [] p := by
    intro p
    rfl
  have hinit2 : ∀ p : String,
      (∃ x ∈ ([] : List (ℕ × WeightedEntry)), x.2.path = p) →
      (lookupInfo ([] : List (String × PathInfo)) p).isSome = true := by
    intro p hex
    rcases hex with ⟨x, hx, _⟩
    cases hx
  have hp1 := pass1_state weights paths.enum [] [] hinit1 hinit2
  refine pass2_state weights paths.enum paths.enum [] _ ?_ ?_
  · intro p
    rw [refState_nil]
    have hh := hp1.1 p
    rw [List.nil_append] at hh
    exact hh
  · intro p hex
    have hh := hp1.2 p
    rw [List.nil_append] at hh
    exact hh hex

theorem computeBackendWeights_none (weights : String → Option ℚ)
    (p : String) (bs : List IngressBackend) (hne : bs ≠ [])
    (hw : ∀ b ∈ bs, weights b.serviceName = none) :
    computeBackendWeights weights (bs.map (fun b => ⟨p, b⟩))
      = equalSplitTraffics (bs.length : ℤ) (bs.map (fun b => ⟨p, b⟩)) := by
  have hcond : ∀ ie ∈ (bs.map
        (fun b => (⟨p, b⟩ : WeightedEntry))).enumFrom 0,
      weights ie.2.backend.serviceName = none ∧ ie.2.path = p := by
    intro ie hie
    have h2 := snd_mem_of_mem_enumFrom hie
    rw [List.mem_map] at h2
    obtain ⟨b, hb, hbe⟩ := h2
    rw [← hbe]
    exact ⟨hw b hb, rfl⟩
  rcases bs with _ | ⟨b0, rest⟩
  · exact absurd rfl hne
  · show computeBackendWeightsAux weights
        ((((0, (⟨p, b0⟩ : WeightedEntry))
            :: ((rest.map (fun b => (⟨p, b⟩ : WeightedEntry))).enumFrom 1))
          ).foldl (weightsStep1 weights) [])
        ((0, (⟨p, b0⟩ : WeightedEntry))
          :: ((rest.map (fun b => (⟨p, b⟩ : WeightedEntry))).enumFrom 1))
      = _
    rw [List.foldl_cons]
    rw [show weightsStep1 weights [] (0, (⟨p, b0⟩ : WeightedEntry))
        = [(p, ⟨0, none, 1, 0⟩)] from by
      unfold weightsStep1
      simp [lookupInfo, updateInfo, hw b0 (List.mem_cons_self _ _)]]
    rw [pass1_none weights p _ 1 (fun x hx => (hcond x
      (List.mem_cons_of_mem _ hx)))]
    rw [show (1 : ℤ)
        + ((rest.map (fun b => (⟨p, b⟩ : WeightedEntry))).enumFrom 1).length
        = (((b0 :: rest).length : ℕ) : ℤ) from by
      simp only [List.enumFrom_length, List.length_map, List.length_cons]
      push_cast
      ring]
    rw [show ((0, (⟨p, b0⟩ : WeightedEntry))
          :: ((rest.map (fun b => (⟨p, b⟩ : WeightedEntry))).enumFrom 1))
        = (((b0 :: rest).map
            (fun b => (⟨p, b⟩ : WeightedEntry))).enumFrom 0) from rfl]
    rw [pass2_none weights p _ _ hcond (by
      simp only [List.enumFrom_length, List.length_map]
      exact le_refl _)]
    rw [map_snd_enumFrom]

theorem computeBackendWeights_pos (weights : String → Option ℚ)
    (p : String) (w : IngressBackend → ℚ) (bs : List IngressBackend)
    (hne : bs ≠ [])
    (hw : ∀ b ∈ bs, weights b.serviceName = some (w b) ∧ 0 < w b) :
    computeBackendWeights weights (bs.map (fun b => ⟨p, b⟩))
      = weightedTraffics w p (bs.length : ℤ) bs := by
  rcases bs with _ | ⟨b0, rest⟩
  · exact absurd rfl hne
  · obtain ⟨hw0, hp0⟩ := hw b0 (List.mem_cons_self _ _)
    show computeBackendWeightsAux weights
        ((((0, (⟨p, b0⟩ : WeightedEntry))
            :: ((rest.map (fun b => (⟨p, b⟩ : WeightedEntry))).enumFrom 1))
          ).foldl (weightsStep1 weights) [])
        ((0, (⟨p, b0⟩ : WeightedEntry))
          :: ((rest.map (fun b => (⟨p, b⟩ : WeightedEntry))).enumFrom 1))
      = _
    rw [List.foldl_cons]
    rw [show weightsStep1 weights [] (0, (⟨p, b0⟩ : WeightedEntry))
        = [(p, ⟨w b0, some 0, 0, 1⟩)] from by
      unfold weightsStep1
      simp [lookupInfo, updateInfo, hw0, hp0]]
    rcases rest with _ | ⟨b1, rest2⟩
    · show computeBackendWeightsAux weights [(p, ⟨w b0, some 0, 0, 1⟩)]
        ((0, (⟨p, b0⟩ : WeightedEntry))
          :: (([] : List WeightedEntry).enumFrom 1)) = _
      rw [show ([(p, (⟨w b0, some 0, 0, 1⟩ : PathInfo))])
          = [(p, ⟨([b0].map w).sum, some (0 + ([b0].length - 1)), 0,
              (([b0].length : ℕ) : ℤ)⟩)] from by
        simp]
      rw [show ((0, (⟨p, b0⟩ : WeightedEntry))
            :: (([] : List WeightedEntry).enumFrom 1))
          = (([b0].map (fun b => (⟨p, b⟩ : WeightedEntry))).enumFrom 0)
          from rfl]
      exact pass2_pos weights p w [b0] 0 0
        (fun x hx => hw x hx)
    · rw [pass1_pos weights p w (b1 :: rest2) 1 (w b0) 0 1 (some 0)
        (fun x hx => hw x (List.mem_cons_of_mem _ hx)) (by simp)]
      rw [show ([(p, (⟨w b0 + ((b1 :: rest2).map w).sum,
              some (1 + ((b1 :: rest2).length - 1)), 0,
              1 + ((b1 :: rest2).length : ℤ)⟩ : PathInfo))])
          = [(p, ⟨((b0 :: b1 :: rest2).map w).sum,
              some (0 + ((b0 :: b1 :: rest2).length - 1)), 0,
              (((b0 :: b1 :: rest2).length : ℕ) : ℤ)⟩)] from by
        refine congrArg (fun x => [(p, x)]) ?_
        rw [PathInfo.mk.injEq]
        refine ⟨by simp, ?_, rfl, ?_⟩
        · rw [Option.some.injEq]
          simp only [List.length_cons]
          omega
        · simp only [List.length_cons]
          push_cast
          ring]
      rw [show ((0, (⟨p, b0⟩ : WeightedEntry))
            :: (((b1 :: rest2).map
              (fun b => (⟨p, b⟩ : WeightedEntry))).enumFrom 1))
          = (((b0 :: b1 :: rest2).map
              (fun b => (⟨p, b⟩ : WeightedEntry))).enumFrom 0) from rfl]
      exact pass2_pos weights p w (b0 :: b1 :: rest2) 0 0 hw

/-- C9: computeBackendWeights (amended).  For every rule - every list of
path entries and every weights function, mixed and zero-weight groups
included - the assigned traffics follow the closed-form law refTraffics:
each entry is read off the state of its path, which equals the whole-group
aggregates (configured-weight sum, index of the last positively weighted
entry, unconfigured count, positive count) diminished by what the already
processed entries of that path consumed; the last positively weighted
entry of a path gets Traffic exactly 1, every other configured entry
(zero and negative weights included) gets its weight over the remaining
sum (with the noop count set while more than two weighted entries
remain), and an unconfigured entry gets one over the remaining count
exactly when the remaining sum is zero and the remaining count positive.
In particular, on a single-path group whose backends all carry positive
configured weights the last gets 1 and every earlier one its weight over
the remaining sum; and when no backend of the group has a configured
weight the shares are not 1/N each: the k-th of the N backends (0-based)
gets Traffic 1/(N-k), that is 1/N, 1/(N-1), ..., 1. -/
theorem c9_backend_weights (weights : String → Option ℚ) (p : String)
    (w : IngressBackend → ℚ) (bs : List IngressBackend) (hne : bs ≠ []) :
    (∀ (ws : String → Option ℚ) (paths : List WeightedEntry),
        computeBackendWeights ws paths = refTraffics ws paths)
      ∧ ((∀ b ∈ bs, weights b.serviceName = none) →
        computeBackendWeights weights (bs.map (fun b => ⟨p, b⟩))
          = equalSplitTraffics (bs.length : ℤ)
              (bs.map (fun b => ⟨p, b⟩)))
      ∧ ((∀ b ∈ bs, weights b.serviceName = some (w b) ∧ 0 < w b) →
        computeBackendWeights weights (bs.map (fun b => ⟨p, b⟩))
          = weightedTraffics w p (bs.length : ℤ) bs) :=
  ⟨fun ws paths => computeBackendWeights_ref ws paths,
   fun hw => computeBackendWeights_none weights p bs hne hw,
   fun hw => computeBackendWeights_pos weights p w bs hne hw⟩

def c9SvcA : IngressBackend := { serviceName := "svc-a", servicePort := "80" }

def c9SvcB : IngressBackend := { serviceName := "svc-b", servicePort := "80" }

/-- C9 witness: both split laws at concrete inputs - the equal-split law
under a weights function configuring nothing, and the weighted law and the
closed form under one configuring weight one everywhere - with both laws'
hypotheses discharged concretely. -/
theorem c9_backend_weights_witness :
    (∀ b ∈ [c9SvcA, c9SvcB],
        (fun (_ : String) => (none : Option ℚ)) b.serviceName = none)
    ∧ (∀ b ∈ [c9SvcA, c9SvcB],
        (fun (_ : String) => some (1 : ℚ)) b.serviceName
            = some ((fun (_ : IngressBackend) => (1 : ℚ)) b)
          ∧ (0 : ℚ) < (fun (_ : IngressBackend) => (1 : ℚ)) b)
    ∧ computeBackendWeights (fun _ => (none : Option ℚ))
        ([c9SvcA, c9SvcB].map (fun b => ⟨"/", b⟩))
        = equalSplitTraffics (([c9SvcA, c9SvcB].length : ℕ) : ℤ)
            ([c9SvcA, c9SvcB].map (fun b => ⟨"/", b⟩))
    ∧ computeBackendWeights (fun _ => some (1 : ℚ))
        ([c9SvcA, c9SvcB].map (fun b => ⟨"/", b⟩))
        = weightedTraffics (fun _ => (1 : ℚ)) "/"
            (([c9SvcA, c9SvcB].length : ℕ) : ℤ) [c9SvcA, c9SvcB]
    ∧ computeBackendWeights (fun _ => some (1 : ℚ))
        ([c9SvcA, c9SvcB].map (fun b => ⟨"/", b⟩))
        = refTraffics (fun _ => some (1 : ℚ))
            ([c9SvcA, c9SvcB].map (fun b => ⟨"/", b⟩)) :=
  ⟨by decide, by decide,
   (c9_backend_weights (fun _ => none) "/" (fun _ => (1 : ℚ))
      [c9SvcA, c9SvcB] (by decide)).2.1 (by decide),
   (c9_backend_weights (fun _ => some (1 : ℚ)) "/" (fun _ => (1 : ℚ))
      [c9SvcA, c9SvcB] (by decide)).2.2 (by decide),
   (c9_backend_weights (fun _ => some (1 : ℚ)) "/" (fun _ => (1 : ℚ))
      [c9SvcA, c9SvcB] (by decide)).1 (fun _ => some (1 : ℚ))
     ([c9SvcA, c9SvcB].map (fun b => ⟨"/", b⟩))⟩

end Kube

/-!  ## The claims  -/

/-- C2: the string decoder applies the escape table (the seven control
escapes), decodes a backslash before any other character to that character
alone, and is the decoder applied to quoted-string literals: the claim's
seven literals decode as listed. -/
theorem c2_string_escape_table :
    (∀ (c : Char) (s : List Char),
      Eskip.munchString ('\\' :: c :: s)
        = Eskip.consAll [Eskip.escChar c] (Eskip.munchString s)) ∧
    Eskip.escChar 'a' = Char.ofNat 7 ∧
    Eskip.escChar 'b' = Char.ofNat 8 ∧
    Eskip.escChar 'f' = Char.ofNat 12 ∧
    Eskip.escChar 'n' = Char.ofNat 10 ∧
    Eskip.escChar 'r' = Char.ofNat 13 ∧
    Eskip.escChar 't' = Char.ofNat 9 ∧
    Eskip.escChar 'v' = Char.ofNat 11 ∧
    (∀ c : Char, c ∉ (['a', 'b', 'f', 'n', 'r', 't', 'v'] : List Char) →
      Eskip.escChar c = c) ∧
    Eskip.Parse ("* -> PathRegexp(\"\\\\hello\") -> <shunt>") =
      some [{ filters := [⟨("PathRegexp".toList),
                [Eskip.Arg.strA (('\\') :: ("hello".toList))]⟩],
              backendType := .shunt }] ∧
    Eskip.Parse ("* -> PathRegexp(\"\\\"\") -> <shunt>") =
      some [{ filters := [⟨("PathRegexp".toList), [Eskip.Arg.strA ['"']]⟩],
              backendType := .shunt }] ∧
    Eskip.Parse ("* -> PathRegexp(\"\\a\\b\\r\\n\\f\\t\\v\") -> <shunt>") =
      some [{ filters := [⟨("PathRegexp".toList),
                [Eskip.Arg.strA [Char.ofNat 7, Char.ofNat 8, Char.ofNat 13,
                   Char.ofNat 10, Char.ofNat 12, Char.ofNat 9,
                   Char.ofNat 11]]⟩],
              backendType := .shunt }] ∧
    Eskip.Parse ("* -> PathRegexp(\"\\ \") -> <shunt>") =
      some [{ filters := [⟨("PathRegexp".toList), [Eskip.Arg.strA [' ']]⟩],
              backendType := .shunt }] ∧
    Eskip.Parse ("* -> PathRegexp(\"\\zalando\") -> <shunt>") =
      some [{ filters := [⟨("PathRegexp".toList),
                [Eskip.Arg.strA ("zalando".toList)]⟩],
              backendType := .shunt }] ∧
    Eskip.Parse ("* -> PathRegexp(\"\\/path\") -> <shunt>") =
      some [{ filters := [⟨("PathRegexp".toList),
                [Eskip.Arg.strA ("/path".toList)]⟩],
              backendType := .shunt }] ∧
    Eskip.Parse ("* -> PathRegexp(\"\\\\/path\") -> <shunt>") =
      some [{ filters := [⟨("PathRegexp".toList),
                [Eskip.Arg.strA (('\\') :: ("/path".toList))]⟩],
              backendType := .shunt }] := by
  refine ⟨fun c s => rfl, rfl, rfl, rfl, rfl, rfl, rfl, rfl, ?_,
    rfl, rfl, rfl, rfl, rfl, rfl, rfl⟩
  intro c hc
  unfold Eskip.escChar
  simp only [List.mem_cons, List.not_mem_nil, or_false] at hc
  push_neg at hc
  obtain ⟨h1, h2, h3, h4, h5, h6, h7⟩ := hc
  rw [if_neg h1, if_neg h2, if_neg h3, if_neg h4, if_neg h5, if_neg h6,
    if_neg h7]

/-- C2 witness: the table and the backslash-discarding rule at concrete
inputs. -/
theorem c2_string_escape_table_witness : Eskip.escChar 'z' = 'z' :=
  c2_string_escape_table.2.2.2.2.2.2.2.2.1 'z' (by decide)

/-- C3 counterexample: the double-backslash escape inside a regex literal is
collapsed to a single backslash, so the decoder does not preserve every
backslash escape other than backslash-slash: the literal
slash bracket backslash backslash bracket slash decodes to a three-character
class, not to the four-character input body. -/
theorem c3_regexp_backslash_counterexample :
    Eskip.Parse ("PathRegexp(/[\\\\]/)-> <shunt>") =
      some [{ pathRegexps := [['[', '\\', ']']], backendType := .shunt }] ∧
    (['[', '\\', ']'] : List Char) ≠ ['[', '\\', '\\', ']'] :=
  ⟨rfl, by decide⟩

/-- C3 (amended): the regex decoder strips the backslash in the
backslash-slash escape, collapses backslash-backslash to one backslash,
and keeps every other backslash escape; an unescaped slash terminates the
literal outside a bracket expression but is consumed as literal content
inside one (an opening bracket enters the bracket state and a closing
bracket leaves it), and POSIX class tokens pass through, as the claim's
listed literals show - including the slash-inside-brackets literal, which
decodes to the three-character class open-bracket slash close-bracket. -/
theorem c3_regexp_decoder :
    (∀ (b : Bool) (d : Char) (s : List Char),
      Eskip.munchRegexp b ('\\' :: d :: s)
        = Eskip.consAll (Eskip.reEsc d) (Eskip.munchRegexp b s)) ∧
    Eskip.reEsc '/' = ['/'] ∧
    Eskip.reEsc '\\' = ['\\'] ∧
    (∀ d : Char, d ≠ '/' → d ≠ '\\' → Eskip.reEsc d = ['\\', d]) ∧
    (∀ rest : List Char,
      Eskip.munchRegexp false ('/' :: rest) = some ([], rest)) ∧
    (∀ rest : List Char,
      Eskip.munchRegexp true ('/' :: rest)
        = Eskip.consAll ['/'] (Eskip.munchRegexp true rest)) ∧
    (∀ (b : Bool) (rest : List Char),
      Eskip.munchRegexp b ('[' :: rest)
        = Eskip.consAll ['['] (Eskip.munchRegexp true rest)) ∧
    (∀ (b : Bool) (rest : List Char),
      Eskip.munchRegexp b (']' :: rest)
        = Eskip.consAll [']'] (Eskip.munchRegexp false rest)) ∧
    Eskip.Parse ("PathRegexp(/[\\[]/)-> <shunt>") =
      some [{ pathRegexps := [['[', '\\', '[', ']']],
              backendType := .shunt }] ∧
    Eskip.Parse ("PathRegexp(/[\\]]/)-> <shunt>") =
      some [{ pathRegexps := [['[', '\\', ']', ']']],
              backendType := .shunt }] ∧
    Eskip.Parse ("PathRegexp(/[\\\\]/)-> <shunt>") =
      some [{ pathRegexps := [['[', '\\', ']']], backendType := .shunt }] ∧
    Eskip.Parse ("PathRegexp(/[/]/)-> <shunt>") =
      some [{ pathRegexps := [['[', '/', ']']], backendType := .shunt }] ∧
    Eskip.Parse ("PathRegexp(/[\\/]/)-> <shunt>") =
      some [{ pathRegexps := [['[', '/', ']']], backendType := .shunt }] ∧
    Eskip.Parse ("PathRegexp(/\\//)-> <shunt>") =
      some [{ pathRegexps := [['/']], backendType := .shunt }] ∧
    Eskip.Parse ("PathRegexp(/[[:upper:]]/)-> <shunt>") =
      some [{ pathRegexps := [("[[:upper:]]".toList)],
              backendType := .shunt }] := by
  refine ⟨fun b d s => rfl, rfl, rfl, ?_, fun rest => rfl, fun rest => rfl,
    fun b rest => rfl, fun b rest => rfl, rfl, rfl, rfl, rfl, rfl, rfl, rfl⟩
  intro d h1 h2
  unfold Eskip.reEsc
  rw [if_neg h1, if_neg h2]

/-- C3 witness: the keep-other-escapes rule at a concrete character. -/
theorem c3_regexp_decoder_witness : Eskip.reEsc 'z' = ['\\', 'z'] :=
  c3_regexp_decoder.2.2.2.1 'z' (by decide) (by decide)

/-- C4: the load-balanced backend clause rejects the empty form, the
whitespace-only form and a lone algorithm identifier; a single quoted
endpoint yields one endpoint with no explicit algorithm; an algorithm with
two endpoints yields both in order; preceding filters are preserved. -/
theorem c4_lb_backend :
    Eskip.Parse ("* -> <>") = none ∧
    Eskip.Parse ("* -> <   >") = none ∧
    Eskip.Parse ("* -> <roundRobin>") = none ∧
    Eskip.Parse ("* -> <\"https://example.org\">") =
      some [{ backendType := .lb,
              lbEndpoints := [("https://example.org".toList)] }] ∧
    Eskip.Parse ("* -> <algFoo, \"url1\", \"url2\">") =
      some [{ backendType := .lb, lbAlgorithm := ("algFoo".toList),
              lbEndpoints := [("url1".toList), ("url2".toList)] }] ∧
    Eskip.Parse ("* -> foo() -> <algFoo, \"url1\", \"url2\">") =
      some [{ filters := [⟨("foo".toList), []⟩],
              backendType := .lb, lbAlgorithm := ("algFoo".toList),
              lbEndpoints := [("url1".toList), ("url2".toList)] }] :=
  ⟨rfl, rfl, rfl, rfl, rfl, rfl⟩

/-- C5: a number literal needs at least one digit after a decimal point: a
trailing point fails the whole parse, while a leading point or a full
decimal parses. -/
theorem c5_number_boundary :
    Eskip.Parse ("* -> number(3.) -> <shunt>") = none ∧
    (Eskip.Parse ("* -> number(.3) -> <shunt>")).isSome = true ∧
    (Eskip.Parse ("* -> number(3.14) -> <shunt>")).isSome = true :=
  ⟨rfl, rfl, rfl⟩

/-- C8: when a fragment parser fails on a user-supplied annotation value the
translator skips the annotation, logs the error and continues: the
annotation filters become empty with a log line, the extra routes become
empty with a log line, and a failing predicate annotation leaves the
endpoint route unchanged with a log line instead of aborting. -/
theorem c8_annotation_error_skip_log_continue
    (co : Kube.Collab) (i : Kube.IngressItem) (m : Kube.PathMode)
    (r : Kube.KRoute) (ann e : String) :
    (Kube.annotationFilterText i ≠ "" →
      co.parseFilters (Kube.annotationFilterText i) = .error e →
      Kube.annotationFilter co i
        = ([], [("Can not parse annotation filters: " ++ e)])) ∧
    (Kube.extraRoutesText i ≠ "" →
      co.eskipParse (Kube.extraRoutesText i) = .error e →
      Kube.extraRoutes co i
        = ([], [("failed to parse routes from "
                  ++ Kube.skipperRoutesAnnotationKey ++ ", skipping: " ++ e)])) ∧
    (Kube.applyAnnotationPredicates co m r ann = .error e →
      Kube.applyAnnotationPredicatesStep co m ann r
        = (r, [("failed to apply annotation predicates: " ++ e)])) := by
  refine ⟨?_, ?_, ?_⟩
  · intro hne herr
    unfold Kube.annotationFilter
    rw [if_pos hne, herr]
  · intro hne herr
    unfold Kube.extraRoutes
    rw [if_pos hne, herr]
  · intro herr
    unfold Kube.applyAnnotationPredicatesStep
    rw [herr]

/-- A collaborator whose fragment parsers always fail, for the C8 witness. -/
def c8Collab : Kube.Collab :=
  { parseFilters := fun _ => .error ("boom")
    parsePredicates := fun _ => .error ("boom")
    eskipParse := fun _ => .error ("boom")
    createHostRx := fun h => h }

/-- An ingress item carrying unparsable filter and routes annotations, for
the C8 witness. -/
def c8Item : Kube.IngressItem :=
  { metadata :=
      { namespaceVal := ("ns")
        name := ("ing")
        annotations := fun k =>
          if k = Kube.skipperfilterAnnotationKey then some ("bogus(")
          else if k = Kube.skipperRoutesAnnotationKey then some ("bogus(")
          else none }
    defaultBackend := none }

/-- C8 witness: the three skip-log-continue conclusions at a concrete
failing collaborator and item. -/
theorem c8_annotation_error_witness :
    Kube.annotationFilter c8Collab c8Item
      = ([], [("Can not parse annotation filters: boom")]) ∧
    Kube.extraRoutes c8Collab c8Item
      = ([], [("failed to parse routes from zalando.org/skipper-routes, skipping: boom")]) ∧
    Kube.applyAnnotationPredicatesStep c8Collab .defaultMode ("p()") {}
      = ({}, [("failed to apply annotation predicates: boom")]) := by
  obtain ⟨h1, h2, h3⟩ :=
    c8_annotation_error_skip_log_continue c8Collab c8Item .defaultMode {}
      ("p()") ("boom")
  exact ⟨h1 (by decide) rfl, h2 (by decide) rfl, h3 rfl⟩

/-- C9 counterexample: for a path whose two backends have no configured
weight, the second backend's traffic is set to one, not to one half as the
claim's equal-split reading states. -/
theorem c9_equal_split_counterexample :
    (Kube.computeBackendWeights (fun _ => none)
      [⟨("p"), { serviceName := ("s1"), servicePort := ("80") }⟩,
       ⟨("p"), { serviceName := ("s2"), servicePort := ("80") }⟩]).map
        (fun en => en.backend.traffic) = [1/2, 1] ∧
    ¬ ((1 : ℚ) = 1/2) := by
  constructor
  · simp [Kube.computeBackendWeights, Kube.weightsStep1, Kube.weightsStep2,
      Kube.computeBackendWeightsAux, Kube.lookupInfo, Kube.updateInfo,
      List.enum]
  · norm_num

/-- C10: a path rule whose service resolves but yields no endpoints becomes
a shunt route (id, host regexp, path and traffic settings still present) and
no error; the default backend behaves the same way. -/
theorem c10_zero_endpoints_shunt
    (co : Kube.Collab) (st : Kube.ClusterState) (meta : Kube.Metadata)
    (host : String) (prule : Kube.PathRule) (pm : Kube.PathMode)
    (allowed : String → Bool) (b : Kube.IngressBackend) (svc : Kube.Service)
    (i : Kube.IngressItem) (db : Kube.IngressBackend) (svc2 : Kube.Service) :
    (prule.backend = some b →
     st.getService meta.namespaceVal b.serviceName = some svc →
     (∀ sp, svc.getServicePort b.servicePort = some sp →
        svc.specType ≠ "ExternalName" ∧
        st.getEndpointsByService meta.namespaceVal b.serviceName
          (Kube.backendProtocol meta) sp = []) →
     Kube.convertPathRule co st meta host prule pm allowed =
       some (Kube.shuntRoute (Kube.setTraffic
         (Kube.setPath pm
           { id := Kube.routeID meta.namespaceVal meta.name host prule.path
               b.serviceName
             hostRegexps := if host ≠ "" then [co.createHostRx host] else [] }
           prule.path)
         b.serviceName b.traffic b.noopCount)) ∧
     (∀ rr, Kube.convertPathRule co st meta host prule pm allowed = some rr →
        rr.backendType = .shunt ∧
        rr.id = Kube.routeID meta.namespaceVal meta.name host prule.path
          b.serviceName ∧
        rr.hostRegexps = (if host ≠ "" then [co.createHostRx host] else []) ∧
        (pm = .regexpMode → prule.path ≠ "" → rr.pathRegexps = [prule.path]) ∧
        (0 < b.traffic → b.traffic < 1 →
          (⟨Kube.trafficName, [Kube.KArg.num b.traffic]⟩ : Kube.KPredicate)
            ∈ rr.predicates))) ∧
    (i.defaultBackend = some db →
     st.getService i.metadata.namespaceVal db.serviceName = some svc2 →
     (∀ sp, svc2.getServicePort db.servicePort = some sp →
        svc2.specType ≠ "ExternalName" ∧
        st.getEndpointsByService i.metadata.namespaceVal db.serviceName
          (Kube.backendProtocol i.metadata) sp = []) →
     Kube.convertDefaultBackend co allowed st i =
       some (some (Kube.shuntRoute
         { id := Kube.routeID i.metadata.namespaceVal i.metadata.name
             "" "" "" }), true)) := by
  constructor
  · intro hb hsvc hres
    have hmain :
        Kube.convertPathRule co st meta host prule pm allowed =
          some (Kube.shuntRoute (Kube.setTraffic
            (Kube.setPath pm
              { id := Kube.routeID meta.namespaceVal meta.name host prule.path
                  b.serviceName
                hostRegexps :=
                  if host ≠ "" then [co.createHostRx host] else [] }
              prule.path)
            b.serviceName b.traffic b.noopCount)) := by
      unfold Kube.convertPathRule
      rw [hb]
      simp only
      rw [hsvc]
      simp only
      cases hsp : svc.getServicePort b.servicePort with
      | none => rfl
      | some sp =>
        obtain ⟨hext, heps⟩ := hres sp hsp
        simp only
        rw [if_neg hext, heps]
    refine ⟨hmain, ?_⟩
    intro rr hrr
    rw [hmain, Option.some.injEq] at hrr
    subst hrr
    refine ⟨rfl, ?_, ?_, ?_, ?_⟩
    · rw [Kube.shuntRoute_id, Kube.setTraffic_id, Kube.setPath_id]
    · rw [Kube.shuntRoute_hostRegexps, Kube.setTraffic_hostRegexps,
        Kube.setPath_hostRegexps]
    · intro hpm hp
      subst hpm
      rw [Kube.shuntRoute_pathRegexps, Kube.setTraffic_pathRegexps,
        Kube.setPath_regexpMode _ _ hp]
    · intro h0 h1
      rw [Kube.shuntRoute_predicates]
      exact Kube.setTraffic_traffic_mem _ _ _ _ h0 h1
  · intro hdb hsvc hres
    unfold Kube.convertDefaultBackend
    rw [hdb]
    simp only
    rw [hsvc]
    simp only
    cases hsp : svc2.getServicePort db.servicePort with
    | none => rfl
    | some sp =>
      obtain ⟨hext, heps⟩ := hres sp hsp
      simp only
      rw [if_neg hext, heps]

/-- A service whose port lookup fails, for the C10 witness. -/
def c10Svc : Kube.Service :=
  { specType := ("ClusterIP"), externalName := ("")
    getServicePort := fun _ => none }

/-- A cluster state resolving every service to c10Svc with no endpoints, for
the C10 witness. -/
def c10State : Kube.ClusterState :=
  { getService := fun _ _ => some c10Svc
    getEndpointsByService := fun _ _ _ _ => [] }

/-- Metadata with no annotations, for the C10 witness. -/
def c10Meta : Kube.Metadata :=
  { namespaceVal := ("ns"), name := ("ing"), annotations := fun _ => none }

/-- A backend and path rule, for the C10 witness. -/
def c10Backend : Kube.IngressBackend :=
  { serviceName := ("svc"), servicePort := ("80"), traffic := 1/2 }

/-- C10 witness: the shunt conversion at a concrete state with no
endpoints. -/
theorem c10_zero_endpoints_shunt_witness :
    Kube.convertPathRule c8Collab c10State c10Meta ("h.example.org")
        { path := ("/p"), backend := some c10Backend } .regexpMode
        (fun _ => true) =
      some (Kube.shuntRoute (Kube.setTraffic
        (Kube.setPath .regexpMode
          { id := Kube.routeID ("ns") ("ing") ("h.example.org") ("/p") ("svc")
            hostRegexps := [("h.example.org")] }
          ("/p"))
        ("svc") (1/2) 0)) ∧
    Kube.convertDefaultBackend c8Collab (fun _ => true) c10State
        { metadata := c10Meta, defaultBackend := some c10Backend } =
      some (some (Kube.shuntRoute
        { id := Kube.routeID ("ns") ("ing") ("") ("") ("") }), true) := by
  obtain ⟨h1, h2⟩ :=
    c10_zero_endpoints_shunt c8Collab c10State c10Meta ("h.example.org")
      { path := ("/p"), backend := some c10Backend } .regexpMode
      (fun _ => true) c10Backend c10Svc
      { metadata := c10Meta, defaultBackend := some c10Backend }
      c10Backend c10Svc
  refine ⟨?_, ?_⟩
  · have := (h1 rfl rfl (fun sp h => absurd h (by simp [c10Svc]))).1
    exact this
  · exact h2 rfl rfl (fun sp h => absurd h (by simp [c10Svc]))
